import Mathlib

/-!
# Verification of RustyXML's entity codec, tokenizer and tree builder

This file gives a shallow embedding, in Lean 4, of the core of the RustyXML
library: the entity escape/unescape routines (`src/lib.rs`), the
character-driven tokenizer (`src/parser.rs`) and the tree builder
(`src/element_builder.rs`, `src/element.rs`), together with proofs of the
specified properties.

Rust `String`s are embedded as `List Char`; Rust `HashMap`s are embedded as
association lists that are only observed through lookup (or, for attribute
maps, through lookup and iteration in insertion order).
-/

namespace RustyXML

/-- Rust strings are embedded as lists of characters. -/
abbrev Str := List Char

/-! ## Entity codec (`src/lib.rs`) -/

/-- One step of `escape`: the replacement text `escape` pushes for a single
character (`src/lib.rs`, the `match` inside `escape`). -/
def escapeChar (c : Char) : Str :=
  if c = '&' then ['&', 'a', 'm', 'p', ';']
  else if c = '<' then ['&', 'l', 't', ';']
  else if c = '>' then ['&', 'g', 't', ';']
  else if c = '\'' then ['&', 'a', 'p', 'o', 's', ';']
  else if c = '"' then ['&', 'q', 'u', 'o', 't', ';']
  else [c]

/-- `escape` from `src/lib.rs`: replaces `&`, `<`, `>`, `'`, `"` by their
named entities, character by character. -/
def escape : Str → Str
  | [] => []
  | c :: cs => escapeChar c ++ escape cs

/-- Embedding of Rust's `str::split('&')`: the list of fragments between
`&` characters.  `splitOnAmp [] = [[]]`, and every `&` starts a new
fragment, exactly as in Rust. -/
def splitOnAmp : Str → List Str
  | [] => [[]]
  | c :: cs =>
    if c = '&' then [] :: splitOnAmp cs
    else
      match splitOnAmp cs with
      | [] => [[c]]
      | h :: t => (c :: h) :: t

/-- Embedding of `char::to_digit(radix)`: the numeric value of an ASCII
digit or letter, provided it is below the radix. -/
def digitVal (radix : Nat) (c : Char) : Option Nat :=
  let d : Option Nat :=
    if '0' ≤ c ∧ c ≤ '9' then some (c.toNat - '0'.toNat)
    else if 'a' ≤ c ∧ c ≤ 'z' then some (c.toNat - 'a'.toNat + 10)
    else if 'A' ≤ c ∧ c ≤ 'Z' then some (c.toNat - 'A'.toNat + 10)
    else none
  match d with
  | some v => if v < radix then some v else none
  | none => none

/-- The accumulator step of `u32::from_str_radix`: accept a digit and shift
the accumulator, failing on a non-digit or on overflow past `u32::MAX`. -/
def radixStep (radix : Nat) (acc : Option Nat) (c : Char) : Option Nat :=
  match acc, digitVal radix c with
  | some a, some d =>
    if a * radix + d < 2 ^ 32 then some (a * radix + d) else none
  | _, _ => none

/-- Embedding of `u32::from_str_radix`: an optional leading `+`, then at
least one digit valid for the radix, accumulated most-significant first;
overflow past `u32::MAX` is an error (`none`). -/
def parseRadix (radix : Nat) (s : Str) : Option Nat :=
  let t := if s.head? = some '+' then s.tail else s
  if t.isEmpty then none
  else t.foldl (radixStep radix) (some 0)

/-- The numeric-reference recognizer inside `unescape`: `#x<hex>` or
`#<decimal>`, parsed as a `u32`. -/
def numericValue (ent : Str) : Option Nat :=
  if ent.take 2 = ['#', 'x'] then parseRadix 16 (ent.drop 2)
  else if ent.take 1 = ['#'] then parseRadix 10 (ent.drop 1)
  else none

/-- The entity recognizer inside `unescape` (`src/lib.rs`): the named
entities `quot`, `apos`, `gt`, `lt`, `amp`, or a numeric reference
`#<decimal>` / `#x<hex>` passed through `char::from_u32` (valid Unicode
scalar values only). -/
def decodeEntity (ent : Str) : Option Char :=
  if ent = ['q', 'u', 'o', 't'] then some '"'
  else if ent = ['a', 'p', 'o', 's'] then some '\''
  else if ent = ['g', 't'] then some '>'
  else if ent = ['l', 't'] then some '<'
  else if ent = ['a', 'm', 'p'] then some '&'
  else
    match numericValue ent with
    | some n => if n.isValidChar then some (Char.ofNat n) else none
    | none => none

/-- Processing of one `&`-introduced fragment inside `unescape`: find the
first `;`, decode the token before it, keep the rest verbatim.  A missing
`;` yields the error `&` + fragment; an unknown token yields the error
`&` + token + `;`, exactly as in the source. -/
def decodeFrag (sub : Str) : Except Str Str :=
  let ent := sub.takeWhile (· ≠ ';')
  match sub.dropWhile (· ≠ ';') with
  | _ :: rest =>
    match decodeEntity ent with
    | some c => .ok (c :: rest)
    | none => .error ('&' :: ent ++ [';'])
  | [] => .error ('&' :: sub)

/-- Processing of all fragments after the first, in order; the first
failing fragment's error wins, as in the source's early `return Err`. -/
def unescapeFrags : List Str → Except Str Str
  | [] => .ok []
  | f :: fs =>
    match decodeFrag f with
    | .error e => .error e
    | .ok d =>
      match unescapeFrags fs with
      | .error e => .error e
      | .ok r => .ok (d ++ r)

/-- `unescape` from `src/lib.rs`: split on `&`, keep the first fragment
verbatim, decode each further fragment. -/
def unescape (input : Str) : Except Str Str :=
  match splitOnAmp input with
  | [] => .ok []
  | first :: rest =>
    match unescapeFrags rest with
    | .error e => .error e
    | .ok r => .ok (first ++ r)

/-! ### Specification-side notions for the error characterization -/

/-- The five named entities `unescape` recognizes. -/
def namedEntities : List Str :=
  [['q', 'u', 'o', 't'], ['a', 'p', 'o', 's'], ['g', 't'], ['l', 't'], ['a', 'm', 'p']]

/-- A fragment introduced by `&` is bad when it has no terminating `;`, or
when its token before the `;` is neither a named entity nor a numeric
reference denoting a valid Unicode scalar value (the condition of C9,
written from the spec's words). -/
def fragBad (frag : Str) : Prop :=
  ';' ∉ frag ∨
    (frag.takeWhile (· ≠ ';') ∉ namedEntities ∧
      ∀ n, numericValue (frag.takeWhile (· ≠ ';')) = some n → ¬n.isValidChar)

/-- The raw text `unescape`'s error carries for a bad fragment: the whole
fragment (with its `&`) when the `;` is missing, otherwise the offending
entity `&token;`. -/
def fragErr (frag : Str) : Str :=
  if ';' ∈ frag then '&' :: frag.takeWhile (· ≠ ';') ++ [';'] else '&' :: frag

/-- The list of decimal digit characters. -/
def decDigits : List Char := ['0', '1', '2', '3', '4', '5', '6', '7', '8', '9']

/-- The `d`-th decimal digit character (for `d < 10`). -/
def digitChar (d : Nat) : Char := decDigits.getD d '0'

/-- Decimal rendering of a natural number, most significant digit first
(fuelled so that it computes by `decide`). -/
def natDecAux : Nat → Nat → Str
  | 0, _ => []
  | fuel + 1, n =>
    if n < 10 then [digitChar n]
    else natDecAux fuel (n / 10) ++ [digitChar (n % 10)]

/-- Decimal rendering of a natural number. -/
def natDec (n : Nat) : Str := natDecAux (n + 1) n

/-! ## Tokenizer data model (`src/parser.rs`)

`HashMap<String, String>` namespace scopes are embedded as association
lists observed only through first-match lookup; `insert` conses the new
binding in front (the shadowed binding is never reachable again, so this
is observationally the map).  The attribute map is an association list in
insertion order with unique keys.  `expect`/panic paths of the source,
which are unreachable from the initial state, are embedded as errors
carrying the panic message. -/

/-- One namespace scope: prefix → namespace URI. -/
abbrev Scope := List (Str × Str)

/-- `HashMap::get` on a scope. -/
def scopeGet (m : Scope) (k : Str) : Option Str :=
  match m with
  | [] => none
  | (k', v) :: rest => if k' = k then some v else scopeGet rest k

/-- `HashMap::insert` on a scope (shadowing cons). -/
def scopeInsert (m : Scope) (k v : Str) : Scope := (k, v) :: m

/-- Attribute maps, keyed by `(local name, resolved namespace)`. -/
abbrev AttrMap := List ((Str × Option Str) × Str)

/-- `HashMap::get` on an attribute map. -/
def attrGet (m : AttrMap) (k : Str × Option Str) : Option Str :=
  match m with
  | [] => none
  | (k', v) :: rest => if k' = k then some v else attrGet rest k

/-- `StartTag` from `src/lib.rs` (`prefix` is renamed `pfx`; `prefix` is a
Lean keyword). -/
structure StartTag where
  name : Str
  ns : Option Str
  pfx : Option Str
  attributes : AttrMap
  deriving DecidableEq

/-- `EndTag` from `src/lib.rs`. -/
structure EndTag where
  name : Str
  ns : Option Str
  pfx : Option Str
  deriving DecidableEq

/-- `Event` from `src/parser.rs`. -/
inductive Event where
  | PI (s : Str)
  | ElementStart (t : StartTag)
  | ElementEnd (t : EndTag)
  | Characters (s : Str)
  | CDATA (s : Str)
  | Comment (s : Str)
  deriving DecidableEq

/-- `ParserError` from `src/parser.rs`. -/
structure ParserError where
  line : Nat
  col : Nat
  msg : String
  deriving DecidableEq

/-- `State` from `src/parser.rs`. -/
inductive State where
  | OutsideTag
  | TagOpened
  | InProcessingInstructions
  | InTagName
  | InCloseTagName
  | InTag
  | InAttrName
  | InAttrValue
  | ExpectDelimiter
  | ExpectClose
  | ExpectSpaceOrClose
  | InExclamationMark
  | InCDATAOpening
  | InCDATA
  | InCommentOpening
  | InComment1
  | InComment2
  | InDoctype
  deriving DecidableEq

def xmlPrefixStr : Str := "xml".toList

def xmlNamespaceStr : Str := "http://www.w3.org/XML/1998/namespace".toList

def xmlnsPrefixStr : Str := "xmlns".toList

def xmlnsNamespaceStr : Str := "http://www.w3.org/2000/xmlns/".toList

/-- The scope installed by `Parser::new`. -/
def initialScope : Scope :=
  [(xmlPrefixStr, xmlNamespaceStr), (xmlnsPrefixStr, xmlnsNamespaceStr)]

/-- The `Parser` struct (without the input queue, which is threaded
externally by `Parser.run`).  `namespaces` has the innermost scope at the
head (the source's `Vec` has it at the end). -/
structure Parser where
  line : Nat
  col : Nat
  hasError : Bool
  buf : Str
  namespaces : List Scope
  attributes : List (Str × Option Str × Str)
  st : State
  name : Option (Option Str × Str)
  attr : Option (Option Str × Str)
  delim : Option Char
  level : Nat
  deriving DecidableEq

/-- `Parser::new`. -/
def Parser.new : Parser :=
  { line := 1, col := 0, hasError := false, buf := [],
    namespaces := [initialScope], attributes := [], st := .OutsideTag,
    name := none, attr := none, delim := none, level := 0 }

/-- `parse_qname`: split a qualified name at the first `:`. -/
def parse_qname (q : Str) : Option Str × Str :=
  match q.dropWhile (· ≠ ':') with
  | _ :: loc => (some (q.takeWhile (· ≠ ':')), loc)
  | [] => (none, q)

/-- `unescape_owned`: skip unescaping when no `&` occurs. -/
def unescape_owned (input : Str) : Except Str Str :=
  if input.contains '&' then unescape input else .ok input

/-- `Parser::namespace_for_prefix`: search the scopes innermost to
outermost; the first scope binding the prefix decides, an empty value
meaning "no namespace". -/
def namespace_lookup (nss : List Scope) (pre : Str) : Option Str :=
  match nss with
  | [] => none
  | ns :: rest =>
    match scopeGet ns pre with
    | some v => if v = [] then none else some v
    | none => namespace_lookup rest pre

/-- The tag-name resolution `match` used by `in_tag_name`,
`in_close_tag_name`, `in_tag` and `expect_close`: `none` is the
unbound-prefix error. -/
def resolveTagNS (nss : List Scope) (pfx : Option Str) : Option (Option Str) :=
  match pfx with
  | none => some (namespace_lookup nss [])
  | some pre =>
    match namespace_lookup nss pre with
    | none => none
    | some u => some (some u)

/-- The attribute-name resolution `match` inside `in_tag`: an unprefixed
attribute gets no namespace; a prefixed one resolves or errors. -/
def resolveAttrNS (nss : List Scope) (pfx : Option Str) : Option (Option Str) :=
  match pfx with
  | none => some none
  | some pre =>
    match namespace_lookup nss pre with
    | none => none
    | some u => some (some u)

def msgInvalidEntity : String := "Found invalid entity"

def msgUnboundTag : String := "Unbound namespace prefix in tag name"

def msgUnboundAttr : String := "Unbound namespace prefix in attribute name"

def msgDuplicateAttr : String := "Duplicate attribute"

def msgSpaceInAttr : String := "Space occured in attribute name"

def msgBadDelim : String := "Attribute value not enclosed in ' or \""

def msgExpectedClose : String := "Expected '>' to close tag"

def msgExpectedCloseLWS : String := "Expected '>' to close tag, or LWS"

def msgMalformed : String := "Malformed XML"

def msgBadCDATA : String := "Invalid CDATA opening sequence"

def msgComment2nd : String := "Expected 2nd '-' to start comment"

def msgCommentDashes : String := "No more than one adjacent '-' allowed in a comment"

def msgBadDoctype : String := "Invalid DOCTYPE"

def msgNoElementName : String := "Internal error: No element name set"

def msgNoDelim : String := "Internal error: In attribute value, but no delimiter set"

def msgNoAttrName : String := "Internal error: In attribute value, but no attribute name set"

def msgEmptyNSStack : String := "Internal error: Empty namespace stack"

/-- `Parser::error`. -/
def Parser.mkError (p : Parser) (msg : String) : ParserError :=
  { line := p.line, col := p.col, msg := msg }

/-- The whitespace set the tokenizer recognizes. -/
def isWS (c : Char) : Bool :=
  c = ' ' || c = '\t' || c = '\r' || c = '\n'

/-- The result of one handler: the mutated parser plus
`Result<Option<Event>, ParserError>`. -/
abbrev StepRes := Parser × Except ParserError (Option Event)

/-- `Parser::in_tag`'s attribute loop: resolve each raw attribute's prefix
and insert into the map keyed by `(local name, resolved namespace)`,
erroring on an unbound prefix or a duplicate key. -/
def resolveAttrs (nss : List Scope) :
    List (Str × Option Str × Str) → AttrMap → Except String AttrMap
  | [], acc => .ok acc
  | (nm, pfx, v) :: rest, acc =>
    match resolveAttrNS nss pfx with
    | none => .error msgUnboundAttr
    | some ns =>
      if (attrGet acc (nm, ns)).isSome then .error msgDuplicateAttr
      else resolveAttrs nss rest (acc ++ [((nm, ns), v)])

def Parser.outside_tag (p : Parser) (c : Char) : StepRes :=
  if c = '<' then
    if p.buf = [] then ({ p with st := .TagOpened }, .ok none)
    else
      let p1 := { p with st := .TagOpened, buf := [] }
      match unescape_owned p.buf with
      | .ok unescaped => (p1, .ok (some (.Characters unescaped)))
      | .error _ => (p1, .error (p1.mkError msgInvalidEntity))
  else ({ p with buf := p.buf ++ [c] }, .ok none)

def Parser.tag_opened (p : Parser) (c : Char) : StepRes :=
  if c = '?' then ({ p with st := .InProcessingInstructions }, .ok none)
  else if c = '!' then ({ p with st := .InExclamationMark }, .ok none)
  else if c = '/' then ({ p with st := .InCloseTagName }, .ok none)
  else ({ p with buf := p.buf ++ [c], st := .InTagName }, .ok none)

def Parser.in_processing_instructions (p : Parser) (c : Char) : StepRes :=
  if c = '?' then ({ p with level := 1, buf := p.buf ++ [c] }, .ok none)
  else if c = '>' then
    if p.level = 1 then
      ({ p with level := 0, st := .OutsideTag, buf := [] },
        .ok (some (.PI p.buf.dropLast)))
    else ({ p with buf := p.buf ++ [c] }, .ok none)
  else ({ p with buf := p.buf ++ [c] }, .ok none)

def Parser.in_tag_name (p : Parser) (c : Char) : StepRes :=
  if c = '/' ∨ c = '>' then
    let (pfx, nm) := parse_qname p.buf
    match resolveTagNS p.namespaces pfx with
    | none => ({ p with buf := [] }, .error (p.mkError msgUnboundTag))
    | some ns =>
      let p1 := { p with buf := [], namespaces := [] :: p.namespaces }
      let p2 :=
        if c = '/' then { p1 with name := some (pfx, nm), st := .ExpectClose }
        else { p1 with st := .OutsideTag }
      (p2, .ok (some (.ElementStart ⟨nm, ns, pfx, []⟩)))
  else if isWS c then
    ({ p with
        namespaces := [] :: p.namespaces,
        name := some (parse_qname p.buf), buf := [], st := .InTag }, .ok none)
  else ({ p with buf := p.buf ++ [c] }, .ok none)

def Parser.in_close_tag_name (p : Parser) (c : Char) : StepRes :=
  if isWS c ∨ c = '>' then
    let (pfx, nm) := parse_qname p.buf
    match resolveTagNS p.namespaces pfx with
    | none => ({ p with buf := [] }, .error (p.mkError msgUnboundTag))
    | some ns =>
      ({ p with
          buf := [], namespaces := p.namespaces.tail,
          st := if c = '>' then .OutsideTag else .ExpectSpaceOrClose },
        .ok (some (.ElementEnd ⟨nm, ns, pfx⟩)))
  else ({ p with buf := p.buf ++ [c] }, .ok none)

def Parser.in_tag (p : Parser) (c : Char) : StepRes :=
  if c = '/' ∨ c = '>' then
    match p.name with
    | none => (p, .error (p.mkError msgNoElementName))
    | some (pfx, nm) =>
      let p0 := { p with attributes := [], name := none }
      match resolveTagNS p.namespaces pfx with
      | none => (p0, .error (p0.mkError msgUnboundTag))
      | some ns =>
        match resolveAttrs p.namespaces p.attributes [] with
        | .error m => (p0, .error (p0.mkError m))
        | .ok amap =>
          let p1 :=
            if c = '/' then { p0 with name := some (pfx, nm), st := .ExpectClose }
            else { p0 with st := .OutsideTag }
          (p1, .ok (some (.ElementStart ⟨nm, ns, pfx, amap⟩)))
  else if isWS c then (p, .ok none)
  else ({ p with buf := p.buf ++ [c], st := .InAttrName }, .ok none)

def Parser.in_attr_name (p : Parser) (c : Char) : StepRes :=
  if c = '=' then
    ({ p with
        level := 0, attr := some (parse_qname p.buf), buf := [],
        st := .ExpectDelimiter }, .ok none)
  else if isWS c then ({ p with level := 1 }, .ok none)
  else if p.level = 0 then ({ p with buf := p.buf ++ [c] }, .ok none)
  else (p, .error (p.mkError msgSpaceInAttr))

def Parser.in_attr_value (p : Parser) (c : Char) : StepRes :=
  match p.delim with
  | none => (p, .error (p.mkError msgNoDelim))
  | some d =>
    if c = d then
      match p.attr with
      | none => (p, .error (p.mkError msgNoAttrName))
      | some (pfx, nm) =>
        let p0 := { p with delim := none, st := .InTag, attr := none, buf := [] }
        match unescape_owned p.buf with
        | .error _ => (p0, .error (p0.mkError msgInvalidEntity))
        | .ok value =>
          match p0.namespaces with
          | [] => (p0, .error (p0.mkError msgEmptyNSStack))
          | top :: rest =>
            let top' :=
              if pfx = none ∧ nm = xmlnsPrefixStr then scopeInsert top [] value
              else
                match pfx with
                | some pr =>
                  if pr = xmlnsPrefixStr then scopeInsert top nm value else top
                | none => top
            ({ p0 with
                namespaces := top' :: rest,
                attributes := p0.attributes ++ [(nm, pfx, value)] }, .ok none)
    else ({ p with buf := p.buf ++ [c] }, .ok none)

def Parser.expect_delimiter (p : Parser) (c : Char) : StepRes :=
  if c = '"' ∨ c = '\'' then
    ({ p with delim := some c, st := .InAttrValue }, .ok none)
  else if isWS c then (p, .ok none)
  else (p, .error (p.mkError msgBadDelim))

def Parser.expect_close (p : Parser) (c : Char) : StepRes :=
  if c = '>' then
    match p.name with
    | none => (p, .error (p.mkError msgNoElementName))
    | some (pfx, nm) =>
      let p0 := { p with st := .OutsideTag, name := none }
      match resolveTagNS p.namespaces pfx with
      | none => (p0, .error (p0.mkError msgUnboundTag))
      | some ns =>
        ({ p0 with namespaces := p0.namespaces.tail },
          .ok (some (.ElementEnd ⟨nm, ns, pfx⟩)))
  else (p, .error (p.mkError msgExpectedClose))

def Parser.expect_space_or_close (p : Parser) (c : Char) : StepRes :=
  if isWS c then (p, .ok none)
  else if c = '>' then ({ p with st := .OutsideTag }, .ok none)
  else (p, .error (p.mkError msgExpectedCloseLWS))

def Parser.in_exclamation_mark (p : Parser) (c : Char) : StepRes :=
  if c = '-' then ({ p with st := .InCommentOpening }, .ok none)
  else if c = '[' then ({ p with st := .InCDATAOpening }, .ok none)
  else if c = 'D' then ({ p with st := .InDoctype }, .ok none)
  else (p, .error (p.mkError msgMalformed))

def cdataPattern : Str := ['C', 'D', 'A', 'T', 'A', '[']

def Parser.in_cdata_opening (p : Parser) (c : Char) : StepRes :=
  if c = cdataPattern.getD p.level 'C' then
    if p.level + 1 = 6 then ({ p with level := 0, st := .InCDATA }, .ok none)
    else ({ p with level := p.level + 1 }, .ok none)
  else (p, .error (p.mkError msgBadCDATA))

def Parser.in_cdata (p : Parser) (c : Char) : StepRes :=
  if c = ']' then ({ p with buf := p.buf ++ [c], level := p.level + 1 }, .ok none)
  else if c = '>' then
    if 2 ≤ p.level then
      ({ p with st := .OutsideTag, level := 0, buf := [] },
        .ok (some (.CDATA p.buf.dropLast.dropLast)))
    else ({ p with buf := p.buf ++ [c], level := 0 }, .ok none)
  else ({ p with buf := p.buf ++ [c], level := 0 }, .ok none)

def Parser.in_comment_opening (p : Parser) (c : Char) : StepRes :=
  if c = '-' then ({ p with st := .InComment1, level := 0 }, .ok none)
  else (p, .error (p.mkError msgComment2nd))

def Parser.in_comment1 (p : Parser) (c : Char) : StepRes :=
  let lvl := if c = '-' then p.level + 1 else 0
  if lvl = 2 then
    ({ p with level := 0, st := .InComment2, buf := p.buf ++ [c] }, .ok none)
  else ({ p with level := lvl, buf := p.buf ++ [c] }, .ok none)

def Parser.in_comment2 (p : Parser) (c : Char) : StepRes :=
  if c ≠ '>' then (p, .error (p.mkError msgCommentDashes))
  else ({ p with st := .OutsideTag, buf := [] },
    .ok (some (.Comment p.buf.dropLast.dropLast)))

def doctypePattern : Str := ['O', 'C', 'T', 'Y', 'P', 'E']

def Parser.in_doctype (p : Parser) (c : Char) : StepRes :=
  if p.level ≤ 5 then
    if c = doctypePattern.getD p.level 'O' then
      ({ p with level := p.level + 1 }, .ok none)
    else (p, .error (p.mkError msgBadDoctype))
  else if p.level = 6 then
    if isWS c then ({ p with level := p.level + 1 }, .ok none)
    else (p, .error (p.mkError msgBadDoctype))
  else if c = '>' then ({ p with level := 0, st := .OutsideTag }, .ok none)
  else (p, .ok none)

/-- `Parser::parse_character`: dispatch on the current state. -/
def Parser.parse_character (p : Parser) (c : Char) : StepRes :=
  match p.st with
  | .OutsideTag => p.outside_tag c
  | .TagOpened => p.tag_opened c
  | .InProcessingInstructions => p.in_processing_instructions c
  | .InTagName => p.in_tag_name c
  | .InCloseTagName => p.in_close_tag_name c
  | .InTag => p.in_tag c
  | .InAttrName => p.in_attr_name c
  | .InAttrValue => p.in_attr_value c
  | .ExpectDelimiter => p.expect_delimiter c
  | .ExpectClose => p.expect_close c
  | .ExpectSpaceOrClose => p.expect_space_or_close c
  | .InExclamationMark => p.in_exclamation_mark c
  | .InCDATAOpening => p.in_cdata_opening c
  | .InCDATA => p.in_cdata c
  | .InCommentOpening => p.in_comment_opening c
  | .InComment1 => p.in_comment1 c
  | .InComment2 => p.in_comment2 c
  | .InDoctype => p.in_doctype c

/-- The line/column bookkeeping of `Iterator::next`. -/
def Parser.updatePos (p : Parser) (c : Char) : Parser :=
  if c = '\n' then { p with line := p.line + 1, col := 0 }
  else { p with col := p.col + 1 }

/-- One character of `Iterator::next`: once failed, the parser consumes
nothing and yields nothing. -/
def Parser.step (p : Parser) (c : Char) : StepRes :=
  if p.hasError then (p, .ok none)
  else
    let p1 := p.updatePos c
    match p1.parse_character c with
    | (p2, .ok ev) => (p2, .ok ev)
    | (p2, .error e) => ({ p2 with hasError := true }, .error e)

/-- Feed a whole string and collect the produced event stream, exactly as
iterating the parser after `feed_str` would. -/
def Parser.run (p : Parser) : List Char → List (Except ParserError Event) × Parser
  | [] => ([], p)
  | c :: cs =>
    match p.step c with
    | (p', .ok none) => p'.run cs
    | (p', .ok (some ev)) =>
      let (evs, p'') := p'.run cs
      (.ok ev :: evs, p'')
    | (p', .error e) =>
      let (evs, p'') := p'.run cs
      (.error e :: evs, p'')

/-- The sequence of parser states reached while consuming an input. -/
def Parser.trace (p : Parser) : List Char → List Parser
  | [] => [p]
  | c :: cs => p :: Parser.trace (p.step c).1 cs

deriving instance DecidableEq for Except

/-- The events produced from a fresh parser on a given input. -/
def parseEvents (s : Str) : List (Except ParserError Event) :=
  (Parser.new.run s).1

/-! ## Element tree, builder and serializer
(`src/element.rs`, `src/element_builder.rs`) -/

mutual
/-- `Element` from `src/element.rs`: name, namespace, attributes, children,
the namespace-URI→prefix table, and the default namespace in effect. -/
inductive Element : Type where
  | mk : Str → Option Str → AttrMap → List Xml → Scope → Option Str → Element
/-- `Xml` from `src/lib.rs`. -/
inductive Xml : Type where
  | ElementNode : Element → Xml
  | CharacterNode : Str → Xml
  | CDATANode : Str → Xml
  | CommentNode : Str → Xml
  | PINode : Str → Xml
end

def Element.name : Element → Str
  | .mk n _ _ _ _ _ => n

def Element.ns : Element → Option Str
  | .mk _ s _ _ _ _ => s

def Element.attributes : Element → AttrMap
  | .mk _ _ a _ _ _ => a

def Element.children : Element → List Xml
  | .mk _ _ _ c _ _ => c

def Element.prefixes : Element → Scope
  | .mk _ _ _ _ p _ => p

def Element.default_ns : Element → Option Str
  | .mk _ _ _ _ _ d => d

/-- `elem.children.push(x)`. -/
def Element.pushChild : Element → Xml → Element
  | .mk n s a c p d, x => .mk n s a (c ++ [x]) p d

/-- The two fixed URI→prefix bindings installed by `Element::new` and
`ElementBuilder::new`. -/
def seedPrefixes : Scope :=
  [(xmlNamespaceStr, xmlPrefixStr), (xmlnsNamespaceStr, xmlnsPrefixStr)]

/-- `Element::new`. -/
def Element.new (name : Str) (ns : Option Str)
    (attrs : List (Str × Option Str × Str)) : Element :=
  .mk name ns (attrs.map fun a => ((a.1, a.2.1), a.2.2)) [] seedPrefixes ns

/-- `HashMap::insert` for attribute maps, returning the map (the previous
value is read separately); the key's slot is replaced in place so that
insertion order is preserved. -/
def attrInsert : AttrMap → (Str × Option Str) → Str → AttrMap
  | [], k, v => [(k, v)]
  | (k', v') :: rest, k, v =>
    if k' = k then (k, v) :: rest else (k', v') :: attrInsert rest k v

/-- `Element::get_attribute`. -/
def Element.get_attribute (e : Element) (name : Str) (ns : Option Str) :
    Option Str :=
  attrGet e.attributes (name, ns)

/-- `Element::set_attribute`: insert and return the previous value. -/
def Element.set_attribute (e : Element) (name : Str) (ns : Option Str)
    (value : Str) : Element × Option Str :=
  match e with
  | .mk n s a c p d =>
    (.mk n s (attrInsert a (name, ns) value) c p d, attrGet a (name, ns))

/-- `BuilderError` from `src/element_builder.rs`. -/
inductive BuilderError : Type where
  | Parser (e : ParserError)
  | ImproperNesting
  | NoElement
  deriving DecidableEq

/-- `ElementBuilder` from `src/element_builder.rs`; `stack` and
`default_ns` have their tops at the head. -/
structure ElementBuilder where
  stack : List Element
  default_ns : List (Option Str)
  prefixes : Scope

/-- `ElementBuilder::new`. -/
def ElementBuilder.new : ElementBuilder :=
  { stack := [], default_ns := [], prefixes := seedPrefixes }

/-- Append a child to the top of the stack; dropped if the stack is
empty (the `if let Some(elem) = self.stack.last_mut()` pattern). -/
def ElementBuilder.pushTopChild (b : ElementBuilder) (x : Xml) : ElementBuilder :=
  match b.stack with
  | [] => b
  | top :: rest => { b with stack := top.pushChild x :: rest }

/-- The attribute scan in `handle_event`'s `ElementStart` arm: an
unprefixed `xmlns` attribute replaces the top of the default-namespace
stack (`None` for an empty value); an attribute in the `xmlns` namespace
records URI→prefix in the element's table. -/
def startScan (dns : List (Option Str)) (prefs : Scope) :
    AttrMap → List (Option Str) × Scope
  | [] => (dns, prefs)
  | ((nm, ns), v) :: rest =>
    if ns = none ∧ nm = xmlnsPrefixStr then
      startScan ((if v = [] then none else some v) :: dns.tail) prefs rest
    else if ns = some xmlnsNamespaceStr then
      startScan dns (scopeInsert prefs v nm) rest
    else startScan dns prefs rest

/-- `ElementBuilder::handle_event`. -/
def ElementBuilder.handle_event (b : ElementBuilder)
    (e : Except ParserError Event) :
    ElementBuilder × Option (Except BuilderError Element) :=
  match e with
  | .error err => (b, some (.error (.Parser err)))
  | .ok ev =>
    match ev with
    | .PI cont => (b.pushTopChild (.PINode cont), none)
    | .Characters s => (b.pushTopChild (.CharacterNode s), none)
    | .CDATA s => (b.pushTopChild (.CDATANode s), none)
    | .Comment s => (b.pushTopChild (.CommentNode s), none)
    | .ElementStart t =>
      let dns0 :=
        match b.default_ns with
        | [] => []
        | d :: rest => d :: d :: rest
      let scanned := startScan dns0 b.prefixes t.attributes
      let elem := Element.mk t.name t.ns t.attributes [] scanned.2
        (scanned.1.headD none)
      ({ b with stack := elem :: b.stack, default_ns := scanned.1 }, none)
    | .ElementEnd t =>
      match b.stack with
      | [] => (b, some (.error .ImproperNesting))
      | elem :: rest =>
        let b1 := { b with stack := rest, default_ns := b.default_ns.tail }
        if elem.name ≠ t.name ∨ elem.ns ≠ t.ns then
          (b1, some (.error .ImproperNesting))
        else
          match rest with
          | top :: rest' =>
            ({ b1 with stack := top.pushChild (.ElementNode elem) :: rest' },
              none)
          | [] => (b1, some (.ok elem))

/-- Feed a whole event stream to the builder, collecting the produced
results in order. -/
def ElementBuilder.runEvents (b : ElementBuilder) :
    List (Except ParserError Event) →
      List (Except BuilderError Element) × ElementBuilder
  | [] => ([], b)
  | e :: es =>
    match b.handle_event e with
    | (b', none) => b'.runEvents es
    | (b', some r) =>
      let (rs, b'') := b'.runEvents es
      (r :: rs, b'')

/-- `impl FromStr for Element`: the first completed result, or
`NoElement`. -/
def Element.from_str (data : Str) : Except BuilderError Element :=
  ((ElementBuilder.new.runEvents (parseEvents data)).1).headD
    (.error .NoElement)

/-- The attribute loop of `fmt_elem`: render ` name='value'` or
` prefix:name='value'`, escaping the value; `none` is the
"No namespace prefix bound" panic. -/
def fmt_attrs (all : Scope) : AttrMap → Option Str
  | [] => some []
  | ((nm, ns), v) :: rest =>
    match ns with
    | some nsv =>
      match scopeGet all nsv with
      | none => none
      | some pr =>
        match fmt_attrs all rest with
        | none => none
        | some r =>
          some ((' ' :: pr ++ ':' :: nm ++ '=' :: '\'' :: escape v ++ ['\'']) ++ r)
    | none =>
      match fmt_attrs all rest with
      | none => none
      | some r =>
        some ((' ' :: nm ++ '=' :: '\'' :: escape v ++ ['\'']) ++ r)

mutual
/-- `fmt_elem` from `src/element.rs`; `none` embeds the
"No namespace prefix bound" / `unwrap` panics. -/
def fmt_elem (parent : Option Element) (aps : Scope) : Element → Option Str
  | .mk name ns attrs children prefs dns =>
    let all := prefs ++ aps
    let openTag : Option Str :=
      if ns ≠ dns then
        match scopeGet all (ns.getD []) with
        | none => none
        | some pr => some ('<' :: (pr ++ ':' :: name))
      else some ('<' :: name)
    let xmlnsDecl : Str :=
      if attrs.any (fun a => a.1.1 = xmlnsPrefixStr) then []
      else
        match parent, dns with
        | none, some u => " xmlns='".toList ++ u ++ ['\'']
        | none, none => []
        | some par, d =>
          if par.default_ns ≠ d then " xmlns='".toList ++ d.getD [] ++ ['\'']
          else []
    match openTag, fmt_attrs all attrs with
    | some op, some ats =>
      if children.isEmpty then some (op ++ xmlnsDecl ++ ats ++ "/>".toList)
      else
        match fmt_children (.mk name ns attrs children prefs dns) all children with
        | none => none
        | some body =>
          let closeTag : Option Str :=
            if ns ≠ dns then
              match ns with
              | none => none
              | some u =>
                match scopeGet all u with
                | none => none
                | some pr => some ("</".toList ++ pr ++ ':' :: name ++ ['>'])
            else some ("</".toList ++ name ++ ['>'])
          match closeTag with
          | none => none
          | some cl => some (op ++ xmlnsDecl ++ ats ++ '>' :: body ++ cl)
    | _, _ => none

/-- Rendering of a child list, left to right. -/
def fmt_children (parent : Element) (all : Scope) : List Xml → Option Str
  | [] => some []
  | x :: xs =>
    match fmt_xml parent all x, fmt_children parent all xs with
    | some a, some b => some (a ++ b)
    | _, _ => none

/-- `impl Display for Xml`. -/
def fmt_xml (parent : Element) (all : Scope) : Xml → Option Str
  | .ElementNode e => fmt_elem (some parent) all e
  | .CharacterNode d => some (escape d)
  | .CDATANode d => some ("<![CDATA[".toList ++ d ++ "]]>".toList)
  | .CommentNode d => some ("<!--".toList ++ d ++ "-->".toList)
  | .PINode d => some ("<?".toList ++ d ++ "?>".toList)
end

/-- `impl Display for Element`: render from the root. -/
def render (t : Element) : Option Str := fmt_elem none [] t

/-- Specification-side companion of `resolveAttrs`: the resolved
`(local name, resolved namespace) → value` association `in_tag` builds,
`none` when some prefix is unbound. -/
def resolveKeys (nss : List Scope) :
    List (Str × Option Str × Str) → Option AttrMap
  | [] => some []
  | (nm, pfx, v) :: rest =>
    match resolveAttrNS nss pfx, resolveKeys nss rest with
    | some ns, some r => some (((nm, ns), v) :: r)
    | _, _ => none

/-! ### Skeleton documents (C4)

A *skeleton* is a pure tree of names and namespaces; it generates the
balanced `ElementStart`/`ElementEnd` event sequence of a document with
matching name and namespace at every depth, and describes the recursive
shape the builder is expected to reproduce. -/

inductive Skel : Type where
  | node : Str → Option Str → List Skel → Skel

mutual
/-- The event sequence of a skeleton: a start tag, the children's events
in document order, a close tag. -/
def skelEvents : Skel → List Event
  | .node n ns cs =>
    .ElementStart ⟨n, ns, none, []⟩ ::
      (skelEventsList cs ++ [.ElementEnd ⟨n, ns, none⟩])
def skelEventsList : List Skel → List Event
  | [] => []
  | s :: rest => skelEvents s ++ skelEventsList rest
end

mutual
/-- The element tree the builder constructs from a skeleton's events when
its URI→prefix table is `prefs` and the effective default namespace is
`d`. -/
def buildS (prefs : Scope) (d : Option Str) : Skel → Element
  | .node n ns cs => .mk n ns [] (buildSL prefs d cs) prefs d
def buildSL (prefs : Scope) (d : Option Str) : List Skel → List Xml
  | [] => []
  | s :: rest => .ElementNode (buildS prefs d s) :: buildSL prefs d rest
end

mutual
/-- The recursive shape (name, namespace, element children in order) of an
element tree. -/
def elemSkel : Element → Skel
  | .mk n s _ c _ _ => .node n s (xmlsSkels c)
def xmlsSkels : List Xml → List Skel
  | [] => []
  | .ElementNode e :: rest => elemSkel e :: xmlsSkels rest
  | .CharacterNode _ :: rest => xmlsSkels rest
  | .CDATANode _ :: rest => xmlsSkels rest
  | .CommentNode _ :: rest => xmlsSkels rest
  | .PINode _ :: rest => xmlsSkels rest
end

/-! ### Well-formed trees and their event streams (C3)

`wfElem pdns t` singles out the element trees whose rendering feeds back
through the tokenizer and builder unchanged: element and attribute names
use ordinary name characters and no prefix, every element's namespace
equals its effective default namespace, default-namespace changes are
materialized as explicit unprefixed `xmlns` attributes (as the parser
itself produces them), the prefix table is the builder's fixed seed
table, and text-like children avoid the few character sequences the
tokenizer treats as terminators. -/

def safeChar (c : Char) : Bool :=
  !(c = '<' || c = '>' || c = '/' || c = '=' || c = ':' || c = '\'' ||
    c = '"' || c = '&' || c = '?' || c = '!' || isWS c)

def safeName (n : Str) : Bool :=
  !n.isEmpty && n.all safeChar

/-- Attribute-map constraints: every key unprefixed with a safe name, and
the names pairwise distinct. -/
def wfAttrList (attrs : AttrMap) : Bool :=
  attrs.all (fun x => x.1.2 = none && safeName x.1.1) &&
    decide (attrs.map (fun x => x.1.1)).Nodup

/-- The default namespace is the one declared by the `xmlns` attribute
(empty value meaning none), or inherited from the parent when no `xmlns`
attribute is present. -/
def wfXmlns (pdns : Option Str) (attrs : AttrMap) (dns : Option Str) : Bool :=
  match attrGet attrs (xmlnsPrefixStr, none) with
  | some v => decide (dns = if v = [] then none else some v)
  | none => decide (dns = pdns)

/-- Adjacent-children compatibility: two text nodes may not be adjacent. -/
def adjOK : Xml → Xml → Bool
  | .CharacterNode _, .CharacterNode _ => false
  | _, _ => true

mutual
def wfElem (pdns : Option Str) : Element → Bool
  | .mk name ns attrs children prefs dns =>
    safeName name && decide (ns = dns) && decide (prefs = seedPrefixes) &&
      wfAttrList attrs && wfXmlns pdns attrs dns && wfChildren dns children
def wfNode (dns : Option Str) : Xml → Bool
  | .ElementNode e => wfElem dns e
  | .CharacterNode s => !s.isEmpty
  | .CDATANode d => !d.contains ']'
  | .CommentNode d => !d.contains '-'
  | .PINode d => !d.contains '?' && !d.contains '>'
def wfChildren (dns : Option Str) : List Xml → Bool
  | [] => true
  | [x] => wfNode dns x
  | x :: y :: rest => wfNode dns x && adjOK x y && wfChildren dns (y :: rest)
end

/-- The default namespace of the rendering parent. -/
def parentDefault : Option Element → Option Str
  | none => none
  | some q => q.default_ns

/-- The tokenizer's text buffer between children: empty, or the escaped
form of the preceding text child. -/
def pendBuf : Option Str → Str
  | none => []
  | some s => escape s

/-- The `Characters` event a buffered text child produces when the next
`<` arrives. -/
def flushEv : Option Str → List Event
  | none => []
  | some s => [.Characters s]

/-- The text child contributed by a flushed pending buffer. -/
def flushXml : Option Str → List Xml
  | none => []
  | some s => [.CharacterNode s]

mutual
/-- The event sequence the tokenizer emits for a well-formed element. -/
def elemEvents : Element → List Event
  | .mk name ns attrs children _ _ =>
    .ElementStart ⟨name, ns, none, attrs⟩ ::
      ((childEvents none children).1 ++ flushEv (childEvents none children).2
        ++ [.ElementEnd ⟨name, ns, none⟩])
/-- The events of a child list, threading the pending-text buffer: a text
child is flushed by the `<` of the next sibling or of the closing tag. -/
def childEvents (pend : Option Str) : List Xml → List Event × Option Str
  | [] => ([], pend)
  | .CharacterNode s :: rest => childEvents (some s) rest
  | .ElementNode e :: rest =>
    ((flushEv pend ++ elemEvents e) ++ (childEvents none rest).1,
      (childEvents none rest).2)
  | .CDATANode d :: rest =>
    ((flushEv pend ++ [.CDATA d]) ++ (childEvents none rest).1,
      (childEvents none rest).2)
  | .CommentNode d :: rest =>
    ((flushEv pend ++ [.Comment d]) ++ (childEvents none rest).1,
      (childEvents none rest).2)
  | .PINode d :: rest =>
    ((flushEv pend ++ [.PI d]) ++ (childEvents none rest).1,
      (childEvents none rest).2)
end

/-- The raw attribute triples the tokenizer collects for an unprefixed
attribute list. -/
def rawAttrs (attrs : AttrMap) : List (Str × Option Str × Str) :=
  attrs.map (fun x => (x.1.1, none, x.2))

/-- The namespace scope a start tag accumulates from its attributes: only
an unprefixed `xmlns` attribute inserts (the default-prefix binding). -/
def scopeAfterAttrs (sc : Scope) : AttrMap → Scope
  | [] => sc
  | ((nm, _), v) :: rest =>
    scopeAfterAttrs
      (if nm = xmlnsPrefixStr then scopeInsert sc [] v else sc) rest

/-- The rendered text of one attribute (`fmt_attrs`, unprefixed arm). -/
def attrText (a : (Str × Option Str) × Str) : Str :=
  ' ' :: a.1.1 ++ '=' :: '\'' :: escape a.2 ++ ['\'']

/-- The rendered text of an attribute list. -/
def attrsText : AttrMap → Str
  | [] => []
  | a :: rest => attrText a ++ attrsText rest

/-- A buffered text child is never empty. -/
def pendNE : Option Str → Prop
  | none => True
  | some s => s ≠ []

/-- The parser configurations from which a well-formed element's text can
be consumed: between events, with a clean buffer. -/
def Shape (q : Parser) (s : State) (buf : Str) (nss : List Scope)
    (ats : List (Str × Option Str × Str)) (lv : Nat) : Prop :=
  q.st = s ∧ q.buf = buf ∧ q.hasError = false ∧ q.level = lv ∧
    q.namespaces = nss ∧ q.attributes = ats

/-- `p` consumes `seg`, emits exactly `evs`, and continues as `q`. -/
def StepsTo (p : Parser) (seg : Str) (evs : List Event) (q : Parser) : Prop :=
  ∀ ys, (p.run (seg ++ ys)).1 = evs.map Except.ok ++ (q.run ys).1 ∧
    (p.run (seg ++ ys)).2 = (q.run ys).2

/-- The duplicate-the-top push performed by the builder's `ElementStart`
arm on the default-namespace stack (`if let Some(default) =
self.default_ns.last().cloned() { self.default_ns.push(default) }`). -/
def dnsDup : List (Option Str) → List (Option Str)
  | [] => []
  | d :: r => d :: d :: r

/-- The tokenizer states during which the top namespace scope belongs to a
start tag still being parsed (pushed by `in_tag_name`, popped by
`expect_close` or a later close tag); used to state the scope-stack
invariant of C5. -/
def nsFamily (s : State) : Prop :=
  s = .InTag ∨ s = .InAttrName ∨ s = .InAttrValue ∨ s = .ExpectDelimiter ∨
    s = .ExpectClose

instance nsFamilyDecidable (s : State) : Decidable (nsFamily s) := by
  unfold nsFamily
  exact inferInstance

/-- The C5 invariant: the bottom of the scope stack is still the initial
scope (with the fixed `xml`/`xmlns` bindings), and during attribute
parsing the stack holds at least the initial scope plus the tag's own. -/
def ParserNSInv (q : Parser) : Prop :=
  q.namespaces.getLast? = some initialScope ∧
    (nsFamily q.st → 2 ≤ q.namespaces.length)

/-! ### Lemmas about `splitOnAmp` -/

theorem splitOnAmp_ne_nil (l : Str) : splitOnAmp l ≠ [] := by
  induction l with
  | nil => simp [splitOnAmp]
  | cons c cs ih =>
    simp only [splitOnAmp]
    split
    · simp
    · match h : splitOnAmp cs with
      | [] => simp
      | h' :: t => simp

theorem splitOnAmp_amp (l : Str) : splitOnAmp ('&' :: l) = [] :: splitOnAmp l := by
  simp [splitOnAmp]

theorem splitOnAmp_cons_plain (c : Char) (l : Str) (hc : c ≠ '&') :
    splitOnAmp (c :: l) =
      (c :: (splitOnAmp l).headI) :: (splitOnAmp l).tail := by
  simp only [splitOnAmp, if_neg hc]
  match h : splitOnAmp l with
  | [] => exact absurd h (splitOnAmp_ne_nil l)
  | h' :: t => simp

theorem splitOnAmp_no_amp (l : Str) (h : '&' ∉ l) : splitOnAmp l = [l] := by
  induction l with
  | nil => rfl
  | cons c cs ih =>
    have hc : c ≠ '&' := fun hEq => h (hEq ▸ List.mem_cons_self c cs)
    have hcs : '&' ∉ cs := fun hm => h (List.mem_cons_of_mem c hm)
    rw [splitOnAmp_cons_plain c cs hc, ih hcs]
    simp

theorem splitOnAmp_append_no_amp (xs ys : Str) (h : '&' ∉ xs) :
    splitOnAmp (xs ++ ys) =
      (xs ++ (splitOnAmp ys).headI) :: (splitOnAmp ys).tail := by
  induction xs with
  | nil =>
    simp only [List.nil_append]
    match hy : splitOnAmp ys with
    | [] => exact absurd hy (splitOnAmp_ne_nil ys)
    | h' :: t => simp
  | cons c cs ih =>
    have hc : c ≠ '&' := fun hEq => h (hEq ▸ List.mem_cons_self c cs)
    have hcs : '&' ∉ cs := fun hm => h (List.mem_cons_of_mem c hm)
    rw [List.cons_append, splitOnAmp_cons_plain c (cs ++ ys) hc, ih hcs]
    simp

/-! ### The round-trip law -/

theorem unescape_cons_plain (c : Char) (L : Str) (hc : c ≠ '&') :
    unescape (c :: L) = (unescape L).map (fun r => c :: r) := by
  rw [unescape, splitOnAmp_cons_plain c L hc]
  match hL : splitOnAmp L with
  | [] => exact absurd hL (splitOnAmp_ne_nil L)
  | h :: t =>
    rw [unescape, hL]
    simp only [List.headI, List.tail]
    cases hfr : unescapeFrags t <;> simp [Except.map]

theorem takeWhile_append_semi (body h : Str) (hsemi : ';' ∉ body) :
    (body ++ ';' :: h).takeWhile (· ≠ ';') = body := by
  induction body with
  | nil => simp [List.takeWhile]
  | cons b bs ih =>
    have hb : b ≠ ';' := fun hEq => hsemi (hEq ▸ List.mem_cons_self b bs)
    have hbs : ';' ∉ bs := fun hm => hsemi (List.mem_cons_of_mem b hm)
    have hstep : (b :: (bs ++ ';' :: h)).takeWhile (· ≠ ';') =
        b :: (bs ++ ';' :: h).takeWhile (· ≠ ';') := by
      simp [List.takeWhile_cons, hb]
    rw [List.cons_append, hstep, ih hbs]

theorem dropWhile_append_semi (body h : Str) (hsemi : ';' ∉ body) :
    (body ++ ';' :: h).dropWhile (· ≠ ';') = ';' :: h := by
  induction body with
  | nil => simp [List.dropWhile]
  | cons b bs ih =>
    have hb : b ≠ ';' := fun hEq => hsemi (hEq ▸ List.mem_cons_self b bs)
    have hbs : ';' ∉ bs := fun hm => hsemi (List.mem_cons_of_mem b hm)
    have hstep : (b :: (bs ++ ';' :: h)).dropWhile (· ≠ ';') =
        (bs ++ ';' :: h).dropWhile (· ≠ ';') := by
      simp [List.dropWhile_cons, hb]
    rw [List.cons_append, hstep, ih hbs]

theorem decodeFrag_entity (body h : Str) (ch : Char)
    (hsemi : ';' ∉ body) (hdec : decodeEntity body = some ch) :
    decodeFrag (body ++ ';' :: h) = .ok (ch :: h) := by
  rw [decodeFrag]
  rw [takeWhile_append_semi body h hsemi, dropWhile_append_semi body h hsemi, hdec]

theorem unescape_ent (body : Str) (ch : Char) (L : Str)
    (hamp : '&' ∉ body) (hsemi : ';' ∉ body)
    (hdec : decodeEntity body = some ch) :
    unescape (('&' :: body ++ [';']) ++ L) = (unescape L).map (fun r => ch :: r) := by
  have h0 : ('&' :: body ++ [';']) ++ L = '&' :: ((body ++ [';']) ++ L) := by simp
  rw [h0, unescape, splitOnAmp_amp]
  have hx : '&' ∉ body ++ [';'] := by
    intro hm
    rcases List.mem_append.1 hm with hm | hm
    · exact hamp hm
    · simp at hm
  rw [splitOnAmp_append_no_amp _ L hx]
  match hL : splitOnAmp L with
  | [] => exact absurd hL (splitOnAmp_ne_nil L)
  | h :: t =>
    rw [unescape, hL]
    simp only [List.headI, List.tail]
    have : (body ++ [';']) ++ h = body ++ ';' :: h := by simp
    rw [unescapeFrags, this, decodeFrag_entity body h ch hsemi hdec]
    cases hfr : unescapeFrags t <;> simp [unescapeFrags, hfr, Except.map]

theorem unescape_escape_append (v ys : Str) :
    unescape (escape v ++ ys) = (unescape ys).map (fun r => v ++ r) := by
  induction v with
  | nil =>
    simp only [escape, List.nil_append]
    cases h : unescape ys <;> simp [Except.map]
  | cons c cs ih =>
    rw [escape, List.append_assoc]
    by_cases h1 : c = '&'
    · subst h1
      rw [(by decide : escapeChar '&' = '&' :: ['a', 'm', 'p'] ++ [';'])]
      rw [unescape_ent ['a', 'm', 'p'] '&' _ (by decide) (by decide) (by decide), ih]
      cases h : unescape ys <;> simp [Except.map]
    · by_cases h2 : c = '<'
      · subst h2
        rw [(by decide : escapeChar '<' = '&' :: ['l', 't'] ++ [';'])]
        rw [unescape_ent ['l', 't'] '<' _ (by decide) (by decide) (by decide), ih]
        cases h : unescape ys <;> simp [Except.map]
      · by_cases h3 : c = '>'
        · subst h3
          rw [(by decide : escapeChar '>' = '&' :: ['g', 't'] ++ [';'])]
          rw [unescape_ent ['g', 't'] '>' _ (by decide) (by decide) (by decide), ih]
          cases h : unescape ys <;> simp [Except.map]
        · by_cases h4 : c = '\''
          · subst h4
            rw [(by decide : escapeChar '\'' = '&' :: ['a', 'p', 'o', 's'] ++ [';'])]
            rw [unescape_ent ['a', 'p', 'o', 's'] '\'' _ (by decide) (by decide) (by decide), ih]
            cases h : unescape ys <;> simp [Except.map]
          · by_cases h5 : c = '"'
            · subst h5
              rw [(by decide : escapeChar '"' = '&' :: ['q', 'u', 'o', 't'] ++ [';'])]
              rw [unescape_ent ['q', 'u', 'o', 't'] '"' _ (by decide) (by decide) (by decide), ih]
              cases h : unescape ys <;> simp [Except.map]
            · rw [show escapeChar c = [c] by simp [escapeChar, h1, h2, h3, h4, h5]]
              rw [List.singleton_append, unescape_cons_plain c _ h1, ih]
              cases h : unescape ys <;> simp [Except.map]

/-- The round-trip law holds for all strings, not only those over the
reserved alphabet. -/
theorem unescape_escape (v : Str) : unescape (escape v) = .ok v := by
  have := unescape_escape_append v []
  simpa [unescape, splitOnAmp, unescapeFrags, Except.map] using this

/-! ### Characterization of `unescape` errors -/

theorem decodeEntity_eq_none_iff (ent : Str) :
    decodeEntity ent = none ↔
      (ent ∉ namedEntities ∧ ∀ n, numericValue ent = some n → ¬n.isValidChar) := by
  have hmem : ent ∈ namedEntities ↔
      (ent = ['q', 'u', 'o', 't'] ∨ ent = ['a', 'p', 'o', 's'] ∨ ent = ['g', 't'] ∨
        ent = ['l', 't'] ∨ ent = ['a', 'm', 'p']) := by
    simp [namedEntities]
  unfold decodeEntity
  split_ifs with h1 h2 h3 h4 h5
  · constructor
    · intro hcon; exact absurd hcon (by simp)
    · rintro ⟨hn, -⟩; exact absurd (hmem.2 (Or.inl h1)) hn
  · constructor
    · intro hcon; exact absurd hcon (by simp)
    · rintro ⟨hn, -⟩; exact absurd (hmem.2 (Or.inr (Or.inl h2))) hn
  · constructor
    · intro hcon; exact absurd hcon (by simp)
    · rintro ⟨hn, -⟩; exact absurd (hmem.2 (Or.inr (Or.inr (Or.inl h3)))) hn
  · constructor
    · intro hcon; exact absurd hcon (by simp)
    · rintro ⟨hn, -⟩; exact absurd (hmem.2 (Or.inr (Or.inr (Or.inr (Or.inl h4))))) hn
  · constructor
    · intro hcon; exact absurd hcon (by simp)
    · rintro ⟨hn, -⟩; exact absurd (hmem.2 (Or.inr (Or.inr (Or.inr (Or.inr h5))))) hn
  · have hnotmem : ent ∉ namedEntities := by
      intro hn
      rcases hmem.1 hn with h | h | h | h | h
      · exact h1 h
      · exact h2 h
      · exact h3 h
      · exact h4 h
      · exact h5 h
    cases hv : numericValue ent with
    | none =>
      constructor
      · intro _
        exact ⟨hnotmem, fun n hn => Option.noConfusion hn⟩
      · intro _
        rfl
    | some n =>
      by_cases hvalid : n.isValidChar
      · constructor
        · intro hcon
          simp [hvalid] at hcon
        · rintro ⟨-, hforall⟩
          exact absurd hvalid (hforall n rfl)
      · constructor
        · intro _
          refine ⟨hnotmem, fun n' hn' => ?_⟩
          obtain rfl := Option.some.inj hn'
          exact hvalid
        · intro _
          show (if n.isValidChar then some (Char.ofNat n) else none) = none
          rw [if_neg hvalid]

theorem semi_not_mem_of_dropWhile_nil (frag : Str)
    (h : frag.dropWhile (· ≠ ';') = []) : ';' ∉ frag := by
  intro hmem
  have := (List.dropWhile_eq_nil_iff.1 h) ';' hmem
  simp at this

theorem semi_mem_of_dropWhile_cons (frag : Str) (x : Char) (rest : Str)
    (h : frag.dropWhile (· ≠ ';') = x :: rest) : ';' ∈ frag := by
  by_contra hn
  have : frag.dropWhile (· ≠ ';') = [] := by
    apply List.dropWhile_eq_nil_iff.2
    intro y hy
    have hys : y ≠ ';' := fun hEq => hn (hEq ▸ hy)
    simp [hys]
  rw [this] at h
  exact List.noConfusion h

theorem decodeFrag_nosemi (frag : Str) (h : frag.dropWhile (· ≠ ';') = []) :
    decodeFrag frag = .error ('&' :: frag) := by
  simp only [decodeFrag, h]

theorem decodeFrag_semi (frag : Str) (x : Char) (rest : Str)
    (h : frag.dropWhile (· ≠ ';') = x :: rest) :
    decodeFrag frag =
      match decodeEntity (frag.takeWhile (· ≠ ';')) with
      | some c => .ok (c :: rest)
      | none => .error ('&' :: frag.takeWhile (· ≠ ';') ++ [';']) := by
  simp only [decodeFrag, h]

theorem decodeFrag_error_iff (frag : Str) :
    (∃ e, decodeFrag frag = .error e) ↔ fragBad frag := by
  unfold fragBad
  cases hd : frag.dropWhile (· ≠ ';') with
  | nil =>
    have hsemi := semi_not_mem_of_dropWhile_nil frag hd
    rw [decodeFrag_nosemi frag hd]
    constructor
    · intro _; exact Or.inl hsemi
    · intro _; exact ⟨'&' :: frag, rfl⟩
  | cons x rest =>
    have hsemi := semi_mem_of_dropWhile_cons frag x rest hd
    rw [decodeFrag_semi frag x rest hd]
    cases hde : decodeEntity (frag.takeWhile (· ≠ ';')) with
    | some c =>
      simp only []
      constructor
      · rintro ⟨e, he⟩; exact Except.noConfusion he
      · rintro (hcon | hcon)
        · exact absurd hsemi hcon
        · have := (decodeEntity_eq_none_iff _).2 hcon
          rw [hde] at this
          exact Option.noConfusion this
    | none =>
      simp only []
      constructor
      · intro _
        exact Or.inr ((decodeEntity_eq_none_iff _).1 hde)
      · intro _
        exact ⟨_, rfl⟩

theorem decodeFrag_error_eq (frag e : Str) (h : decodeFrag frag = .error e) :
    e = fragErr frag := by
  unfold fragErr
  cases hd : frag.dropWhile (· ≠ ';') with
  | nil =>
    have hsemi := semi_not_mem_of_dropWhile_nil frag hd
    rw [decodeFrag_nosemi frag hd] at h
    rw [if_neg hsemi]
    exact (Except.error.inj h).symm
  | cons x rest =>
    have hsemi := semi_mem_of_dropWhile_cons frag x rest hd
    rw [decodeFrag_semi frag x rest hd] at h
    rw [if_pos hsemi]
    cases hde : decodeEntity (frag.takeWhile (· ≠ ';')) with
    | some c => rw [hde] at h; exact Except.noConfusion h
    | none =>
      rw [hde] at h
      exact (Except.error.inj h).symm

theorem unescapeFrags_error_iff (fs : List Str) :
    (∃ e, unescapeFrags fs = .error e) ↔ ∃ f ∈ fs, fragBad f := by
  induction fs with
  | nil => simp [unescapeFrags]
  | cons f fs ih =>
    rw [unescapeFrags]
    cases hdf : decodeFrag f with
    | error e =>
      have hbad : fragBad f := (decodeFrag_error_iff f).1 ⟨e, hdf⟩
      simp only [List.mem_cons]
      constructor
      · intro _; exact ⟨f, Or.inl rfl, hbad⟩
      · intro _; exact ⟨e, rfl⟩
    | ok d =>
      have hgood : ¬fragBad f := by
        intro hb
        obtain ⟨e, he⟩ := (decodeFrag_error_iff f).2 hb
        rw [hdf] at he
        exact Except.noConfusion he
      cases hfr : unescapeFrags fs with
      | error e =>
        have hex : ∃ f ∈ fs, fragBad f := ih.1 ⟨e, hfr⟩
        simp only [List.mem_cons]
        constructor
        · intro _
          obtain ⟨g, hg, hbg⟩ := hex
          exact ⟨g, Or.inr hg, hbg⟩
        · intro _
          exact ⟨e, rfl⟩
      | ok r =>
        have hnex : ¬∃ f ∈ fs, fragBad f := fun hex => by
          obtain ⟨e, he⟩ := ih.2 hex
          rw [hfr] at he
          exact Except.noConfusion he
        simp only [List.mem_cons]
        constructor
        · rintro ⟨e, he⟩
          exact Except.noConfusion he
        · rintro ⟨g, hg | hg, hbg⟩
          · exact absurd hbg (hg ▸ hgood)
          · exact absurd ⟨g, hg, hbg⟩ hnex

theorem unescapeFrags_error_first (fs : List Str) (e : Str)
    (h : unescapeFrags fs = .error e) :
    ∃ pre f post, fs = pre ++ f :: post ∧ (∀ g ∈ pre, ¬fragBad g) ∧
      fragBad f ∧ e = fragErr f := by
  induction fs with
  | nil => rw [unescapeFrags] at h; exact Except.noConfusion h
  | cons f fs ih =>
    rw [unescapeFrags] at h
    cases hdf : decodeFrag f with
    | error e' =>
      rw [hdf] at h
      have he : e = e' := (Except.error.inj h).symm
      refine ⟨[], f, fs, rfl, by simp, (decodeFrag_error_iff f).1 ⟨e', hdf⟩, ?_⟩
      rw [he]
      exact decodeFrag_error_eq f e' hdf
    | ok d =>
      rw [hdf] at h
      have hgood : ¬fragBad f := by
        intro hb
        obtain ⟨e', he'⟩ := (decodeFrag_error_iff f).2 hb
        rw [hdf] at he'
        exact Except.noConfusion he'
      cases hfr : unescapeFrags fs with
      | error e' =>
        rw [hfr] at h
        have he : e = e' := (Except.error.inj h).symm
        obtain ⟨pre, g, post, hfs, hpre, hbg, hge⟩ := ih (he ▸ hfr)
        refine ⟨f :: pre, g, post, by rw [hfs, List.cons_append], ?_, hbg, hge⟩
        intro x hx
        rcases List.mem_cons.1 hx with hx | hx
        · exact hx ▸ hgood
        · exact hpre x hx
      | ok r => rw [hfr] at h; exact Except.noConfusion h

/-- `unescape` fails exactly when some `&`-fragment is bad. -/
theorem unescape_error_iff (input : Str) :
    (∃ e, unescape input = .error e) ↔
      ∃ frag ∈ (splitOnAmp input).tail, fragBad frag := by
  rw [unescape]
  match hsp : splitOnAmp input with
  | [] => exact absurd hsp (splitOnAmp_ne_nil input)
  | first :: rest =>
    simp only [List.tail_cons]
    cases hfr : unescapeFrags rest with
    | error e =>
      have hex := (unescapeFrags_error_iff rest).1 ⟨e, hfr⟩
      constructor
      · intro _; exact hex
      · intro _; exact ⟨e, rfl⟩
    | ok r =>
      have hnex : ¬∃ f ∈ rest, fragBad f := fun hex => by
        obtain ⟨e, he⟩ := (unescapeFrags_error_iff rest).2 hex
        rw [hfr] at he
        exact Except.noConfusion he
      constructor
      · rintro ⟨e, he⟩
        exact Except.noConfusion he
      · intro hex
        exact absurd hex hnex

theorem unescape_error_first (input : Str) (e : Str)
    (h : unescape input = .error e) :
    ∃ pre frag post, (splitOnAmp input).tail = pre ++ frag :: post ∧
      (∀ g ∈ pre, ¬fragBad g) ∧ fragBad frag ∧ e = fragErr frag := by
  rw [unescape] at h
  match hsp : splitOnAmp input with
  | [] => exact absurd hsp (splitOnAmp_ne_nil input)
  | first :: rest =>
    rw [hsp] at h
    have h' : (match unescapeFrags rest with
        | Except.error e => (Except.error e : Except Str Str)
        | Except.ok r => Except.ok (first ++ r)) = Except.error e := h
    simp only [List.tail_cons]
    cases hfr : unescapeFrags rest with
    | error e' =>
      rw [hfr] at h'
      have he : e = e' := (Except.error.inj h').symm
      exact he ▸ unescapeFrags_error_first rest e' hfr
    | ok r => rw [hfr] at h'; exact Except.noConfusion h'

/-! ### Decimal rendering and numeric references -/

theorem digitChar_mem (d : Nat) : digitChar d ∈ decDigits := by
  by_cases h : d < 10
  · interval_cases d <;> decide
  · have : decDigits.length ≤ d := by simp [decDigits]; omega
    rw [digitChar, List.getD_eq_default _ _ this]
    decide

theorem digitVal_digitChar (d : Nat) (h : d < 10) :
    digitVal 10 (digitChar d) = some d := by
  interval_cases d <;> decide

theorem natDecAux_ne_nil (fuel n : Nat) (h : n < fuel) :
    natDecAux fuel n ≠ [] := by
  match fuel with
  | fuel + 1 =>
    rw [natDecAux]
    split
    · simp
    · simp

theorem natDecAux_digits (fuel : Nat) :
    ∀ n, n < fuel → ∀ c ∈ natDecAux fuel n, c ∈ decDigits := by
  induction fuel with
  | zero => intro n h; omega
  | succ fuel ih =>
    intro n h c hc
    rw [natDecAux] at hc
    split at hc
    · simp at hc
      exact hc ▸ digitChar_mem n
    · rcases List.mem_append.1 hc with hc | hc
      · have hn10 : 10 ≤ n := by omega
        have : n / 10 < n := Nat.div_lt_self (by omega) (by omega)
        exact ih (n / 10) (by omega) c hc
      · simp at hc
        exact hc ▸ digitChar_mem (n % 10)

theorem radixStep_some (radix a : Nat) (c : Char) (d : Nat)
    (hd : digitVal radix c = some d) :
    radixStep radix (some a) c =
      if a * radix + d < 2 ^ 32 then some (a * radix + d) else none := by
  unfold radixStep
  rw [hd]

theorem natDecAux_foldl (fuel : Nat) :
    ∀ n, n < fuel → n < 2 ^ 32 →
      List.foldl (radixStep 10) (some 0) (natDecAux fuel n) = some n := by
  induction fuel with
  | zero => intro n h; omega
  | succ fuel ih =>
    intro n h h32
    rw [natDecAux]
    split
    · rename_i h10
      rw [List.foldl_cons, List.foldl_nil,
        radixStep_some 10 0 (digitChar n) n (digitVal_digitChar n h10)]
      rw [if_pos (by omega)]
      congr 1
      omega
    · rename_i h10
      have hn10 : 10 ≤ n := by omega
      have hdiv : n / 10 < n := Nat.div_lt_self (by omega) (by omega)
      rw [List.foldl_append, ih (n / 10) (by omega) (by omega)]
      rw [List.foldl_cons, List.foldl_nil,
        radixStep_some 10 (n / 10) (digitChar (n % 10)) (n % 10)
          (digitVal_digitChar (n % 10) (by omega))]
      have hmod : 10 * (n / 10) + n % 10 = n := Nat.div_add_mod n 10
      rw [if_pos (by omega)]
      congr 1
      omega

theorem natDec_cons (n : Nat) :
    ∃ c cs, natDec n = c :: cs ∧ c ∈ decDigits := by
  have hne := natDecAux_ne_nil (n + 1) n (by omega)
  have hdig := natDecAux_digits (n + 1) n (by omega)
  match hnd : natDecAux (n + 1) n with
  | [] => exact absurd hnd hne
  | c :: cs =>
    exact ⟨c, cs, by rw [natDec, hnd], hdig c (by rw [hnd]; simp)⟩

theorem parseRadix_cons (radix : Nat) (c : Char) (cs : Str) (hcp : c ≠ '+') :
    parseRadix radix (c :: cs) = List.foldl (radixStep radix) (some 0) (c :: cs) := by
  have hif : (if (c :: cs).head? = some '+' then (c :: cs).tail else (c :: cs)) =
      c :: cs := by
    rw [if_neg]
    simp [hcp]
  show (let t := if (c :: cs).head? = some '+' then (c :: cs).tail else (c :: cs);
    if t.isEmpty then none else t.foldl (radixStep radix) (some 0)) = _
  rw [hif]
  simp [List.isEmpty]

theorem parseRadix_natDec (n : Nat) (h32 : n < 2 ^ 32) :
    parseRadix 10 (natDec n) = some n := by
  obtain ⟨c, cs, hnd, hcd⟩ := natDec_cons n
  have hcp : c ≠ '+' := by fin_cases hcd <;> decide
  rw [hnd, parseRadix_cons 10 c cs hcp, ← hnd, natDec,
    natDecAux_foldl (n + 1) n (by omega) h32]

theorem natDec_no_specials (n : Nat) :
    '&' ∉ ('#' :: natDec n) ∧ ';' ∉ ('#' :: natDec n) := by
  have hdig : ∀ c ∈ natDec n, c ∈ decDigits := by
    rw [natDec]
    exact natDecAux_digits (n + 1) n (by omega)
  constructor
  · intro hmem
    rcases List.mem_cons.1 hmem with h | h
    · exact absurd h (by decide)
    · have := hdig '&' h
      revert this
      decide
  · intro hmem
    rcases List.mem_cons.1 hmem with h | h
    · exact absurd h (by decide)
    · have := hdig ';' h
      revert this
      decide

theorem decodeEntity_hashDec (n : Nat) (h32 : n < 2 ^ 32) :
    decodeEntity ('#' :: natDec n) =
      if n.isValidChar then some (Char.ofNat n) else none := by
  obtain ⟨c, cs, hnd, hcd⟩ := natDec_cons n
  have hcx : c ≠ 'x' := by fin_cases hcd <;> decide
  rw [decodeEntity, hnd]
  rw [if_neg (by simp), if_neg (by simp), if_neg (by simp), if_neg (by simp),
    if_neg (by simp)]
  have hnum : numericValue ('#' :: c :: cs) = parseRadix 10 (c :: cs) := by
    rw [numericValue]
    rw [if_neg (by simp [hcx]), if_pos (by simp)]
    simp
  rw [hnum, ← hnd, parseRadix_natDec n h32]

/-! ## Claim theorems for the entity codec -/

/-- C2: for every string `s` over the alphabet `{&, <, >, ', "}` (any
length, any order), `unescape (escape s)` returns `Ok s`. -/
theorem claim_C2_escape_unescape_roundtrip (s : Str)
    (hs : ∀ c ∈ s, c ∈ ['&', '<', '>', '\'', '"']) :
    unescape (escape s) = .ok s :=
  unescape_escape s

theorem claim_C2_witness :
    (∀ c ∈ (['&', '<', '>', '\'', '"', '&', '&'] : Str),
        c ∈ ['&', '<', '>', '\'', '"']) ∧
      unescape (escape ['&', '<', '>', '\'', '"', '&', '&']) =
        .ok ['&', '<', '>', '\'', '"', '&', '&'] :=
  ⟨by decide, claim_C2_escape_unescape_roundtrip _ (by decide)⟩

/-- C9: `unescape s` errors exactly when some `&`-introduced fragment has
no terminating `;` or its token is neither a named entity nor a numeric
reference denoting a valid Unicode scalar value; the error carries the
offending raw fragment; every numeric reference denoting a valid scalar
value is decoded to that character, and an out-of-range code point yields
the same error. -/
theorem claim_C9_unescape_errors (input : Str) :
    ((∃ e, unescape input = .error e) ↔
        ∃ frag ∈ (splitOnAmp input).tail, fragBad frag) ∧
      (∀ e, unescape input = .error e →
        ∃ pre frag post, (splitOnAmp input).tail = pre ++ frag :: post ∧
          (∀ g ∈ pre, ¬fragBad g) ∧ fragBad frag ∧ e = fragErr frag) ∧
      (∀ n : Nat, n.isValidChar →
        unescape ('&' :: '#' :: natDec n ++ [';']) = .ok [Char.ofNat n]) ∧
      (∀ n : Nat, ¬n.isValidChar → n < 2 ^ 32 →
        unescape ('&' :: '#' :: natDec n ++ [';']) =
          .error ('&' :: '#' :: natDec n ++ [';'])) := by
  refine ⟨unescape_error_iff input, unescape_error_first input, ?_, ?_⟩
  · intro n hvalid
    have h32 : n < 2 ^ 32 := by
      rcases hvalid with h | h <;> omega
    obtain ⟨hamp, hsemi⟩ := natDec_no_specials n
    have hdec : decodeEntity ('#' :: natDec n) = some (Char.ofNat n) := by
      rw [decodeEntity_hashDec n h32, if_pos hvalid]
    have := unescape_ent ('#' :: natDec n) (Char.ofNat n) [] hamp hsemi hdec
    simpa [unescape, splitOnAmp, unescapeFrags, Except.map] using this
  · intro n hvalid h32
    obtain ⟨hamp, hsemi⟩ := natDec_no_specials n
    have hdec : decodeEntity ('#' :: natDec n) = none := by
      rw [decodeEntity_hashDec n h32, if_neg hvalid]
    have hamp' : '&' ∉ ('#' :: natDec n) ++ ';' :: [] := by
      intro hmem
      rcases List.mem_append.1 hmem with h | h
      · exact hamp h
      · simp at h
    have hdw := dropWhile_append_semi ('#' :: natDec n) [] hsemi
    have htw := takeWhile_append_semi ('#' :: natDec n) [] hsemi
    have hfrag : decodeFrag (('#' :: natDec n) ++ ';' :: []) =
        .error ('&' :: ('#' :: natDec n) ++ [';']) := by
      rw [decodeFrag_semi _ ';' [] hdw, htw, hdec]
    have hall : unescape ('&' :: (('#' :: natDec n) ++ ';' :: [])) =
        .error ('&' :: ('#' :: natDec n) ++ [';']) := by
      rw [unescape, splitOnAmp_amp, splitOnAmp_no_amp _ hamp']
      show (match unescapeFrags [('#' :: natDec n) ++ ';' :: []] with
        | Except.error e => (Except.error e : Except Str Str)
        | Except.ok r => Except.ok ([] ++ r)) =
          Except.error ('&' :: ('#' :: natDec n) ++ [';'])
      rw [unescapeFrags, hfrag]
    simpa using hall

/-! ## The fixed `xml`/`xmlns` bindings (C5)

An unmatched close tag pops the bottom scope: after feeding `</a>` the
namespace stack is empty, so no scope — in particular no bottom scope —
holds the fixed bindings, refuting C5 as stated.  The amended claim holds:
in any run throughout which the scope stack never becomes empty, every
reachable state's bottom scope is the initial one. -/

theorem getLast?_cons_of_ne_nil {x : Scope} {l : List Scope} (h : l ≠ []) :
    (x :: l).getLast? = l.getLast? := by
  cases l with
  | nil => exact absurd rfl h
  | cons y t => rw [List.getLast?_cons_cons]

theorem notFam_OutsideTag : ¬nsFamily State.OutsideTag := by decide

theorem notFam_TagOpened : ¬nsFamily State.TagOpened := by decide

theorem notFam_InProcessingInstructions :
    ¬nsFamily State.InProcessingInstructions := by decide

theorem notFam_InTagName : ¬nsFamily State.InTagName := by decide

theorem notFam_InCloseTagName : ¬nsFamily State.InCloseTagName := by decide

theorem notFam_ExpectSpaceOrClose : ¬nsFamily State.ExpectSpaceOrClose := by
  decide

theorem notFam_InExclamationMark : ¬nsFamily State.InExclamationMark := by
  decide

theorem notFam_InCDATAOpening : ¬nsFamily State.InCDATAOpening := by decide

theorem notFam_InCDATA : ¬nsFamily State.InCDATA := by decide

theorem notFam_InCommentOpening : ¬nsFamily State.InCommentOpening := by decide

theorem notFam_InComment1 : ¬nsFamily State.InComment1 := by decide

theorem notFam_InComment2 : ¬nsFamily State.InComment2 := by decide

theorem notFam_InDoctype : ¬nsFamily State.InDoctype := by decide

theorem parse_character_nsinv (p : Parser) (c : Char)
    (hI : ParserNSInv p) (hne : (p.parse_character c).1.namespaces ≠ []) :
    ParserNSInv (p.parse_character c).1 := by
  obtain ⟨hbot, hfam⟩ := hI
  have hnsne : p.namespaces ≠ [] := by
    intro h0
    rw [h0] at hbot
    exact Option.noConfusion hbot
  have hlen1 : 1 ≤ p.namespaces.length := by
    cases hcase : p.namespaces with
    | nil => exact absurd hcase hnsne
    | cons x t => simp
  have hpush : ∀ sc : Scope, (sc :: p.namespaces).getLast? = some initialScope := by
    intro sc
    rw [getLast?_cons_of_ne_nil hnsne]
    exact hbot
  cases hst : p.st
  case OutsideTag =>
    simp only [Parser.parse_character, hst] at hne ⊢
    rw [Parser.outside_tag]
    split_ifs
    · exact ⟨hbot, fun hf => absurd hf notFam_TagOpened⟩
    · cases unescape_owned p.buf <;>
        exact ⟨hbot, fun hf => absurd hf notFam_TagOpened⟩
    · exact ⟨hbot, hfam⟩
  case TagOpened =>
    simp only [Parser.parse_character, hst] at hne ⊢
    rw [Parser.tag_opened]
    split_ifs <;> first
      | exact ⟨hbot, fun hf => absurd hf notFam_InProcessingInstructions⟩
      | exact ⟨hbot, fun hf => absurd hf notFam_InExclamationMark⟩
      | exact ⟨hbot, fun hf => absurd hf notFam_InCloseTagName⟩
      | exact ⟨hbot, fun hf => absurd hf notFam_InTagName⟩
  case InProcessingInstructions =>
    simp only [Parser.parse_character, hst] at hne ⊢
    rw [Parser.in_processing_instructions]
    split_ifs <;> first
      | exact ⟨hbot, hfam⟩
      | exact ⟨hbot, fun hf => absurd hf notFam_OutsideTag⟩
  case InTagName =>
    simp only [Parser.parse_character, hst] at hne ⊢
    rw [Parser.in_tag_name]
    split_ifs with h1 h2
    · rcases hpq : parse_qname p.buf with ⟨pfx, nm⟩
      simp only [hpq]
      cases hr : resolveTagNS p.namespaces pfx with
      | none => exact ⟨hbot, hfam⟩
      | some ns =>
        exact ⟨hpush [], fun _ => by simp only [List.length_cons]; omega⟩
    · rcases hpq : parse_qname p.buf with ⟨pfx, nm⟩
      simp only [hpq]
      cases hr : resolveTagNS p.namespaces pfx with
      | none => exact ⟨hbot, hfam⟩
      | some ns => exact ⟨hpush [], fun hf => absurd hf notFam_OutsideTag⟩
    · exact ⟨hpush [], fun _ => by simp only [List.length_cons]; omega⟩
    · exact ⟨hbot, hfam⟩
  case InCloseTagName =>
    simp only [Parser.parse_character, hst] at hne ⊢
    rw [Parser.in_close_tag_name] at hne ⊢
    split_ifs with h1 h2
    · rcases hpq : parse_qname p.buf with ⟨pfx, nm⟩
      rw [if_pos h1] at hne
      simp only [hpq] at hne ⊢
      cases hr : resolveTagNS p.namespaces pfx with
      | none => exact ⟨hbot, hfam⟩
      | some ns =>
        rw [hr] at hne
        have htne : p.namespaces.tail ≠ [] := hne
        cases hcase : p.namespaces with
        | nil => exact absurd hcase hnsne
        | cons x t =>
          have ht : t ≠ [] := by rw [hcase] at htne; exact htne
          refine ⟨?_, fun hf => absurd hf notFam_OutsideTag⟩
          show (x :: t).tail.getLast? = some initialScope
          rw [List.tail_cons, ← getLast?_cons_of_ne_nil ht, ← hcase]
          exact hbot
    · rcases hpq : parse_qname p.buf with ⟨pfx, nm⟩
      rw [if_pos h1] at hne
      simp only [hpq] at hne ⊢
      cases hr : resolveTagNS p.namespaces pfx with
      | none => exact ⟨hbot, hfam⟩
      | some ns =>
        rw [hr] at hne
        have htne : p.namespaces.tail ≠ [] := hne
        cases hcase : p.namespaces with
        | nil => exact absurd hcase hnsne
        | cons x t =>
          have ht : t ≠ [] := by rw [hcase] at htne; exact htne
          refine ⟨?_, fun hf => absurd hf notFam_ExpectSpaceOrClose⟩
          show (x :: t).tail.getLast? = some initialScope
          rw [List.tail_cons, ← getLast?_cons_of_ne_nil ht, ← hcase]
          exact hbot
    · exact ⟨hbot, hfam⟩
  case InTag =>
    simp only [Parser.parse_character, hst] at hne ⊢
    rw [Parser.in_tag]
    split_ifs with h1 h2
    · split
      · exact ⟨hbot, hfam⟩
      · dsimp only
        split
        · exact ⟨hbot, hfam⟩
        · split
          · exact ⟨hbot, hfam⟩
          · exact ⟨hbot, fun _ => hfam (by rw [hst]; decide)⟩
    · split
      · exact ⟨hbot, hfam⟩
      · dsimp only
        split
        · exact ⟨hbot, hfam⟩
        · split
          · exact ⟨hbot, hfam⟩
          · exact ⟨hbot, fun hf => absurd hf notFam_OutsideTag⟩
    · exact ⟨hbot, hfam⟩
    · exact ⟨hbot, fun _ => hfam (by rw [hst]; decide)⟩
  case InAttrName =>
    simp only [Parser.parse_character, hst] at hne ⊢
    rw [Parser.in_attr_name]
    split_ifs <;> first
      | exact ⟨hbot, hfam⟩
      | exact ⟨hbot, fun _ => hfam (by rw [hst]; decide)⟩
  case InAttrValue =>
    simp only [Parser.parse_character, hst] at hne ⊢
    rw [Parser.in_attr_value]
    split
    · exact ⟨hbot, hfam⟩
    · split_ifs with h1
      · split
        · exact ⟨hbot, hfam⟩
        · dsimp only
          split
          · exact ⟨hbot, fun _ => hfam (by rw [hst]; decide)⟩
          · split
            · exact ⟨hbot, fun _ => hfam (by rw [hst]; decide)⟩
            · rename_i value top rest hcase
              have hlen2 : 2 ≤ p.namespaces.length := hfam (by rw [hst]; decide)
              have hrne : rest ≠ [] := by
                rw [hcase] at hlen2
                intro h0
                rw [h0] at hlen2
                simp at hlen2
              refine ⟨?_, fun _ => ?_⟩
              · show (_ :: rest).getLast? = some initialScope
                rw [getLast?_cons_of_ne_nil hrne]
                have hbr : (top :: rest).getLast? = some initialScope := by
                  rw [← hcase]; exact hbot
                rw [getLast?_cons_of_ne_nil hrne] at hbr
                exact hbr
              · show 2 ≤ (_ :: rest).length
                rw [hcase] at hlen2
                simp only [List.length_cons] at hlen2 ⊢
                omega
      · exact ⟨hbot, hfam⟩
  case ExpectDelimiter =>
    simp only [Parser.parse_character, hst] at hne ⊢
    rw [Parser.expect_delimiter]
    split_ifs <;> first
      | exact ⟨hbot, hfam⟩
      | exact ⟨hbot, fun _ => hfam (by rw [hst]; decide)⟩
  case ExpectClose =>
    simp only [Parser.parse_character, hst] at hne ⊢
    rw [Parser.expect_close]
    split_ifs with h1
    · split
      · exact ⟨hbot, hfam⟩
      · dsimp only
        split
        · exact ⟨hbot, fun hf => absurd hf notFam_OutsideTag⟩
        · have hlen2 : 2 ≤ p.namespaces.length := hfam (by rw [hst]; decide)
          cases hcase : p.namespaces with
          | nil => exact absurd hcase hnsne
          | cons x t =>
            have ht : t ≠ [] := by
              rw [hcase] at hlen2
              intro h0
              rw [h0] at hlen2
              simp at hlen2
            refine ⟨?_, fun hf => absurd hf notFam_OutsideTag⟩
            show (x :: t).tail.getLast? = some initialScope
            rw [List.tail_cons, ← getLast?_cons_of_ne_nil ht, ← hcase]
            exact hbot
    · exact ⟨hbot, hfam⟩
  case ExpectSpaceOrClose =>
    simp only [Parser.parse_character, hst] at hne ⊢
    rw [Parser.expect_space_or_close]
    split_ifs <;> first
      | exact ⟨hbot, hfam⟩
      | exact ⟨hbot, fun hf => absurd hf notFam_OutsideTag⟩
  case InExclamationMark =>
    simp only [Parser.parse_character, hst] at hne ⊢
    rw [Parser.in_exclamation_mark]
    split_ifs <;> first
      | exact ⟨hbot, hfam⟩
      | exact ⟨hbot, fun hf => absurd hf notFam_InCommentOpening⟩
      | exact ⟨hbot, fun hf => absurd hf notFam_InCDATAOpening⟩
      | exact ⟨hbot, fun hf => absurd hf notFam_InDoctype⟩
  case InCDATAOpening =>
    simp only [Parser.parse_character, hst] at hne ⊢
    rw [Parser.in_cdata_opening]
    split_ifs <;> first
      | exact ⟨hbot, hfam⟩
      | exact ⟨hbot, fun hf => absurd hf notFam_InCDATA⟩
  case InCDATA =>
    simp only [Parser.parse_character, hst] at hne ⊢
    rw [Parser.in_cdata]
    split_ifs <;> first
      | exact ⟨hbot, hfam⟩
      | exact ⟨hbot, fun hf => absurd hf notFam_OutsideTag⟩
  case InCommentOpening =>
    simp only [Parser.parse_character, hst] at hne ⊢
    rw [Parser.in_comment_opening]
    split_ifs <;> first
      | exact ⟨hbot, hfam⟩
      | exact ⟨hbot, fun hf => absurd hf notFam_InComment1⟩
  case InComment1 =>
    simp only [Parser.parse_character, hst] at hne ⊢
    rw [Parser.in_comment1]
    split_ifs <;> first
      | exact ⟨hbot, hfam⟩
      | exact ⟨hbot, fun hf => absurd hf notFam_InComment2⟩
  case InComment2 =>
    simp only [Parser.parse_character, hst] at hne ⊢
    rw [Parser.in_comment2]
    split_ifs <;> first
      | exact ⟨hbot, hfam⟩
      | exact ⟨hbot, fun hf => absurd hf notFam_OutsideTag⟩
  case InDoctype =>
    simp only [Parser.parse_character, hst] at hne ⊢
    rw [Parser.in_doctype]
    split_ifs <;> first
      | exact ⟨hbot, hfam⟩
      | exact ⟨hbot, fun hf => absurd hf notFam_OutsideTag⟩

theorem updatePos_fields (p : Parser) (c : Char) :
    (p.updatePos c).st = p.st ∧ (p.updatePos c).level = p.level ∧
      (p.updatePos c).hasError = p.hasError ∧
      (p.updatePos c).namespaces = p.namespaces ∧
      (p.updatePos c).buf = p.buf ∧ (p.updatePos c).attributes = p.attributes ∧
      (p.updatePos c).name = p.name ∧ (p.updatePos c).attr = p.attr ∧
      (p.updatePos c).delim = p.delim := by
  rw [Parser.updatePos]
  split <;> exact ⟨rfl, rfl, rfl, rfl, rfl, rfl, rfl, rfl, rfl⟩

theorem step_eq_of_parse (p : Parser) (c : Char) (h2 : p.hasError = false) :
    p.step c =
      match (p.updatePos c).parse_character c with
      | (p2, Except.ok ev) => (p2, Except.ok ev)
      | (p2, Except.error e) => ({ p2 with hasError := true }, Except.error e) := by
  rw [Parser.step, if_neg (by simp [h2])]

theorem step_nsinv (q : Parser) (c : Char) (hI : ParserNSInv q)
    (hne : (q.step c).1.namespaces ≠ []) : ParserNSInv (q.step c).1 := by
  by_cases he : q.hasError = true
  · rw [Parser.step, if_pos he] at hne ⊢
    exact hI
  · have he' : q.hasError = false := by
      cases hb : q.hasError
      · rfl
      · exact absurd hb he
    rw [step_eq_of_parse q c he'] at hne ⊢
    have hIp1 : ParserNSInv (q.updatePos c) := by
      refine ⟨?_, ?_⟩
      · rw [(updatePos_fields q c).2.2.2.1]
        exact hI.1
      · intro hf
        rw [(updatePos_fields q c).2.2.2.1]
        apply hI.2
        rw [← (updatePos_fields q c).1]
        exact hf
    match hpc : (q.updatePos c).parse_character c with
    | (p2, res) =>
      rw [hpc] at hne
      cases res with
      | ok ev =>
        have hne2 : p2.namespaces ≠ [] := hne
        have h3 := parse_character_nsinv (q.updatePos c) c hIp1
          (by rw [hpc]; exact hne2)
        rw [hpc] at h3
        exact h3
      | error e =>
        have hne2 : p2.namespaces ≠ [] := hne
        have h3 := parse_character_nsinv (q.updatePos c) c hIp1
          (by rw [hpc]; exact hne2)
        rw [hpc] at h3
        exact h3

theorem trace_head_mem (p : Parser) (cs : List Char) : p ∈ p.trace cs := by
  cases cs <;> simp [Parser.trace]

theorem trace_nsinv (cs : List Char) :
    ∀ p : Parser, ParserNSInv p →
      (∀ q ∈ p.trace cs, q.namespaces ≠ []) →
      ∀ q ∈ p.trace cs, ParserNSInv q := by
  induction cs with
  | nil =>
    intro p hI hne q hq
    simp only [Parser.trace, List.mem_singleton] at hq
    exact hq ▸ hI
  | cons c cs ih =>
    intro p hI hne q hq
    rw [Parser.trace] at hq
    rcases List.mem_cons.1 hq with rfl | hq'
    · exact hI
    · have hmem1 : (p.step c).1 ∈ p.trace (c :: cs) := by
        rw [Parser.trace]
        exact List.mem_cons_of_mem _ (trace_head_mem _ cs)
      have hstep : ParserNSInv (p.step c).1 :=
        step_nsinv p c hI (hne (p.step c).1 hmem1)
      exact ih (p.step c).1 hstep
        (fun r hr => hne r (by rw [Parser.trace]; exact List.mem_cons_of_mem _ hr))
        q hq'

/-- C5 counterexample: feeding the single unmatched close tag `</a>` to a
fresh parser empties the namespace-scope stack entirely, so the reachable
state after it has no bottom scope at all (and a following `<xml:b>` start
tag fails to resolve the supposedly permanent `xml` prefix). -/
theorem claim_C5_counterexample :
    (Parser.new.run ['<', '/', 'a', '>']).2.namespaces = [] ∧
      parseEvents "</a><xml:b>".toList =
        [.ok (.ElementEnd ⟨['a'], none, none⟩),
          .error ⟨1, 11, msgUnboundTag⟩] :=
  ⟨rfl, rfl⟩

/-- C5 amended: for every input and every reachable tokenizer state, the
bottom scope of the namespace stack still contains the two fixed bindings
`xml` and `xmlns`, provided the scope stack never becomes empty during the
run (an unmatched close tag beyond the opened depth pops the bottom scope
and discards the bindings). -/
theorem claim_C5_amended_fixed_bindings (cs : List Char)
    (hne : ∀ q ∈ Parser.new.trace cs, q.namespaces ≠ []) :
    ∀ q ∈ Parser.new.trace cs,
      ∃ bot, q.namespaces.getLast? = some bot ∧
        scopeGet bot xmlPrefixStr = some xmlNamespaceStr ∧
        scopeGet bot xmlnsPrefixStr = some xmlnsNamespaceStr := by
  intro q hq
  have hInew : ParserNSInv Parser.new :=
    ⟨rfl, fun hf => absurd hf (by decide)⟩
  have hInv := trace_nsinv cs Parser.new hInew hne q hq
  exact ⟨initialScope, hInv.1, rfl, rfl⟩

theorem claim_C5_witness :
    ∃ bot, ((Parser.new.run ['<', 'a', '>']).2).namespaces.getLast? =
        some bot ∧
      scopeGet bot xmlPrefixStr = some xmlNamespaceStr ∧
      scopeGet bot xmlnsPrefixStr = some xmlnsNamespaceStr :=
  claim_C5_amended_fixed_bindings ['<', 'a', '>'] (by decide)
    (Parser.new.run ['<', 'a', '>']).2 (by decide)

/-! ## Processing instructions (C7)

The source never resets `level` on an ordinary character, so once any `?`
has been buffered the next `>` terminates the processing instruction even
when not adjacent, and the emit pops the last buffered character, whatever
it is.  The theorem below exhibits this on the input `<?a?b>` (no `?>`
occurs, yet one PI event is produced, with the trailing `b` stripped),
next to the intended behavior on `<?x?>`. -/

theorem claim_C7_pi_termination :
    parseEvents ['<', '?', 'a', '?', 'b', '>'] = [.ok (.PI ['a', '?'])] ∧
      parseEvents ['<', '?', 'x', '?', '>'] = [.ok (.PI ['x'])] :=
  ⟨rfl, rfl⟩

/-! ## DOCTYPE handling (C8) -/

theorem run_append (xs : List Char) :
    ∀ (p : Parser) (ys : List Char),
      p.run (xs ++ ys) =
        ((p.run xs).1 ++ ((p.run xs).2.run ys).1, ((p.run xs).2.run ys).2) := by
  induction xs with
  | nil => intro p ys; simp [Parser.run]
  | cons c cs ih =>
    intro p ys
    rw [List.cons_append]
    match hstep : p.step c with
    | (p', .ok none) =>
      rw [Parser.run, hstep]
      show p'.run (cs ++ ys) = _
      rw [ih p' ys]
      conv_rhs => rw [Parser.run, hstep]
    | (p', .ok (some ev)) =>
      rw [Parser.run, hstep]
      show (match p'.run (cs ++ ys) with
        | (evs, p'') => ((Except.ok ev : Except ParserError Event) :: evs, p'')) = _
      rw [ih p' ys]
      conv_rhs => rw [Parser.run, hstep]
      simp
    | (p', .error e) =>
      rw [Parser.run, hstep]
      show (match p'.run (cs ++ ys) with
        | (evs, p'') => ((Except.error e : Except ParserError Event) :: evs, p'')) = _
      rw [ih p' ys]
      conv_rhs => rw [Parser.run, hstep]
      simp

theorem parse_character_InDoctype (p : Parser) (c : Char)
    (h : p.st = .InDoctype) : p.parse_character c = p.in_doctype c := by
  simp only [Parser.parse_character]
  rw [h]

theorem in_doctype_skip (p : Parser) (c : Char) (h1 : p.st = .InDoctype)
    (h2 : p.hasError = false) (h3 : 7 ≤ p.level) (hc : c ≠ '>') :
    p.step c = (p.updatePos c, .ok none) := by
  have hfields := updatePos_fields p c
  rw [step_eq_of_parse p c h2]
  rw [parse_character_InDoctype _ c (by rw [hfields.1]; exact h1)]
  rw [Parser.in_doctype, if_neg (by rw [hfields.2.1]; omega),
    if_neg (by rw [hfields.2.1]; omega), if_neg hc]

theorem in_doctype_gt (p : Parser) (h1 : p.st = .InDoctype)
    (h2 : p.hasError = false) (h3 : 7 ≤ p.level) :
    p.step '>' =
      ({ p.updatePos '>' with level := 0, st := .OutsideTag }, .ok none) := by
  have hfields := updatePos_fields p '>'
  rw [step_eq_of_parse p '>' h2]
  rw [parse_character_InDoctype _ '>' (by rw [hfields.1]; exact h1)]
  rw [Parser.in_doctype, if_neg (by rw [hfields.2.1]; omega),
    if_neg (by rw [hfields.2.1]; omega), if_pos rfl]

theorem doctype_discard (ds : Str) :
    ∀ p : Parser, p.st = .InDoctype → p.hasError = false → 7 ≤ p.level →
      '>' ∉ ds →
      ∃ p', p.run ds = ([], p') ∧ p'.st = .InDoctype ∧ p'.level = p.level ∧
        p'.hasError = false := by
  induction ds with
  | nil => intro p h1 h2 h3 _; exact ⟨p, rfl, h1, rfl, h2⟩
  | cons c cs ih =>
    intro p h1 h2 h3 hnot
    have hc : c ≠ '>' := fun hEq => hnot (hEq ▸ List.mem_cons_self c cs)
    have hcs : '>' ∉ cs := fun hm => hnot (List.mem_cons_of_mem c hm)
    have hfields := updatePos_fields p c
    have hstep := in_doctype_skip p c h1 h2 h3 hc
    obtain ⟨p', hrun, hst', hlv', hhe'⟩ :=
      ih (p.updatePos c) (by rw [hfields.1]; exact h1)
        (by rw [hfields.2.2.1]; exact h2) (by rw [hfields.2.1]; omega) hcs
    refine ⟨p', ?_, hst', by rw [hlv', hfields.2.1], hhe'⟩
    rw [Parser.run, hstep]
    show (p.updatePos c).run cs = ([], p')
    exact hrun

theorem doctype_after_prefix (ws : Char) (p1 : Parser)
    (hpre : Parser.new.run ('<' :: '!' :: 'D' :: ("OCTYPE".toList ++ [ws])) =
      ([], p1))
    (h1 : p1.st = .InDoctype) (h2 : p1.hasError = false) (h3 : p1.level = 7)
    (ds : Str) (hds : '>' ∉ ds) :
    parseEvents ('<' :: '!' :: 'D' :: ("OCTYPE".toList ++ ws :: ds ++ ['>'])) =
        [] ∧
      (Parser.new.run
          ('<' :: '!' :: 'D' :: ("OCTYPE".toList ++ ws :: ds ++ ['>']))).2.st =
        .OutsideTag := by
  have hsplit : ('<' :: '!' :: 'D' :: ("OCTYPE".toList ++ ws :: ds ++ ['>'])) =
      ('<' :: '!' :: 'D' :: ("OCTYPE".toList ++ [ws])) ++ (ds ++ ['>']) := by
    simp
  obtain ⟨p', hrun, hst', hlv', hhe'⟩ :=
    doctype_discard ds p1 h1 h2 (by omega) hds
  have hgt := in_doctype_gt p' hst' hhe' (by omega)
  have e3 : p'.run ['>'] =
      ([], { p'.updatePos '>' with level := 0, st := .OutsideTag }) := by
    rw [Parser.run, hgt]
    show Parser.run _ [] = _
    rw [Parser.run]
  have e2 : p1.run (ds ++ ['>']) =
      ([], { p'.updatePos '>' with level := 0, st := .OutsideTag }) := by
    rw [run_append, hrun, e3]
    rfl
  have e1 : Parser.new.run
      ('<' :: '!' :: 'D' :: ("OCTYPE".toList ++ ws :: ds ++ ['>'])) =
      ([], { p'.updatePos '>' with level := 0, st := .OutsideTag }) := by
    rw [hsplit, run_append, hpre, e2]
    rfl
  exact ⟨by rw [parseEvents, e1], by rw [e1]⟩

/-- C8: after `<!D` the tokenizer matches the literal `OCTYPE` character
by character (a mismatch is an "Invalid DOCTYPE" error), requires at least
one whitespace character (a non-whitespace is the same error), then
discards everything up to the next `>`, returning to `OutsideTag` with no
event produced; in particular `<!DOCTYPE html>` yields zero events. -/
theorem claim_C8_doctype :
    (∀ (ws : Char) (ds : Str), isWS ws = true → '>' ∉ ds →
        parseEvents
            ('<' :: '!' :: 'D' :: ("OCTYPE".toList ++ ws :: ds ++ ['>'])) =
          [] ∧
        (Parser.new.run
            ('<' :: '!' :: 'D' :: ("OCTYPE".toList ++ ws :: ds ++ ['>']))).2.st =
          .OutsideTag) ∧
      parseEvents "<!DOCTYPE html>".toList = [] ∧
      (∀ (p : Parser) (c : Char), p.st = .InDoctype → p.hasError = false →
        p.level ≤ 5 → c ≠ doctypePattern.getD p.level 'O' →
        (p.step c).2 = .error ((p.updatePos c).mkError msgBadDoctype)) ∧
      (∀ (p : Parser) (c : Char), p.st = .InDoctype → p.hasError = false →
        p.level = 6 → isWS c = false →
        (p.step c).2 = .error ((p.updatePos c).mkError msgBadDoctype)) := by
  refine ⟨?_, rfl, ?_, ?_⟩
  · intro ws ds hws hds
    have hws' : ws = ' ' ∨ ws = '\t' ∨ ws = '\r' ∨ ws = '\n' := by
      have h := hws
      rw [isWS] at h
      simp only [Bool.or_eq_true, decide_eq_true_eq] at h
      tauto
    rcases hws' with rfl | rfl | rfl | rfl
    · exact doctype_after_prefix ' '
        { line := 1, col := 10, hasError := false, buf := [],
          namespaces := [initialScope], attributes := [], st := .InDoctype,
          name := none, attr := none, delim := none, level := 7 }
        rfl rfl rfl rfl ds hds
    · exact doctype_after_prefix '\t'
        { line := 1, col := 10, hasError := false, buf := [],
          namespaces := [initialScope], attributes := [], st := .InDoctype,
          name := none, attr := none, delim := none, level := 7 }
        rfl rfl rfl rfl ds hds
    · exact doctype_after_prefix '\r'
        { line := 1, col := 10, hasError := false, buf := [],
          namespaces := [initialScope], attributes := [], st := .InDoctype,
          name := none, attr := none, delim := none, level := 7 }
        rfl rfl rfl rfl ds hds
    · exact doctype_after_prefix '\n'
        { line := 2, col := 0, hasError := false, buf := [],
          namespaces := [initialScope], attributes := [], st := .InDoctype,
          name := none, attr := none, delim := none, level := 7 }
        rfl rfl rfl rfl ds hds
  · intro p c h1 h2 h3 hc
    have hfields := updatePos_fields p c
    rw [step_eq_of_parse p c h2]
    rw [parse_character_InDoctype _ c (by rw [hfields.1]; exact h1)]
    rw [Parser.in_doctype, if_pos (by rw [hfields.2.1]; omega),
      if_neg (by rw [hfields.2.1]; exact hc)]
  · intro p c h1 h2 h3 hc
    have hfields := updatePos_fields p c
    rw [step_eq_of_parse p c h2]
    rw [parse_character_InDoctype _ c (by rw [hfields.1]; exact h1)]
    rw [Parser.in_doctype, if_neg (by rw [hfields.2.1]; omega),
      if_pos (by rw [hfields.2.1]; exact h3), if_neg (by rw [hc]; simp)]

theorem claim_C8_witness :
    parseEvents
        ('<' :: '!' :: 'D' :: ("OCTYPE".toList ++ ' ' :: "html".toList ++ ['>'])) =
      [] :=
  ((claim_C8_doctype.1 ' ' "html".toList (by decide) (by decide)).1)

/-! ## Namespace resolution (C1) -/

theorem namespace_lookup_first (inner : List Scope) (sc : Scope)
    (outer : List Scope) (pre v : Str)
    (hinner : ∀ s ∈ inner, scopeGet s pre = none)
    (hsc : scopeGet sc pre = some v) :
    namespace_lookup (inner ++ sc :: outer) pre =
      if v = [] then none else some v := by
  induction inner with
  | nil =>
    rw [List.nil_append, namespace_lookup, hsc]
  | cons s ss ih =>
    rw [List.cons_append, namespace_lookup, hinner s (List.mem_cons_self s ss)]
    exact ih fun t ht => hinner t (List.mem_cons_of_mem s ht)

theorem namespace_lookup_unbound (nss : List Scope) (pre : Str)
    (h : ∀ s ∈ nss, scopeGet s pre = none) :
    namespace_lookup nss pre = none := by
  induction nss with
  | nil => rfl
  | cons s ss ih =>
    rw [namespace_lookup, h s (List.mem_cons_self s ss)]
    exact ih fun t ht => h t (List.mem_cons_of_mem s ht)

theorem resolveTagNS_unbound (nss : List Scope) (pre : Str)
    (h : namespace_lookup nss pre = none) :
    resolveTagNS nss (some pre) = none := by
  rw [resolveTagNS, h]

theorem resolveTagNS_default (nss : List Scope) :
    resolveTagNS nss none = some (namespace_lookup nss []) := rfl

theorem in_tag_name_unbound (p : Parser) (c : Char) (pre nm : Str)
    (hc : c = '/' ∨ c = '>')
    (hq : parse_qname p.buf = (some pre, nm))
    (hlook : namespace_lookup p.namespaces pre = none) :
    p.in_tag_name c = ({ p with buf := [] }, .error (p.mkError msgUnboundTag)) := by
  simp only [Parser.in_tag_name, if_pos hc, hq, resolveTagNS, hlook]

theorem in_close_tag_name_unbound (p : Parser) (c : Char) (pre nm : Str)
    (hc : isWS c ∨ c = '>')
    (hq : parse_qname p.buf = (some pre, nm))
    (hlook : namespace_lookup p.namespaces pre = none) :
    p.in_close_tag_name c =
      ({ p with buf := [] }, .error (p.mkError msgUnboundTag)) := by
  simp only [Parser.in_close_tag_name, if_pos hc, hq, resolveTagNS, hlook]

theorem expect_close_unbound (p : Parser) (pre nm : Str)
    (hname : p.name = some (some pre, nm))
    (hlook : namespace_lookup p.namespaces pre = none) :
    p.expect_close '>' =
      ({ p with st := .OutsideTag, name := none },
        .error (p.mkError msgUnboundTag)) := by
  simp only [Parser.expect_close, if_pos rfl, hname, resolveTagNS, hlook]
  rfl

theorem in_tag_unbound (p : Parser) (c : Char) (pre nm : Str)
    (hc : c = '/' ∨ c = '>')
    (hname : p.name = some (some pre, nm))
    (hlook : namespace_lookup p.namespaces pre = none) :
    p.in_tag c =
      ({ p with attributes := [], name := none },
        .error (p.mkError msgUnboundTag)) := by
  simp only [Parser.in_tag, if_pos hc, hname, resolveTagNS, hlook]
  rfl

theorem resolveAttrs_unbound_head (nss : List Scope) (nm pre v : Str)
    (rest : List (Str × Option Str × Str)) (acc : AttrMap)
    (hlook : namespace_lookup nss pre = none) :
    resolveAttrs nss ((nm, some pre, v) :: rest) acc = .error msgUnboundAttr := by
  rw [resolveAttrs, resolveAttrNS, hlook]

/-- C1: prefix resolution at tag completion and attribute finalization
searches scopes innermost-to-outermost, the first scope binding the prefix
decides, an empty-string value resolves to no namespace; with no binding
anywhere, the default prefix resolves to no namespace while an explicit
prefix produces the unbound-prefix `ParserError` at each of the four
resolution sites (never a panic). -/
theorem claim_C1_prefix_resolution :
    (∀ (inner : List Scope) (sc : Scope) (outer : List Scope) (pre v : Str),
        (∀ s ∈ inner, scopeGet s pre = none) → scopeGet sc pre = some v →
        namespace_lookup (inner ++ sc :: outer) pre =
          if v = [] then none else some v) ∧
    (∀ (nss : List Scope) (pre : Str), (∀ s ∈ nss, scopeGet s pre = none) →
        namespace_lookup nss pre = none ∧
        resolveTagNS nss none = some (namespace_lookup nss []) ∧
        resolveTagNS nss (some pre) = none ∧
        resolveAttrNS nss none = some none ∧
        resolveAttrNS nss (some pre) = none) ∧
    (∀ (p : Parser) (c : Char) (pre nm : Str), (c = '/' ∨ c = '>') →
        parse_qname p.buf = (some pre, nm) →
        namespace_lookup p.namespaces pre = none →
        p.in_tag_name c =
          ({ p with buf := [] }, .error (p.mkError msgUnboundTag))) ∧
    (∀ (p : Parser) (c : Char) (pre nm : Str), (isWS c ∨ c = '>') →
        parse_qname p.buf = (some pre, nm) →
        namespace_lookup p.namespaces pre = none →
        p.in_close_tag_name c =
          ({ p with buf := [] }, .error (p.mkError msgUnboundTag))) ∧
    (∀ (p : Parser) (pre nm : Str), p.name = some (some pre, nm) →
        namespace_lookup p.namespaces pre = none →
        p.expect_close '>' =
          ({ p with st := .OutsideTag, name := none },
            .error (p.mkError msgUnboundTag)) ∧
        p.in_tag '>' =
          ({ p with attributes := [], name := none },
            .error (p.mkError msgUnboundTag))) ∧
    (∀ (nss : List Scope) (nm pre v : Str)
        (rest : List (Str × Option Str × Str)) (acc : AttrMap),
        namespace_lookup nss pre = none →
        resolveAttrs nss ((nm, some pre, v) :: rest) acc =
          .error msgUnboundAttr) := by
  refine ⟨namespace_lookup_first, ?_, in_tag_name_unbound,
    in_close_tag_name_unbound, ?_, resolveAttrs_unbound_head⟩
  · intro nss pre h
    have hl := namespace_lookup_unbound nss pre h
    exact ⟨hl, rfl, resolveTagNS_unbound nss pre hl, rfl, by rw [resolveAttrNS, hl]⟩
  · intro p pre nm hname hlook
    exact ⟨expect_close_unbound p pre nm hname hlook,
      in_tag_unbound p '>' pre nm (Or.inr rfl) hname hlook⟩

theorem claim_C1_witness :
    namespace_lookup ([[]] ++ [(['p'], ['u'])] :: [[(['p'], ['w'])]]) ['p'] =
      (if (['u'] : Str) = [] then none else some ['u']) ∧
      namespace_lookup ([[]] ++ [(['p'], [])] :: [[(['p'], ['w'])]]) ['p'] =
        (if ([] : Str) = [] then none else some []) ∧
      resolveTagNS [[], []] (some ['q']) = none :=
  ⟨claim_C1_prefix_resolution.1 [[]] [(['p'], ['u'])] [[(['p'], ['w'])]]
      ['p'] ['u'] (by decide) (by decide),
    claim_C1_prefix_resolution.1 [[]] [(['p'], [])] [[(['p'], ['w'])]]
      ['p'] [] (by decide) (by decide),
    ((claim_C1_prefix_resolution.2.1 [[], []] ['q'] (by decide)).2.2.1)⟩

/-! ## Element attribute API (C10) -/

theorem attrGet_attrInsert_same (m : AttrMap) (k : Str × Option Str) (v : Str) :
    attrGet (attrInsert m k v) k = some v := by
  induction m with
  | nil => simp [attrInsert, attrGet]
  | cons kv rest ih =>
    obtain ⟨k', v'⟩ := kv
    by_cases h : k' = k
    · simp [attrInsert, h, attrGet]
    · simp only [attrInsert, if_neg h]
      rw [attrGet, if_neg h]
      exact ih

theorem attrGet_attrInsert_other (m : AttrMap) (k k' : Str × Option Str)
    (v : Str) (h : k' ≠ k) :
    attrGet (attrInsert m k v) k' = attrGet m k' := by
  have hkk : ¬(k = k') := fun hEq => h hEq.symm
  induction m with
  | nil => simp [attrInsert, attrGet, hkk]
  | cons kv rest ih =>
    obtain ⟨k0, v0⟩ := kv
    by_cases h0 : k0 = k
    · simp only [attrInsert, if_pos h0, attrGet]
      rw [if_neg hkk, if_neg (fun hEq : k0 = k' => hkk (h0.symm.trans hEq))]
    · simp only [attrInsert, if_neg h0, attrGet]
      by_cases h1 : k0 = k'
      · rw [if_pos h1, if_pos h1]
      · rw [if_neg h1, if_neg h1]
        exact ih

/-- C10: `Element::set_attribute` always succeeds, stores the value under
`(name, ns)`, returns the previously stored value (`some old` or `none`),
leaves all other keys and fields unchanged — a duplicate key is silently
overwritten, never an error. -/
theorem claim_C10_set_attribute (e : Element) (name : Str) (ns : Option Str)
    (value : Str) :
    (e.set_attribute name ns value).2 = e.get_attribute name ns ∧
      (e.set_attribute name ns value).1.get_attribute name ns = some value ∧
      (∀ k : Str × Option Str, k ≠ (name, ns) →
        attrGet (e.set_attribute name ns value).1.attributes k =
          attrGet e.attributes k) ∧
      (e.set_attribute name ns value).1.name = e.name ∧
      (e.set_attribute name ns value).1.ns = e.ns ∧
      (e.set_attribute name ns value).1.children = e.children := by
  obtain ⟨n, s, a, c, p, d⟩ := e
  refine ⟨rfl, ?_, ?_, rfl, rfl, rfl⟩
  · show attrGet (attrInsert a (name, ns) value) (name, ns) = some value
    exact attrGet_attrInsert_same a (name, ns) value
  · intro k hk
    show attrGet (attrInsert a (name, ns) value) k = attrGet a k
    exact attrGet_attrInsert_other a (name, ns) k value hk

theorem claim_C10_witness :
    ((Element.new ['a'] none [(['h'], none, ['x'])]).set_attribute
        ['h'] none ['y']).2 =
      (Element.new ['a'] none [(['h'], none, ['x'])]).get_attribute ['h'] none ∧
      ((Element.new ['a'] none [(['h'], none, ['x'])]).set_attribute
          ['h'] none ['y']).1.get_attribute ['h'] none = some ['y'] ∧
      attrGet ((Element.new ['a'] none [(['h'], none, ['x'])]).set_attribute
          ['h'] none ['y']).1.attributes (['g'], none) =
        attrGet (Element.new ['a'] none [(['h'], none, ['x'])]).attributes
          (['g'], none) :=
  ⟨(claim_C10_set_attribute _ ['h'] none ['y']).1,
    (claim_C10_set_attribute _ ['h'] none ['y']).2.1,
    (claim_C10_set_attribute (Element.new ['a'] none [(['h'], none, ['x'])])
        ['h'] none ['y']).2.2.1 (['g'], none) (by decide)⟩

/-! ## Duplicate attribute detection (C6) -/

theorem attrGet_eq_none_iff (m : AttrMap) (k : Str × Option Str) :
    attrGet m k = none ↔ k ∉ m.map Prod.fst := by
  induction m with
  | nil => simp [attrGet]
  | cons kv rest ih =>
    obtain ⟨k', v'⟩ := kv
    by_cases h : k' = k
    · subst h
      simp [attrGet]
    · rw [attrGet, if_neg h]
      simp only [List.map_cons, List.mem_cons]
      rw [ih]
      constructor
      · rintro hnot (hEq | hm)
        · exact h hEq.symm
        · exact hnot hm
      · intro hnot hm
        exact hnot (Or.inr hm)

theorem resolveAttrs_ok (nss : List Scope)
    (attrs : List (Str × Option Str × Str)) :
    ∀ (kvs : AttrMap) (acc : AttrMap),
      resolveKeys nss attrs = some kvs →
      ((acc ++ kvs).map Prod.fst).Nodup →
      resolveAttrs nss attrs acc = .ok (acc ++ kvs) := by
  induction attrs with
  | nil =>
    intro kvs acc h hnd
    rw [resolveKeys] at h
    obtain rfl := Option.some.inj h
    simp [resolveAttrs]
  | cons a rest ih =>
    intro kvs acc h hnd
    obtain ⟨nm, pfx, v⟩ := a
    rw [resolveKeys] at h
    cases hres : resolveAttrNS nss pfx with
    | none => rw [hres] at h; exact Option.noConfusion h
    | some ns =>
      rw [hres] at h
      cases hrest : resolveKeys nss rest with
      | none => rw [hrest] at h; exact Option.noConfusion h
      | some r =>
        rw [hrest] at h
        obtain rfl := Option.some.inj h
        have hnd' : (List.map Prod.fst acc ++
            (nm, ns) :: List.map Prod.fst r).Nodup := by
          simpa using hnd
        have hmid := List.nodup_middle.1 hnd'
        have hnotin : (nm, ns) ∉ List.map Prod.fst acc ++ List.map Prod.fst r :=
          (List.nodup_cons.1 hmid).1
        have hknotacc : (nm, ns) ∉ acc.map Prod.fst :=
          fun hm => hnotin (List.mem_append_left _ hm)
        have hget : attrGet acc (nm, ns) = none :=
          (attrGet_eq_none_iff acc (nm, ns)).2 hknotacc
        rw [resolveAttrs, hres]
        show (if (attrGet acc (nm, ns)).isSome = true
            then (Except.error msgDuplicateAttr : Except String AttrMap)
            else resolveAttrs nss rest (acc ++ [((nm, ns), v)])) =
          Except.ok (acc ++ ((nm, ns), v) :: r)
        rw [hget, if_neg (by simp)]
        have := ih r (acc ++ [((nm, ns), v)]) hrest (by
          simpa [List.append_assoc] using hnd)
        rw [this]
        simp

theorem resolveAttrs_dup (nss : List Scope)
    (attrs : List (Str × Option Str × Str)) :
    ∀ (kvs : AttrMap) (acc : AttrMap),
      resolveKeys nss attrs = some kvs →
      (acc.map Prod.fst).Nodup →
      ¬((acc ++ kvs).map Prod.fst).Nodup →
      resolveAttrs nss attrs acc = .error msgDuplicateAttr := by
  induction attrs with
  | nil =>
    intro kvs acc h hnd hdup
    rw [resolveKeys] at h
    obtain rfl := Option.some.inj h
    exact absurd (by simpa using hnd) hdup
  | cons a rest ih =>
    intro kvs acc h hnd hdup
    obtain ⟨nm, pfx, v⟩ := a
    rw [resolveKeys] at h
    cases hres : resolveAttrNS nss pfx with
    | none => rw [hres] at h; exact Option.noConfusion h
    | some ns =>
      rw [hres] at h
      cases hrest : resolveKeys nss rest with
      | none => rw [hrest] at h; exact Option.noConfusion h
      | some r =>
        rw [hrest] at h
        obtain rfl := Option.some.inj h
        rw [resolveAttrs, hres]
        show (if (attrGet acc (nm, ns)).isSome = true
            then (Except.error msgDuplicateAttr : Except String AttrMap)
            else resolveAttrs nss rest (acc ++ [((nm, ns), v)])) =
          Except.error msgDuplicateAttr
        by_cases hmem : (nm, ns) ∈ acc.map Prod.fst
        · have hne : attrGet acc (nm, ns) ≠ none := fun hc =>
            ((attrGet_eq_none_iff acc (nm, ns)).1 hc) hmem
          cases hget : attrGet acc (nm, ns) with
          | none => exact absurd hget hne
          | some w => rw [if_pos (by simp)]
        · have hget : attrGet acc (nm, ns) = none :=
            (attrGet_eq_none_iff acc (nm, ns)).2 hmem
          rw [hget, if_neg (by simp)]
          by_cases hnd2 : ((acc ++ [((nm, ns), v)]).map Prod.fst).Nodup
          · refine ih r (acc ++ [((nm, ns), v)]) hrest hnd2 ?_
            intro hc
            exact hdup (by
              simpa [List.append_assoc] using hc)
          · exfalso
            apply hnd2
            rw [List.map_append, List.nodup_append]
            refine ⟨hnd, by simp, ?_⟩
            intro x hx hx'
            simp only [List.map_cons, List.map_nil, List.mem_singleton] at hx'
            exact hmem (hx' ▸ hx)

/-- C6: start-tag finalization resolves each collected attribute's prefix
and inserts under `(local name, resolved namespace)`; when all keys are
distinct the map holds exactly the resolved associations, and any
collision — including two different raw prefixes resolving to the same
namespace — yields the "Duplicate attribute" error instead of an
overwrite. -/
theorem claim_C6_duplicate_attributes (nss : List Scope)
    (attrs : List (Str × Option Str × Str)) (kvs : AttrMap) :
    resolveKeys nss attrs = some kvs →
    ((kvs.map Prod.fst).Nodup →
        resolveAttrs nss attrs [] = .ok kvs ∧
        ∀ kv ∈ kvs, attrGet kvs kv.1 ≠ none) ∧
      (¬(kvs.map Prod.fst).Nodup →
        resolveAttrs nss attrs [] = .error msgDuplicateAttr) := by
  intro h
  constructor
  · intro hnd
    have := resolveAttrs_ok nss attrs kvs [] h (by simpa using hnd)
    refine ⟨by simpa using this, ?_⟩
    intro kv hkv hcon
    exact ((attrGet_eq_none_iff kvs kv.1).1 hcon)
      (List.mem_map_of_mem Prod.fst hkv)
  · intro hdup
    exact resolveAttrs_dup nss attrs kvs [] h (by simp)
      (by simpa using hdup)

theorem claim_C6_witness :
    resolveAttrs [[(['p'], ['u']), (['q'], ['u'])]]
        [(['a'], some ['p'], ['1']), (['a'], some ['q'], ['2'])] [] =
      .error msgDuplicateAttr ∧
      resolveAttrs [[(['p'], ['u']), (['q'], ['u'])]]
          [(['a'], some ['p'], ['1']), (['b'], some ['q'], ['2'])] [] =
        .ok [((['a'], some ['u']), ['1']), ((['b'], some ['u']), ['2'])] := by
  constructor
  · exact (claim_C6_duplicate_attributes
        [[(['p'], ['u']), (['q'], ['u'])]]
        [(['a'], some ['p'], ['1']), (['a'], some ['q'], ['2'])]
        [((['a'], some ['u']), ['1']), ((['a'], some ['u']), ['2'])]
        (by decide)).2 (by decide)
  · exact ((claim_C6_duplicate_attributes
        [[(['p'], ['u']), (['q'], ['u'])]]
        [(['a'], some ['p'], ['1']), (['b'], some ['q'], ['2'])]
        [((['a'], some ['u']), ['1']), ((['b'], some ['u']), ['2'])]
        (by decide)).1 (by decide)).1

theorem claim_C9_witness :
    (∃ e, unescape ['&', 'n', 'b', 's', 'p', ';'] = .error e) ∧
      unescape ('&' :: '#' :: natDec 65 ++ [';']) = .ok ['A'] := by
  constructor
  · exact (claim_C9_unescape_errors ['&', 'n', 'b', 's', 'p', ';']).1.mpr
      ⟨['n', 'b', 's', 'p', ';'], by decide, Or.inr (by
        constructor
        · decide
        · intro n hn
          rw [show List.takeWhile (· ≠ ';') (['n', 'b', 's', 'p', ';'] : Str) =
            (['n', 'b', 's', 'p'] : Str) by decide] at hn
          rw [show numericValue (['n', 'b', 's', 'p'] : Str) = none by decide] at hn
          exact Option.noConfusion hn)⟩
  · have := (claim_C9_unescape_errors []).2.2.1 65 (by decide)
    simpa using this

/-! ## Element builder nesting (C4) -/

theorem runEvents_step (b b' : ElementBuilder) (e : Except ParserError Event)
    (es : List (Except ParserError Event))
    (h : b.handle_event e = (b', none)) :
    b.runEvents (e :: es) = b'.runEvents es := by
  rw [ElementBuilder.runEvents, h]

theorem runEvents_emit (b b' : ElementBuilder) (e : Except ParserError Event)
    (r : Except BuilderError Element) (es : List (Except ParserError Event))
    (h : b.handle_event e = (b', some r)) :
    b.runEvents (e :: es) =
      (r :: (b'.runEvents es).1, (b'.runEvents es).2) := by
  rw [ElementBuilder.runEvents, h]

theorem dnsDup_tail (l : List (Option Str)) : (dnsDup l).tail = l := by
  cases l <;> rfl

theorem dnsDup_headD (l : List (Option Str)) :
    (dnsDup l).headD none = l.headD none := by
  cases l <;> rfl

theorem handle_event_start (b : ElementBuilder) (n : Str) (ns : Option Str) :
    b.handle_event (.ok (.ElementStart ⟨n, ns, none, []⟩)) =
      ({ b with
          stack := Element.mk n ns [] [] b.prefixes (b.default_ns.headD none)
            :: b.stack,
          default_ns := dnsDup b.default_ns }, none) := by
  cases hd : b.default_ns <;>
    simp only [ElementBuilder.handle_event, hd, startScan, dnsDup] <;> rfl

theorem handle_event_end_empty (b : ElementBuilder) (t : EndTag)
    (hb : b.stack = []) :
    b.handle_event (.ok (.ElementEnd t)) =
      (b, some (.error .ImproperNesting)) := by
  simp only [ElementBuilder.handle_event, hb]

theorem handle_event_end_mismatch (b : ElementBuilder) (t : EndTag)
    (elem : Element) (rest : List Element) (hb : b.stack = elem :: rest)
    (h : elem.name ≠ t.name ∨ elem.ns ≠ t.ns) :
    b.handle_event (.ok (.ElementEnd t)) =
      ({ b with
          stack := rest,
          default_ns := b.default_ns.tail },
        some (.error .ImproperNesting)) := by
  simp only [ElementBuilder.handle_event, hb]
  rw [if_pos h]

theorem handle_event_end_push (b : ElementBuilder) (t : EndTag)
    (elem top : Element) (rest' : List Element)
    (hb : b.stack = elem :: top :: rest') (hn : elem.name = t.name)
    (hs : elem.ns = t.ns) :
    b.handle_event (.ok (.ElementEnd t)) =
      ({ b with
          stack := top.pushChild (.ElementNode elem) :: rest',
          default_ns := b.default_ns.tail }, none) := by
  simp only [ElementBuilder.handle_event, hb]
  rw [if_neg (by simp [hn, hs])]

theorem handle_event_end_root (b : ElementBuilder) (t : EndTag)
    (elem : Element) (hb : b.stack = [elem]) (hn : elem.name = t.name)
    (hs : elem.ns = t.ns) :
    b.handle_event (.ok (.ElementEnd t)) =
      ({ b with
          stack := [],
          default_ns := b.default_ns.tail },
        some (.ok elem)) := by
  simp only [ElementBuilder.handle_event, hb]
  rw [if_neg (by simp [hn, hs])]

theorem runEvents_end_push (b : ElementBuilder) (t : EndTag)
    (elem top : Element) (rest' : List Element)
    (es : List (Except ParserError Event))
    (hb : b.stack = elem :: top :: rest') (hn : elem.name = t.name)
    (hs : elem.ns = t.ns) :
    b.runEvents (.ok (.ElementEnd t) :: es) =
      ({ b with
          stack := top.pushChild (.ElementNode elem) :: rest',
          default_ns := b.default_ns.tail }).runEvents es :=
  runEvents_step _ _ _ _ (handle_event_end_push b t elem top rest' hb hn hs)

theorem runEvents_end_root (b : ElementBuilder) (t : EndTag) (elem : Element)
    (es : List (Except ParserError Event)) (hb : b.stack = [elem])
    (hn : elem.name = t.name) (hs : elem.ns = t.ns) :
    b.runEvents (.ok (.ElementEnd t) :: es) =
      (.ok elem ::
          (({ b with
              stack := [],
              default_ns := b.default_ns.tail }).runEvents es).1,
        (({ b with
            stack := [],
            default_ns := b.default_ns.tail }).runEvents es).2) :=
  runEvents_emit _ _ _ _ _ (handle_event_end_root b t elem hb hn hs)

mutual

theorem runEvents_skel_push (s : Skel) (b : ElementBuilder) (top : Element)
    (rest : List Element) (es : List (Except ParserError Event))
    (hb : b.stack = top :: rest) :
    b.runEvents ((skelEvents s).map Except.ok ++ es) =
      ({ b with
          stack := top.pushChild (.ElementNode
            (buildS b.prefixes (b.default_ns.headD none) s)) :: rest
        }).runEvents es := by
  cases s with
  | node n ns cs =>
    rw [skelEvents, List.map_cons, List.map_append, List.cons_append,
      List.append_assoc]
    refine (runEvents_step _ _ _ _ (handle_event_start b n ns)).trans
      (((runEvents_skel_list cs _ n ns [] []
          b.prefixes (b.default_ns.headD none) (top :: rest) _
          (by simp only [hb])).trans
        ((runEvents_end_push _ ⟨n, ns, none⟩
          (Element.mk n ns []
            ([] ++ buildSL b.prefixes (b.default_ns.headD none) cs)
            b.prefixes (b.default_ns.headD none))
          top rest es (by simp only [dnsDup_headD]) rfl rfl).trans ?_)))
    simp only [dnsDup_tail, dnsDup_headD]
    all_goals rfl

theorem runEvents_skel_list (cs : List Skel) (b : ElementBuilder) (tn : Str)
    (tns : Option Str) (ta : AttrMap) (tc : List Xml) (tp : Scope)
    (td : Option Str) (rest : List Element)
    (es : List (Except ParserError Event))
    (hb : b.stack = Element.mk tn tns ta tc tp td :: rest) :
    b.runEvents ((skelEventsList cs).map Except.ok ++ es) =
      ({ b with
          stack := Element.mk tn tns ta
            (tc ++ buildSL b.prefixes (b.default_ns.headD none) cs) tp td ::
              rest
        }).runEvents es := by
  cases cs with
  | nil =>
    rw [skelEventsList]
    conv_rhs => rw [show buildSL b.prefixes (b.default_ns.headD none) [] =
        ([] : List Xml) from rfl,
      List.append_nil, ← hb]
    rfl
  | cons s cs' =>
    rw [skelEventsList, List.map_append, List.append_assoc]
    refine (runEvents_skel_push s b _ rest _ hb).trans
      ((runEvents_skel_list cs' _ tn tns ta
          (tc ++ [.ElementNode (buildS b.prefixes (b.default_ns.headD none) s)])
          tp td rest _ (by rfl)).trans ?_)
    rw [List.append_assoc]
    rfl

end

theorem runEvents_skel_empty (s : Skel) (b : ElementBuilder)
    (es : List (Except ParserError Event)) (hb : b.stack = []) :
    b.runEvents ((skelEvents s).map Except.ok ++ es) =
      (.ok (buildS b.prefixes (b.default_ns.headD none) s) ::
          (b.runEvents es).1,
        (b.runEvents es).2) := by
  cases s with
  | node n ns cs =>
    rw [skelEvents, List.map_cons, List.map_append, List.cons_append,
      List.append_assoc]
    refine (runEvents_step _ _ _ _ (handle_event_start b n ns)).trans
      (((runEvents_skel_list cs _ n ns [] []
          b.prefixes (b.default_ns.headD none) [] _
          (by simp only [hb])).trans
        ((runEvents_end_root _ ⟨n, ns, none⟩
          (Element.mk n ns []
            ([] ++ buildSL b.prefixes (b.default_ns.headD none) cs)
            b.prefixes (b.default_ns.headD none))
          es (by simp only [dnsDup_headD]) rfl rfl).trans ?_)))
    simp only [dnsDup_tail, dnsDup_headD]
    have hbeq : ({ stack := [], default_ns := b.default_ns, prefixes := b.prefixes } : ElementBuilder) = b := by
      rw [← hb]
    rw [hbeq]
    rfl

mutual

theorem elemSkel_buildS (prefs : Scope) (d : Option Str) (s : Skel) :
    elemSkel (buildS prefs d s) = s := by
  cases s with
  | node n ns cs =>
    rw [buildS, elemSkel, xmlsSkels_buildSL prefs d cs]

theorem xmlsSkels_buildSL (prefs : Scope) (d : Option Str) (cs : List Skel) :
    xmlsSkels (buildSL prefs d cs) = cs := by
  cases cs with
  | nil => rw [buildSL, xmlsSkels]
  | cons s rest =>
    rw [buildSL, xmlsSkels, elemSkel_buildS prefs d s,
      xmlsSkels_buildSL prefs d rest]

end

/-- C4: on `ElementEnd` the builder pops its stack (`ImproperNesting` when
empty), pops the default-namespace stack, reports `ImproperNesting` when
the popped element's name or namespace differs from the end tag's,
otherwise appends the popped element to the new top's children or, when
the stack empties, yields it as a completed root; and for any balanced
`Start`/`End` event sequence with matching name and namespace at every
depth (a skeleton document) the builder yields exactly one completed root
whose recursive shape matches the skeleton, children in document order —
and it then accepts a further, unrelated root. -/
theorem claim_C4_builder_nesting :
    (∀ (b : ElementBuilder) (t : EndTag), b.stack = [] →
        b.handle_event (.ok (.ElementEnd t)) =
          (b, some (.error .ImproperNesting))) ∧
    (∀ (b : ElementBuilder) (t : EndTag) (elem : Element)
        (rest : List Element),
        b.stack = elem :: rest → (elem.name ≠ t.name ∨ elem.ns ≠ t.ns) →
        b.handle_event (.ok (.ElementEnd t)) =
          ({ b with
              stack := rest,
              default_ns := b.default_ns.tail },
            some (.error .ImproperNesting))) ∧
    (∀ (b : ElementBuilder) (t : EndTag) (elem top : Element)
        (rest' : List Element),
        b.stack = elem :: top :: rest' → elem.name = t.name →
        elem.ns = t.ns →
        b.handle_event (.ok (.ElementEnd t)) =
          ({ b with
              stack := top.pushChild (.ElementNode elem) :: rest',
              default_ns := b.default_ns.tail }, none)) ∧
    (∀ (b : ElementBuilder) (t : EndTag) (elem : Element),
        b.stack = [elem] → elem.name = t.name → elem.ns = t.ns →
        b.handle_event (.ok (.ElementEnd t)) =
          ({ b with
              stack := [],
              default_ns := b.default_ns.tail },
            some (.ok elem))) ∧
    (∀ s : Skel,
        ElementBuilder.new.runEvents ((skelEvents s).map Except.ok) =
          ([.ok (buildS seedPrefixes none s)], ElementBuilder.new) ∧
        elemSkel (buildS seedPrefixes none s) = s) ∧
    (∀ s₁ s₂ : Skel,
        ElementBuilder.new.runEvents
            ((skelEvents s₁ ++ skelEvents s₂).map Except.ok) =
          ([.ok (buildS seedPrefixes none s₁),
              .ok (buildS seedPrefixes none s₂)],
            ElementBuilder.new)) := by
  refine ⟨handle_event_end_empty, handle_event_end_mismatch,
    handle_event_end_push, handle_event_end_root, ?_, ?_⟩
  · intro s
    constructor
    · have h := runEvents_skel_empty s ElementBuilder.new [] rfl
      rw [List.append_nil] at h
      exact h
    · exact elemSkel_buildS seedPrefixes none s
  · intro s₁ s₂
    rw [List.map_append]
    rw [runEvents_skel_empty s₁ ElementBuilder.new _ rfl]
    have h2 := runEvents_skel_empty s₂ ElementBuilder.new [] rfl
    rw [List.append_nil] at h2
    rw [h2]
    rfl

theorem claim_C4_witness :
    ElementBuilder.new.handle_event (.ok (.ElementEnd ⟨['a'], none, none⟩)) =
        (ElementBuilder.new, some (.error .ImproperNesting)) ∧
      ElementBuilder.new.runEvents
          ((skelEvents (.node ['a'] none [.node ['b'] none []])).map
            Except.ok) =
        ([.ok (buildS seedPrefixes none
            (.node ['a'] none [.node ['b'] none []]))],
          ElementBuilder.new) ∧
      elemSkel (buildS seedPrefixes none
          (.node ['a'] none [.node ['b'] none []])) =
        .node ['a'] none [.node ['b'] none []] :=
  ⟨claim_C4_builder_nesting.1 ElementBuilder.new ⟨['a'], none, none⟩ rfl,
    (claim_C4_builder_nesting.2.2.2.2.1
      (.node ['a'] none [.node ['b'] none []])).1,
    (claim_C4_builder_nesting.2.2.2.2.1
      (.node ['a'] none [.node ['b'] none []])).2⟩

/-! ## Render/parse round trip (C3): tokenizer infrastructure -/

theorem StepsTo_nil (p : Parser) : StepsTo p [] [] p := by
  intro ys
  exact ⟨rfl, rfl⟩

theorem StepsTo_trans {p q r : Parser} {s1 s2 : Str} {e1 e2 : List Event}
    (h1 : StepsTo p s1 e1 q) (h2 : StepsTo q s2 e2 r) :
    StepsTo p (s1 ++ s2) (e1 ++ e2) r := by
  intro ys
  rw [List.append_assoc]
  obtain ⟨ha1, ha2⟩ := h1 (s2 ++ ys)
  obtain ⟨hb1, hb2⟩ := h2 ys
  constructor
  · rw [ha1, hb1, List.map_append, List.append_assoc]
  · rw [ha2, hb2]

theorem run_step_none (p q : Parser) (c : Char) (cs : List Char)
    (h : p.step c = (q, .ok none)) :
    p.run (c :: cs) = q.run cs := by
  rw [Parser.run, h]

theorem run_step_some (p q : Parser) (c : Char) (ev : Event) (cs : List Char)
    (h : p.step c = (q, .ok (some ev))) :
    p.run (c :: cs) = (.ok ev :: (q.run cs).1, (q.run cs).2) := by
  rw [Parser.run, h]

theorem StepsTo_char_none (p q : Parser) (c : Char)
    (h : p.step c = (q, .ok none)) : StepsTo p [c] [] q := by
  intro ys
  rw [List.cons_append, List.nil_append, run_step_none p q c ys h]
  exact ⟨rfl, rfl⟩

theorem StepsTo_char_some (p q : Parser) (c : Char) (ev : Event)
    (h : p.step c = (q, .ok (some ev))) : StepsTo p [c] [ev] q := by
  intro ys
  rw [List.cons_append, List.nil_append, run_step_some p q c ev ys h]
  exact ⟨rfl, rfl⟩

theorem step_ok (p : Parser) (c : Char) (he : p.hasError = false)
    (q : Parser) (ev : Option Event)
    (hpc : (p.updatePos c).parse_character c = (q, .ok ev)) :
    p.step c = (q, .ok ev) := by
  rw [step_eq_of_parse p c he, hpc]

theorem escapeChar_not_lt (c : Char) : '<' ∉ escapeChar c := by
  rw [escapeChar]
  split_ifs with h1 h2 h3 h4 h5 <;> simp_all <;> exact fun hx => h2 hx.symm

theorem escapeChar_not_quote (c : Char) : '\'' ∉ escapeChar c := by
  rw [escapeChar]
  split_ifs with h1 h2 h3 h4 h5 <;> simp_all <;> exact fun hx => h4 hx.symm

theorem escape_not_mem (s : Str) (c : Char)
    (h : ∀ c0, c ∉ escapeChar c0) : c ∉ escape s := by
  induction s with
  | nil => simp [escape]
  | cons c0 cs ih =>
    rw [escape]
    intro hmem
    rcases List.mem_append.1 hmem with hm | hm
    · exact h c0 hm
    · exact ih hm

theorem escape_eq_self_of_not_amp (s : Str) (h : '&' ∉ escape s) :
    escape s = s := by
  induction s with
  | nil => rfl
  | cons c cs ih =>
    rw [escape] at h ⊢
    have hc : escapeChar c = [c] := by
      rw [escapeChar] at h ⊢
      split_ifs with h1 h2 h3 h4 h5 <;> simp_all
    rw [hc] at h ⊢
    rw [List.cons_append, List.nil_append] at h ⊢
    rw [ih fun hm => h (List.mem_cons_of_mem c hm)]

theorem unescape_owned_escape (s : Str) :
    unescape_owned (escape s) = .ok s := by
  rw [unescape_owned]
  by_cases h : (escape s).contains '&'
  · rw [if_pos h]
    exact unescape_escape s
  · rw [if_neg h]
    rw [escape_eq_self_of_not_amp s (by simpa using h)]

theorem parse_qname_no_colon (q : Str) (h : ∀ c ∈ q, c ≠ ':') :
    parse_qname q = (none, q) := by
  rw [parse_qname]
  have hd : q.dropWhile (fun c => decide (c ≠ ':')) = [] := by
    rw [List.dropWhile_eq_nil_iff]
    intro x hx
    simpa using h x hx
  rw [hd]

theorem safeChar_spec (c : Char) (h : safeChar c = true) :
    c ≠ '<' ∧ c ≠ '>' ∧ c ≠ '/' ∧ c ≠ '=' ∧ c ≠ ':' ∧ c ≠ '\'' ∧
      c ≠ '"' ∧ c ≠ '&' ∧ c ≠ '?' ∧ c ≠ '!' ∧ isWS c = false := by
  rw [safeChar] at h
  simp only [Bool.not_eq_true', Bool.or_eq_false_iff, decide_eq_false_iff_not]
    at h
  exact ⟨h.1.1.1.1.1.1.1.1.1.1, h.1.1.1.1.1.1.1.1.1.2, h.1.1.1.1.1.1.1.1.2,
    h.1.1.1.1.1.1.1.2, h.1.1.1.1.1.1.2, h.1.1.1.1.1.2, h.1.1.1.1.2,
    h.1.1.1.2, h.1.1.2, h.1.2, h.2⟩

/-! ### Single-character steps of the tokenizer -/

theorem char_outside_buffer (p : Parser) (c : Char) (b : Str)
    (nss : List Scope) (ats : List (Str × Option Str × Str)) (lv : Nat)
    (hs : Shape p .OutsideTag b nss ats lv) (hc : c ≠ '<') :
    ∃ q, p.step c = (q, .ok none) ∧
      Shape q .OutsideTag (b ++ [c]) nss ats lv := by
  obtain ⟨hst, hbuf, he, hlv, hnss, hats⟩ := hs
  have hf := updatePos_fields p c
  refine ⟨{ p.updatePos c with buf := (p.updatePos c).buf ++ [c] }, ?_, ?_⟩
  · apply step_ok p c he
    simp only [Parser.parse_character, hf.1, hst]
    rw [Parser.outside_tag, if_neg hc]
    rw [hf.1, hst]
  · exact ⟨by rw [hf.1, hst], by rw [hf.2.2.2.2.1, hbuf],
      by rw [hf.2.2.1, he], by rw [hf.2.1, hlv],
      by rw [hf.2.2.2.1, hnss], by rw [hf.2.2.2.2.2.1, hats]⟩

theorem char_open_clean (p : Parser) (nss : List Scope)
    (ats : List (Str × Option Str × Str)) (lv : Nat)
    (hs : Shape p .OutsideTag [] nss ats lv) :
    ∃ q, p.step '<' = (q, .ok none) ∧ Shape q .TagOpened [] nss ats lv := by
  obtain ⟨hst, hbuf, he, hlv, hnss, hats⟩ := hs
  have hf := updatePos_fields p '<'
  refine ⟨{ p.updatePos '<' with st := .TagOpened }, ?_, ?_⟩
  · apply step_ok p '<' he
    simp only [Parser.parse_character, hf.1, hst]
    rw [Parser.outside_tag, if_pos rfl,
      if_pos (by rw [hf.2.2.2.2.1, hbuf])]
  · exact ⟨rfl, by rw [hf.2.2.2.2.1, hbuf],
      by rw [hf.2.2.1, he], by rw [hf.2.1, hlv],
      by rw [hf.2.2.2.1, hnss], by rw [hf.2.2.2.2.2.1, hats]⟩

theorem char_open_flush (p : Parser) (b : Str) (sflush : Str)
    (nss : List Scope) (ats : List (Str × Option Str × Str)) (lv : Nat)
    (hs : Shape p .OutsideTag b nss ats lv) (hb : b ≠ [])
    (hun : unescape_owned b = .ok sflush) :
    ∃ q, p.step '<' = (q, .ok (some (.Characters sflush))) ∧
      Shape q .TagOpened [] nss ats lv := by
  obtain ⟨hst, hbuf, he, hlv, hnss, hats⟩ := hs
  have hf := updatePos_fields p '<'
  refine ⟨{ p.updatePos '<' with st := .TagOpened, buf := [] }, ?_, ?_⟩
  · apply step_ok p '<' he
    simp only [Parser.parse_character, hf.1, hst]
    rw [Parser.outside_tag, if_pos rfl,
      if_neg (by rw [hf.2.2.2.2.1, hbuf]; exact hb)]
    rw [show (p.updatePos '<').buf = b from by rw [hf.2.2.2.2.1, hbuf], hun]
  · exact ⟨rfl, rfl, by rw [hf.2.2.1, he], by rw [hf.2.1, hlv],
      by rw [hf.2.2.2.1, hnss], by rw [hf.2.2.2.2.2.1, hats]⟩

theorem char_tag_opened_name (p : Parser) (c : Char) (nss : List Scope)
    (ats : List (Str × Option Str × Str)) (lv : Nat)
    (hs : Shape p .TagOpened [] nss ats lv)
    (h1 : c ≠ '?') (h2 : c ≠ '!') (h3 : c ≠ '/') :
    ∃ q, p.step c = (q, .ok none) ∧ Shape q .InTagName [c] nss ats lv := by
  obtain ⟨hst, hbuf, he, hlv, hnss, hats⟩ := hs
  have hf := updatePos_fields p c
  refine ⟨{ p.updatePos c with
      buf := (p.updatePos c).buf ++ [c],
      st := .InTagName }, ?_, ?_⟩
  · apply step_ok p c he
    simp only [Parser.parse_character, hf.1, hst]
    rw [Parser.tag_opened, if_neg h1, if_neg h2, if_neg h3]
  · exact ⟨rfl, by rw [hf.2.2.2.2.1, hbuf]; rfl,
      by rw [hf.2.2.1, he], by rw [hf.2.1, hlv],
      by rw [hf.2.2.2.1, hnss], by rw [hf.2.2.2.2.2.1, hats]⟩

theorem char_tag_opened_pi (p : Parser) (nss : List Scope)
    (ats : List (Str × Option Str × Str)) (lv : Nat)
    (hs : Shape p .TagOpened [] nss ats lv) :
    ∃ q, p.step '?' = (q, .ok none) ∧
      Shape q .InProcessingInstructions [] nss ats lv := by
  obtain ⟨hst, hbuf, he, hlv, hnss, hats⟩ := hs
  have hf := updatePos_fields p '?'
  refine ⟨{ p.updatePos '?' with st := .InProcessingInstructions }, ?_, ?_⟩
  · apply step_ok p '?' he
    simp only [Parser.parse_character, hf.1, hst]
    rw [Parser.tag_opened, if_pos rfl]
  · exact ⟨rfl, by rw [hf.2.2.2.2.1, hbuf],
      by rw [hf.2.2.1, he], by rw [hf.2.1, hlv],
      by rw [hf.2.2.2.1, hnss], by rw [hf.2.2.2.2.2.1, hats]⟩

theorem char_tag_opened_excl (p : Parser) (nss : List Scope)
    (ats : List (Str × Option Str × Str)) (lv : Nat)
    (hs : Shape p .TagOpened [] nss ats lv) :
    ∃ q, p.step '!' = (q, .ok none) ∧
      Shape q .InExclamationMark [] nss ats lv := by
  obtain ⟨hst, hbuf, he, hlv, hnss, hats⟩ := hs
  have hf := updatePos_fields p '!'
  refine ⟨{ p.updatePos '!' with st := .InExclamationMark }, ?_, ?_⟩
  · apply step_ok p '!' he
    simp only [Parser.parse_character, hf.1, hst]
    rw [Parser.tag_opened, if_neg (by decide), if_pos rfl]
  · exact ⟨rfl, by rw [hf.2.2.2.2.1, hbuf],
      by rw [hf.2.2.1, he], by rw [hf.2.1, hlv],
      by rw [hf.2.2.2.1, hnss], by rw [hf.2.2.2.2.2.1, hats]⟩

theorem char_tag_opened_close (p : Parser) (nss : List Scope)
    (ats : List (Str × Option Str × Str)) (lv : Nat)
    (hs : Shape p .TagOpened [] nss ats lv) :
    ∃ q, p.step '/' = (q, .ok none) ∧
      Shape q .InCloseTagName [] nss ats lv := by
  obtain ⟨hst, hbuf, he, hlv, hnss, hats⟩ := hs
  have hf := updatePos_fields p '/'
  refine ⟨{ p.updatePos '/' with st := .InCloseTagName }, ?_, ?_⟩
  · apply step_ok p '/' he
    simp only [Parser.parse_character, hf.1, hst]
    rw [Parser.tag_opened, if_neg (by decide), if_neg (by decide), if_pos rfl]
  · exact ⟨rfl, by rw [hf.2.2.2.2.1, hbuf],
      by rw [hf.2.2.1, he], by rw [hf.2.1, hlv],
      by rw [hf.2.2.2.1, hnss], by rw [hf.2.2.2.2.2.1, hats]⟩

theorem char_pi_buffer (p : Parser) (c : Char) (b : Str) (nss : List Scope)
    (ats : List (Str × Option Str × Str)) (lv : Nat)
    (hs : Shape p .InProcessingInstructions b nss ats lv)
    (h1 : c ≠ '?') (h2 : c ≠ '>') :
    ∃ q, p.step c = (q, .ok none) ∧
      Shape q .InProcessingInstructions (b ++ [c]) nss ats lv := by
  obtain ⟨hst, hbuf, he, hlv, hnss, hats⟩ := hs
  have hf := updatePos_fields p c
  refine ⟨{ p.updatePos c with buf := (p.updatePos c).buf ++ [c] }, ?_, ?_⟩
  · apply step_ok p c he
    simp only [Parser.parse_character, hf.1, hst]
    rw [Parser.in_processing_instructions, if_neg h1, if_neg h2]
    rw [hf.1, hst]
  · exact ⟨by rw [hf.1, hst], by rw [hf.2.2.2.2.1, hbuf],
      by rw [hf.2.2.1, he], by rw [hf.2.1, hlv],
      by rw [hf.2.2.2.1, hnss], by rw [hf.2.2.2.2.2.1, hats]⟩

theorem char_pi_mark (p : Parser) (b : Str) (nss : List Scope)
    (ats : List (Str × Option Str × Str)) (lv : Nat)
    (hs : Shape p .InProcessingInstructions b nss ats lv) :
    ∃ q, p.step '?' = (q, .ok none) ∧
      Shape q .InProcessingInstructions (b ++ ['?']) nss ats 1 := by
  obtain ⟨hst, hbuf, he, hlv, hnss, hats⟩ := hs
  have hf := updatePos_fields p '?'
  refine ⟨{ p.updatePos '?' with
      level := 1,
      buf := (p.updatePos '?').buf ++ ['?'] }, ?_, ?_⟩
  · apply step_ok p '?' he
    simp only [Parser.parse_character, hf.1, hst]
    rw [Parser.in_processing_instructions, if_pos rfl]
    rw [hf.1, hst]
  · exact ⟨by rw [hf.1, hst], by rw [hf.2.2.2.2.1, hbuf],
      by rw [hf.2.2.1, he], rfl,
      by rw [hf.2.2.2.1, hnss], by rw [hf.2.2.2.2.2.1, hats]⟩

theorem char_pi_emit (p : Parser) (b : Str) (nss : List Scope)
    (ats : List (Str × Option Str × Str))
    (hs : Shape p .InProcessingInstructions b nss ats 1) :
    ∃ q, p.step '>' = (q, .ok (some (.PI b.dropLast))) ∧
      Shape q .OutsideTag [] nss ats 0 := by
  obtain ⟨hst, hbuf, he, hlv, hnss, hats⟩ := hs
  have hf := updatePos_fields p '>'
  refine ⟨{ p.updatePos '>' with
      level := 0,
      st := .OutsideTag,
      buf := [] }, ?_, ?_⟩
  · apply step_ok p '>' he
    simp only [Parser.parse_character, hf.1, hst]
    rw [Parser.in_processing_instructions, if_neg (by decide), if_pos rfl,
      if_pos (by rw [hf.2.1, hlv])]
    rw [show (p.updatePos '>').buf = b from by rw [hf.2.2.2.2.1, hbuf]]
  · exact ⟨rfl, rfl, by rw [hf.2.2.1, he], rfl,
      by rw [hf.2.2.2.1, hnss], by rw [hf.2.2.2.2.2.1, hats]⟩

theorem char_excl_comment (p : Parser) (nss : List Scope)
    (ats : List (Str × Option Str × Str)) (lv : Nat)
    (hs : Shape p .InExclamationMark [] nss ats lv) :
    ∃ q, p.step '-' = (q, .ok none) ∧
      Shape q .InCommentOpening [] nss ats lv := by
  obtain ⟨hst, hbuf, he, hlv, hnss, hats⟩ := hs
  have hf := updatePos_fields p '-'
  refine ⟨{ p.updatePos '-' with st := .InCommentOpening }, ?_, ?_⟩
  · apply step_ok p '-' he
    simp only [Parser.parse_character, hf.1, hst]
    rw [Parser.in_exclamation_mark, if_pos rfl]
  · exact ⟨rfl, by rw [hf.2.2.2.2.1, hbuf],
      by rw [hf.2.2.1, he], by rw [hf.2.1, hlv],
      by rw [hf.2.2.2.1, hnss], by rw [hf.2.2.2.2.2.1, hats]⟩

theorem char_excl_cdata (p : Parser) (nss : List Scope)
    (ats : List (Str × Option Str × Str)) (lv : Nat)
    (hs : Shape p .InExclamationMark [] nss ats lv) :
    ∃ q, p.step '[' = (q, .ok none) ∧
      Shape q .InCDATAOpening [] nss ats lv := by
  obtain ⟨hst, hbuf, he, hlv, hnss, hats⟩ := hs
  have hf := updatePos_fields p '['
  refine ⟨{ p.updatePos '[' with st := .InCDATAOpening }, ?_, ?_⟩
  · apply step_ok p '[' he
    simp only [Parser.parse_character, hf.1, hst]
    rw [Parser.in_exclamation_mark, if_neg (by decide), if_pos rfl]
  · exact ⟨rfl, by rw [hf.2.2.2.2.1, hbuf],
      by rw [hf.2.2.1, he], by rw [hf.2.1, hlv],
      by rw [hf.2.2.2.1, hnss], by rw [hf.2.2.2.2.2.1, hats]⟩

theorem char_comment_opening (p : Parser) (nss : List Scope)
    (ats : List (Str × Option Str × Str)) (lv : Nat)
    (hs : Shape p .InCommentOpening [] nss ats lv) :
    ∃ q, p.step '-' = (q, .ok none) ∧ Shape q .InComment1 [] nss ats 0 := by
  obtain ⟨hst, hbuf, he, hlv, hnss, hats⟩ := hs
  have hf := updatePos_fields p '-'
  refine ⟨{ p.updatePos '-' with st := .InComment1, level := 0 }, ?_, ?_⟩
  · apply step_ok p '-' he
    simp only [Parser.parse_character, hf.1, hst]
    rw [Parser.in_comment_opening, if_pos rfl]
  · exact ⟨rfl, by rw [hf.2.2.2.2.1, hbuf],
      by rw [hf.2.2.1, he], rfl,
      by rw [hf.2.2.2.1, hnss], by rw [hf.2.2.2.2.2.1, hats]⟩

theorem char_comment_buffer (p : Parser) (c : Char) (b : Str)
    (nss : List Scope) (ats : List (Str × Option Str × Str)) (lv : Nat)
    (hs : Shape p .InComment1 b nss ats lv) (hc : c ≠ '-') :
    ∃ q, p.step c = (q, .ok none) ∧
      Shape q .InComment1 (b ++ [c]) nss ats 0 := by
  obtain ⟨hst, hbuf, he, hlv, hnss, hats⟩ := hs
  have hf := updatePos_fields p c
  refine ⟨{ p.updatePos c with
      level := if c = '-' then (p.updatePos c).level + 1 else 0,
      buf := (p.updatePos c).buf ++ [c] }, ?_, ?_⟩
  · apply step_ok p c he
    simp only [Parser.parse_character, hf.1, hst]
    rw [Parser.in_comment1]
    rw [if_neg (by rw [if_neg hc]; exact (by decide : (0 : Nat) ≠ 2))]
    rw [hf.1, hst]
  · exact ⟨by rw [hf.1, hst], by rw [hf.2.2.2.2.1, hbuf],
      by rw [hf.2.2.1, he], by rw [if_neg hc],
      by rw [hf.2.2.2.1, hnss], by rw [hf.2.2.2.2.2.1, hats]⟩

theorem char_comment_dash1 (p : Parser) (b : Str) (nss : List Scope)
    (ats : List (Str × Option Str × Str))
    (hs : Shape p .InComment1 b nss ats 0) :
    ∃ q, p.step '-' = (q, .ok none) ∧
      Shape q .InComment1 (b ++ ['-']) nss ats 1 := by
  obtain ⟨hst, hbuf, he, hlv, hnss, hats⟩ := hs
  have hf := updatePos_fields p '-'
  refine ⟨{ p.updatePos '-' with
      level := (p.updatePos '-').level + 1,
      buf := (p.updatePos '-').buf ++ ['-'] }, ?_, ?_⟩
  · apply step_ok p '-' he
    simp only [Parser.parse_character, hf.1, hst]
    rw [Parser.in_comment1]
    rw [if_neg (by rw [if_pos rfl, hf.2.1, hlv]; decide)]
    rw [if_pos (rfl : ('-' : Char) = '-')]
    rw [hf.1, hst]
  · exact ⟨by rw [hf.1, hst], by rw [hf.2.2.2.2.1, hbuf],
      by rw [hf.2.2.1, he], by rw [hf.2.1, hlv],
      by rw [hf.2.2.2.1, hnss], by rw [hf.2.2.2.2.2.1, hats]⟩

theorem char_comment_dash2 (p : Parser) (b : Str) (nss : List Scope)
    (ats : List (Str × Option Str × Str))
    (hs : Shape p .InComment1 b nss ats 1) :
    ∃ q, p.step '-' = (q, .ok none) ∧
      Shape q .InComment2 (b ++ ['-']) nss ats 0 := by
  obtain ⟨hst, hbuf, he, hlv, hnss, hats⟩ := hs
  have hf := updatePos_fields p '-'
  refine ⟨{ p.updatePos '-' with
      level := 0,
      st := .InComment2,
      buf := (p.updatePos '-').buf ++ ['-'] }, ?_, ?_⟩
  · apply step_ok p '-' he
    simp only [Parser.parse_character, hf.1, hst]
    rw [Parser.in_comment1]
    rw [if_pos (by rw [if_pos rfl, hf.2.1, hlv])]
  · exact ⟨rfl, by rw [hf.2.2.2.2.1, hbuf],
      by rw [hf.2.2.1, he], rfl,
      by rw [hf.2.2.2.1, hnss], by rw [hf.2.2.2.2.2.1, hats]⟩

theorem char_comment_emit (p : Parser) (b : Str) (nss : List Scope)
    (ats : List (Str × Option Str × Str)) (lv : Nat)
    (hs : Shape p .InComment2 b nss ats lv) :
    ∃ q, p.step '>' = (q, .ok (some (.Comment b.dropLast.dropLast))) ∧
      Shape q .OutsideTag [] nss ats lv := by
  obtain ⟨hst, hbuf, he, hlv, hnss, hats⟩ := hs
  have hf := updatePos_fields p '>'
  refine ⟨{ p.updatePos '>' with st := .OutsideTag, buf := [] }, ?_, ?_⟩
  · apply step_ok p '>' he
    simp only [Parser.parse_character, hf.1, hst]
    rw [Parser.in_comment2, if_neg (by simp)]
    rw [show (p.updatePos '>').buf = b from by rw [hf.2.2.2.2.1, hbuf]]
  · exact ⟨rfl, rfl, by rw [hf.2.2.1, he], by rw [hf.2.1, hlv],
      by rw [hf.2.2.2.1, hnss], by rw [hf.2.2.2.2.2.1, hats]⟩

theorem char_cdata_open_step (p : Parser) (nss : List Scope)
    (ats : List (Str × Option Str × Str)) (lv : Nat) (hlt : lv + 1 ≠ 6)
    (hs : Shape p .InCDATAOpening [] nss ats lv) :
    ∃ q, p.step (cdataPattern.getD lv 'C') = (q, .ok none) ∧
      Shape q .InCDATAOpening [] nss ats (lv + 1) := by
  obtain ⟨hst, hbuf, he, hlv, hnss, hats⟩ := hs
  have hf := updatePos_fields p (cdataPattern.getD lv 'C')
  refine ⟨{ p.updatePos (cdataPattern.getD lv 'C') with
      level := (p.updatePos (cdataPattern.getD lv 'C')).level + 1 }, ?_, ?_⟩
  · apply step_ok p (cdataPattern.getD lv 'C') he
    simp only [Parser.parse_character, hf.1, hst]
    rw [Parser.in_cdata_opening,
      if_pos (by rw [hf.2.1, hlv]),
      if_neg (by rw [hf.2.1, hlv]; exact hlt)]
    rw [hf.1, hst]
  · exact ⟨by rw [hf.1, hst], by rw [hf.2.2.2.2.1, hbuf],
      by rw [hf.2.2.1, he], by rw [hf.2.1, hlv],
      by rw [hf.2.2.2.1, hnss], by rw [hf.2.2.2.2.2.1, hats]⟩

theorem char_cdata_open_fin (p : Parser) (nss : List Scope)
    (ats : List (Str × Option Str × Str))
    (hs : Shape p .InCDATAOpening [] nss ats 5) :
    ∃ q, p.step '[' = (q, .ok none) ∧ Shape q .InCDATA [] nss ats 0 := by
  obtain ⟨hst, hbuf, he, hlv, hnss, hats⟩ := hs
  have hf := updatePos_fields p '['
  refine ⟨{ p.updatePos '[' with level := 0, st := .InCDATA }, ?_, ?_⟩
  · apply step_ok p '[' he
    simp only [Parser.parse_character, hf.1, hst]
    rw [Parser.in_cdata_opening,
      if_pos (by rw [hf.2.1, hlv]; decide),
      if_pos (by rw [hf.2.1, hlv])]
  · exact ⟨rfl, by rw [hf.2.2.2.2.1, hbuf],
      by rw [hf.2.2.1, he], rfl,
      by rw [hf.2.2.2.1, hnss], by rw [hf.2.2.2.2.2.1, hats]⟩

theorem char_cdata_buffer (p : Parser) (c : Char) (b : Str)
    (nss : List Scope) (ats : List (Str × Option Str × Str)) (lv : Nat)
    (hs : Shape p .InCDATA b nss ats lv) (h1 : c ≠ ']') (h2 : lv < 2) :
    ∃ q, p.step c = (q, .ok none) ∧
      Shape q .InCDATA (b ++ [c]) nss ats 0 := by
  obtain ⟨hst, hbuf, he, hlv, hnss, hats⟩ := hs
  have hf := updatePos_fields p c
  by_cases hgt : c = '>'
  · subst hgt
    refine ⟨{ p.updatePos '>' with
        buf := (p.updatePos '>').buf ++ ['>'],
        level := 0 }, ?_, ?_⟩
    · apply step_ok p '>' he
      simp only [Parser.parse_character, hf.1, hst]
      rw [Parser.in_cdata, if_neg (by decide), if_pos rfl,
        if_neg (by rw [hf.2.1, hlv]; omega)]
      rw [hf.1, hst]
    · exact ⟨by rw [hf.1, hst], by rw [hf.2.2.2.2.1, hbuf],
        by rw [hf.2.2.1, he], rfl,
        by rw [hf.2.2.2.1, hnss], by rw [hf.2.2.2.2.2.1, hats]⟩
  · refine ⟨{ p.updatePos c with
        buf := (p.updatePos c).buf ++ [c],
        level := 0 }, ?_, ?_⟩
    · apply step_ok p c he
      simp only [Parser.parse_character, hf.1, hst]
      rw [Parser.in_cdata, if_neg h1, if_neg hgt]
      rw [hf.1, hst]
    · exact ⟨by rw [hf.1, hst], by rw [hf.2.2.2.2.1, hbuf],
        by rw [hf.2.2.1, he], rfl,
        by rw [hf.2.2.2.1, hnss], by rw [hf.2.2.2.2.2.1, hats]⟩

theorem char_cdata_bracket (p : Parser) (b : Str) (nss : List Scope)
    (ats : List (Str × Option Str × Str)) (lv : Nat)
    (hs : Shape p .InCDATA b nss ats lv) :
    ∃ q, p.step ']' = (q, .ok none) ∧
      Shape q .InCDATA (b ++ [']']) nss ats (lv + 1) := by
  obtain ⟨hst, hbuf, he, hlv, hnss, hats⟩ := hs
  have hf := updatePos_fields p ']'
  refine ⟨{ p.updatePos ']' with
      buf := (p.updatePos ']').buf ++ [']'],
      level := (p.updatePos ']').level + 1 }, ?_, ?_⟩
  · apply step_ok p ']' he
    simp only [Parser.parse_character, hf.1, hst]
    rw [Parser.in_cdata, if_pos rfl]
    rw [hf.1, hst]
  · exact ⟨by rw [hf.1, hst], by rw [hf.2.2.2.2.1, hbuf],
      by rw [hf.2.2.1, he], by rw [hf.2.1, hlv],
      by rw [hf.2.2.2.1, hnss], by rw [hf.2.2.2.2.2.1, hats]⟩

theorem char_cdata_emit (p : Parser) (b : Str) (nss : List Scope)
    (ats : List (Str × Option Str × Str)) (lv : Nat) (h2 : 2 ≤ lv)
    (hs : Shape p .InCDATA b nss ats lv) :
    ∃ q, p.step '>' = (q, .ok (some (.CDATA b.dropLast.dropLast))) ∧
      Shape q .OutsideTag [] nss ats 0 := by
  obtain ⟨hst, hbuf, he, hlv, hnss, hats⟩ := hs
  have hf := updatePos_fields p '>'
  refine ⟨{ p.updatePos '>' with
      st := .OutsideTag,
      level := 0,
      buf := [] }, ?_, ?_⟩
  · apply step_ok p '>' he
    simp only [Parser.parse_character, hf.1, hst]
    rw [Parser.in_cdata, if_neg (by decide), if_pos rfl,
      if_pos (by rw [hf.2.1, hlv]; exact h2)]
    rw [show (p.updatePos '>').buf = b from by rw [hf.2.2.2.2.1, hbuf]]
  · exact ⟨rfl, rfl, by rw [hf.2.2.1, he], rfl,
      by rw [hf.2.2.2.1, hnss], by rw [hf.2.2.2.2.2.1, hats]⟩

theorem char_tagname_buffer (p : Parser) (c : Char) (b : Str)
    (nss : List Scope) (ats : List (Str × Option Str × Str)) (lv : Nat)
    (hs : Shape p .InTagName b nss ats lv)
    (h1 : c ≠ '/') (h2 : c ≠ '>') (h3 : isWS c = false) :
    ∃ q, p.step c = (q, .ok none) ∧
      Shape q .InTagName (b ++ [c]) nss ats lv := by
  obtain ⟨hst, hbuf, he, hlv, hnss, hats⟩ := hs
  have hf := updatePos_fields p c
  refine ⟨{ p.updatePos c with buf := (p.updatePos c).buf ++ [c] }, ?_, ?_⟩
  · apply step_ok p c he
    simp only [Parser.parse_character, hf.1, hst]
    rw [Parser.in_tag_name, if_neg (by tauto), if_neg (by rw [h3]; simp)]
    rw [hf.1, hst]
  · exact ⟨by rw [hf.1, hst], by rw [hf.2.2.2.2.1, hbuf],
      by rw [hf.2.2.1, he], by rw [hf.2.1, hlv],
      by rw [hf.2.2.2.1, hnss], by rw [hf.2.2.2.2.2.1, hats]⟩

theorem char_tagname_ws (p : Parser) (c : Char) (b : Str)
    (nss : List Scope) (ats : List (Str × Option Str × Str)) (lv : Nat)
    (hs : Shape p .InTagName b nss ats lv)
    (h1 : c ≠ '/') (h2 : c ≠ '>') (h3 : isWS c = true) :
    ∃ q, p.step c = (q, .ok none) ∧
      Shape q .InTag [] ([] :: nss) ats lv ∧
      q.name = some (parse_qname b) := by
  obtain ⟨hst, hbuf, he, hlv, hnss, hats⟩ := hs
  have hf := updatePos_fields p c
  refine ⟨{ p.updatePos c with
      namespaces := [] :: (p.updatePos c).namespaces,
      name := some (parse_qname (p.updatePos c).buf),
      buf := [],
      st := .InTag }, ?_, ?_, ?_⟩
  · apply step_ok p c he
    simp only [Parser.parse_character, hf.1, hst]
    rw [Parser.in_tag_name, if_neg (by tauto), if_pos h3]
  · exact ⟨rfl, rfl, by rw [hf.2.2.1, he], by rw [hf.2.1, hlv],
      by rw [hf.2.2.2.1, hnss], by rw [hf.2.2.2.2.2.1, hats]⟩
  · rw [show ({ p.updatePos c with
        namespaces := [] :: (p.updatePos c).namespaces,
        name := some (parse_qname (p.updatePos c).buf),
        buf := [],
        st := .InTag } : Parser).name =
      some (parse_qname (p.updatePos c).buf) from rfl]
    rw [hf.2.2.2.2.1, hbuf]

theorem char_tagname_gt (p : Parser) (b : Str) (pfx : Option Str) (nm : Str)
    (ns : Option Str) (nss : List Scope)
    (ats : List (Str × Option Str × Str)) (lv : Nat)
    (hs : Shape p .InTagName b nss ats lv)
    (hq : parse_qname b = (pfx, nm))
    (hres : resolveTagNS nss pfx = some ns) :
    ∃ q, p.step '>' = (q, .ok (some (.ElementStart ⟨nm, ns, pfx, []⟩))) ∧
      Shape q .OutsideTag [] ([] :: nss) ats lv := by
  obtain ⟨hst, hbuf, he, hlv, hnss, hats⟩ := hs
  have hf := updatePos_fields p '>'
  refine ⟨{ p.updatePos '>' with
      buf := [],
      namespaces := [] :: (p.updatePos '>').namespaces,
      st := .OutsideTag }, ?_, ?_⟩
  · apply step_ok p '>' he
    simp only [Parser.parse_character, hf.1, hst]
    rw [Parser.in_tag_name, if_pos (Or.inr rfl)]
    rw [show (p.updatePos '>').buf = b from by rw [hf.2.2.2.2.1, hbuf]]
    simp only [hq]
    rw [show (p.updatePos '>').namespaces = nss from by
      rw [hf.2.2.2.1, hnss], hres]
    rfl
  · exact ⟨rfl, rfl, by rw [hf.2.2.1, he], by rw [hf.2.1, hlv],
      by rw [hf.2.2.2.1, hnss], by rw [hf.2.2.2.2.2.1, hats]⟩

theorem char_tagname_slash (p : Parser) (b : Str) (pfx : Option Str)
    (nm : Str) (ns : Option Str) (nss : List Scope)
    (ats : List (Str × Option Str × Str)) (lv : Nat)
    (hs : Shape p .InTagName b nss ats lv)
    (hq : parse_qname b = (pfx, nm))
    (hres : resolveTagNS nss pfx = some ns) :
    ∃ q, p.step '/' = (q, .ok (some (.ElementStart ⟨nm, ns, pfx, []⟩))) ∧
      Shape q .ExpectClose [] ([] :: nss) ats lv ∧
      q.name = some (pfx, nm) := by
  obtain ⟨hst, hbuf, he, hlv, hnss, hats⟩ := hs
  have hf := updatePos_fields p '/'
  refine ⟨{ p.updatePos '/' with
      buf := [],
      namespaces := [] :: (p.updatePos '/').namespaces,
      name := some (pfx, nm),
      st := .ExpectClose }, ?_, ?_, rfl⟩
  · apply step_ok p '/' he
    simp only [Parser.parse_character, hf.1, hst]
    rw [Parser.in_tag_name, if_pos (Or.inl rfl)]
    rw [show (p.updatePos '/').buf = b from by rw [hf.2.2.2.2.1, hbuf]]
    simp only [hq]
    rw [show (p.updatePos '/').namespaces = nss from by
      rw [hf.2.2.2.1, hnss], hres]
    rfl
  · exact ⟨rfl, rfl, by rw [hf.2.2.1, he], by rw [hf.2.1, hlv],
      by rw [hf.2.2.2.1, hnss], by rw [hf.2.2.2.2.2.1, hats]⟩

theorem char_intag_ws (p : Parser) (c : Char) (b : Str) (nss : List Scope)
    (ats : List (Str × Option Str × Str)) (lv : Nat)
    (hs : Shape p .InTag b nss ats lv) (h1 : c ≠ '/') (h2 : c ≠ '>')
    (h3 : isWS c = true) :
    ∃ q, p.step c = (q, .ok none) ∧ Shape q .InTag b nss ats lv ∧
      q.name = p.name := by
  obtain ⟨hst, hbuf, he, hlv, hnss, hats⟩ := hs
  have hf := updatePos_fields p c
  refine ⟨p.updatePos c, ?_, ?_, hf.2.2.2.2.2.2.1⟩
  · apply step_ok p c he
    simp only [Parser.parse_character, hf.1, hst]
    rw [Parser.in_tag, if_neg (by tauto), if_pos h3]
  · exact ⟨by rw [hf.1, hst], by rw [hf.2.2.2.2.1, hbuf],
      by rw [hf.2.2.1, he], by rw [hf.2.1, hlv],
      by rw [hf.2.2.2.1, hnss], by rw [hf.2.2.2.2.2.1, hats]⟩

theorem char_intag_attrstart (p : Parser) (c : Char) (nss : List Scope)
    (ats : List (Str × Option Str × Str)) (lv : Nat)
    (hs : Shape p .InTag [] nss ats lv) (h1 : c ≠ '/') (h2 : c ≠ '>')
    (h3 : isWS c = false) :
    ∃ q, p.step c = (q, .ok none) ∧ Shape q .InAttrName [c] nss ats lv ∧
      q.name = p.name := by
  obtain ⟨hst, hbuf, he, hlv, hnss, hats⟩ := hs
  have hf := updatePos_fields p c
  refine ⟨{ p.updatePos c with
      buf := (p.updatePos c).buf ++ [c],
      st := .InAttrName }, ?_, ?_, hf.2.2.2.2.2.2.1⟩
  · apply step_ok p c he
    simp only [Parser.parse_character, hf.1, hst]
    rw [Parser.in_tag, if_neg (by tauto), if_neg (by rw [h3]; simp)]
  · exact ⟨rfl, by rw [hf.2.2.2.2.1, hbuf]; rfl,
      by rw [hf.2.2.1, he], by rw [hf.2.1, hlv],
      by rw [hf.2.2.2.1, hnss], by rw [hf.2.2.2.2.2.1, hats]⟩

theorem char_attrname_buffer (p : Parser) (c : Char) (b : Str)
    (nss : List Scope) (ats : List (Str × Option Str × Str))
    (hs : Shape p .InAttrName b nss ats 0) (h1 : c ≠ '=')
    (h3 : isWS c = false) :
    ∃ q, p.step c = (q, .ok none) ∧ Shape q .InAttrName (b ++ [c]) nss ats 0 ∧
      q.name = p.name := by
  obtain ⟨hst, hbuf, he, hlv, hnss, hats⟩ := hs
  have hf := updatePos_fields p c
  refine ⟨{ p.updatePos c with buf := (p.updatePos c).buf ++ [c] },
    ?_, ?_, hf.2.2.2.2.2.2.1⟩
  · apply step_ok p c he
    simp only [Parser.parse_character, hf.1, hst]
    rw [Parser.in_attr_name, if_neg h1, if_neg (by rw [h3]; simp),
      if_pos (by rw [hf.2.1, hlv])]
    rw [hf.1, hst]
  · exact ⟨by rw [hf.1, hst], by rw [hf.2.2.2.2.1, hbuf],
      by rw [hf.2.2.1, he], by rw [hf.2.1, hlv],
      by rw [hf.2.2.2.1, hnss], by rw [hf.2.2.2.2.2.1, hats]⟩

theorem char_attrname_eq (p : Parser) (b : Str) (nss : List Scope)
    (ats : List (Str × Option Str × Str)) (lv : Nat)
    (hs : Shape p .InAttrName b nss ats lv) :
    ∃ q, p.step '=' = (q, .ok none) ∧ Shape q .ExpectDelimiter [] nss ats 0 ∧
      q.name = p.name ∧ q.attr = some (parse_qname b) := by
  obtain ⟨hst, hbuf, he, hlv, hnss, hats⟩ := hs
  have hf := updatePos_fields p '='
  refine ⟨{ p.updatePos '=' with
      level := 0,
      attr := some (parse_qname (p.updatePos '=').buf),
      buf := [],
      st := .ExpectDelimiter }, ?_, ?_, hf.2.2.2.2.2.2.1, ?_⟩
  · apply step_ok p '=' he
    simp only [Parser.parse_character, hf.1, hst]
    rw [Parser.in_attr_name, if_pos rfl]
  · exact ⟨rfl, rfl, by rw [hf.2.2.1, he], rfl,
      by rw [hf.2.2.2.1, hnss], by rw [hf.2.2.2.2.2.1, hats]⟩
  · rw [show ({ p.updatePos '=' with
        level := 0,
        attr := some (parse_qname (p.updatePos '=').buf),
        buf := [],
        st := .ExpectDelimiter } : Parser).attr =
      some (parse_qname (p.updatePos '=').buf) from rfl]
    rw [hf.2.2.2.2.1, hbuf]

theorem char_delim_quote (p : Parser) (nss : List Scope)
    (ats : List (Str × Option Str × Str)) (lv : Nat)
    (hs : Shape p .ExpectDelimiter [] nss ats lv) :
    ∃ q, p.step '\'' = (q, .ok none) ∧ Shape q .InAttrValue [] nss ats lv ∧
      q.name = p.name ∧ q.attr = p.attr ∧ q.delim = some '\'' := by
  obtain ⟨hst, hbuf, he, hlv, hnss, hats⟩ := hs
  have hf := updatePos_fields p '\''
  refine ⟨{ p.updatePos '\'' with
      delim := some '\'',
      st := .InAttrValue }, ?_, ?_, hf.2.2.2.2.2.2.1,
    hf.2.2.2.2.2.2.2.1, rfl⟩
  · apply step_ok p '\'' he
    simp only [Parser.parse_character, hf.1, hst]
    rw [Parser.expect_delimiter, if_pos (Or.inr rfl)]
  · exact ⟨rfl, by rw [hf.2.2.2.2.1, hbuf],
      by rw [hf.2.2.1, he], by rw [hf.2.1, hlv],
      by rw [hf.2.2.2.1, hnss], by rw [hf.2.2.2.2.2.1, hats]⟩

theorem char_attrvalue_buffer (p : Parser) (c : Char) (b : Str)
    (nss : List Scope) (ats : List (Str × Option Str × Str)) (lv : Nat)
    (hs : Shape p .InAttrValue b nss ats lv) (hd : p.delim = some '\'')
    (h1 : c ≠ '\'') :
    ∃ q, p.step c = (q, .ok none) ∧ Shape q .InAttrValue (b ++ [c]) nss ats lv ∧
      q.name = p.name ∧ q.attr = p.attr ∧ q.delim = p.delim := by
  obtain ⟨hst, hbuf, he, hlv, hnss, hats⟩ := hs
  have hf := updatePos_fields p c
  refine ⟨{ p.updatePos c with buf := (p.updatePos c).buf ++ [c] },
    ?_, ?_, hf.2.2.2.2.2.2.1, hf.2.2.2.2.2.2.2.1, hf.2.2.2.2.2.2.2.2⟩
  · apply step_ok p c he
    simp only [Parser.parse_character, hf.1, hst]
    rw [Parser.in_attr_value]
    rw [show (p.updatePos c).delim = some '\'' from by
      rw [hf.2.2.2.2.2.2.2.2, hd]]
    split
    · rename_i heq
      exact Option.noConfusion heq
    · rename_i d heq
      injection heq with heq2
      subst heq2
      rw [if_neg h1]
      rw [hf.1, hst]
  · exact ⟨by rw [hf.1, hst], by rw [hf.2.2.2.2.1, hbuf],
      by rw [hf.2.2.1, he], by rw [hf.2.1, hlv],
      by rw [hf.2.2.2.1, hnss], by rw [hf.2.2.2.2.2.1, hats]⟩

theorem char_attrvalue_close (p : Parser) (b : Str) (nm : Str) (v : Str)
    (sc : Scope) (rest : List Scope)
    (ats : List (Str × Option Str × Str)) (lv : Nat)
    (hs : Shape p .InAttrValue b (sc :: rest) ats lv)
    (hd : p.delim = some '\'') (ha : p.attr = some (none, nm))
    (hun : unescape_owned b = .ok v) :
    ∃ q, p.step '\'' = (q, .ok none) ∧
      Shape q .InTag []
        ((if nm = xmlnsPrefixStr then scopeInsert sc [] v else sc) :: rest)
        (ats ++ [(nm, none, v)]) lv ∧
      q.name = p.name := by
  obtain ⟨hst, hbuf, he, hlv, hnss, hats⟩ := hs
  have hf := updatePos_fields p '\''
  refine ⟨{ p.updatePos '\'' with
      delim := none,
      st := .InTag,
      attr := none,
      buf := [],
      namespaces :=
        (if nm = xmlnsPrefixStr then scopeInsert sc [] v else sc) :: rest,
      attributes := (p.updatePos '\'').attributes ++ [(nm, none, v)] },
    ?_, ?_, hf.2.2.2.2.2.2.1⟩
  · apply step_ok p '\'' he
    simp only [Parser.parse_character, hf.1, hst]
    rw [Parser.in_attr_value]
    rw [show (p.updatePos '\'').delim = some '\'' from by
      rw [hf.2.2.2.2.2.2.2.2, hd]]
    split
    · rename_i heq
      exact Option.noConfusion heq
    · rename_i d heq
      injection heq with heq2
      subst heq2
      rw [if_pos rfl]
      rw [show (p.updatePos '\'').attr = some (none, nm) from by
        rw [hf.2.2.2.2.2.2.2.1, ha]]
      split
      · rename_i heq3
        exact Option.noConfusion heq3
      · rename_i pfx0 nm0 heq3
        injection heq3 with heq4
        injection heq4 with heq5 heq6
        subst heq5
        subst heq6
        dsimp only
        rw [show (p.updatePos '\'').buf = b from by rw [hf.2.2.2.2.1, hbuf],
          hun]
        split
        · rename_i v0 heq7
          exact Except.noConfusion heq7
        · rename_i v0 heq7
          injection heq7 with heq8
          subst heq8
          rw [show (p.updatePos '\'').namespaces = sc :: rest from by
            rw [hf.2.2.2.1, hnss]]
          split
          · rename_i heq9
            exact List.noConfusion heq9
          · rename_i top0 rest0 heq9
            injection heq9 with heq10 heq11
            subst heq10
            subst heq11
            by_cases hx : nm = xmlnsPrefixStr
            · rw [if_pos hx, if_pos ⟨rfl, hx⟩]
            · rw [if_neg hx, if_neg (by tauto)]
  · exact ⟨rfl, rfl, by rw [hf.2.2.1, he], by rw [hf.2.1, hlv], rfl,
      by rw [hf.2.2.2.2.2.1, hats]⟩

theorem char_expectclose_gt (p : Parser) (pfx : Option Str) (nm : Str)
    (ns : Option Str) (sc : Scope) (rest : List Scope) (b : Str)
    (ats : List (Str × Option Str × Str)) (lv : Nat)
    (hs : Shape p .ExpectClose b (sc :: rest) ats lv)
    (hn : p.name = some (pfx, nm))
    (hres : resolveTagNS (sc :: rest) pfx = some ns) :
    ∃ q, p.step '>' = (q, .ok (some (.ElementEnd ⟨nm, ns, pfx⟩))) ∧
      Shape q .OutsideTag b rest ats lv ∧ q.name = none := by
  obtain ⟨hst, hbuf, he, hlv, hnss, hats⟩ := hs
  have hf := updatePos_fields p '>'
  refine ⟨{ p.updatePos '>' with
      st := .OutsideTag,
      name := none,
      namespaces := rest }, ?_, ?_, rfl⟩
  · apply step_ok p '>' he
    simp only [Parser.parse_character, hf.1, hst]
    rw [Parser.expect_close, if_pos rfl]
    rw [show (p.updatePos '>').name = some (pfx, nm) from by
      rw [hf.2.2.2.2.2.2.1, hn]]
    rw [show (p.updatePos '>').namespaces = sc :: rest from by
      rw [hf.2.2.2.1, hnss]]
    split
    · rename_i heq
      exact Option.noConfusion heq
    · rename_i pfx0 nm0 heq
      injection heq with h4
      injection h4 with h5 h6
      subst h5
      subst h6
      dsimp only
      rw [hres]
      split
      · rename_i heq2
        exact Option.noConfusion heq2
      · rename_i ns0 heq2
        injection heq2 with h7
        subst h7
        rfl
  · exact ⟨rfl, by rw [hf.2.2.2.2.1, hbuf],
      by rw [hf.2.2.1, he], by rw [hf.2.1, hlv], rfl,
      by rw [hf.2.2.2.2.2.1, hats]⟩

theorem char_closetagname_buffer (p : Parser) (c : Char) (b : Str)
    (nss : List Scope) (ats : List (Str × Option Str × Str)) (lv : Nat)
    (hs : Shape p .InCloseTagName b nss ats lv)
    (h2 : c ≠ '>') (h3 : isWS c = false) :
    ∃ q, p.step c = (q, .ok none) ∧
      Shape q .InCloseTagName (b ++ [c]) nss ats lv := by
  obtain ⟨hst, hbuf, he, hlv, hnss, hats⟩ := hs
  have hf := updatePos_fields p c
  refine ⟨{ p.updatePos c with buf := (p.updatePos c).buf ++ [c] }, ?_, ?_⟩
  · apply step_ok p c he
    simp only [Parser.parse_character, hf.1, hst]
    rw [Parser.in_close_tag_name, if_neg (by rw [h3]; simp; exact h2)]
    rw [hf.1, hst]
  · exact ⟨by rw [hf.1, hst], by rw [hf.2.2.2.2.1, hbuf],
      by rw [hf.2.2.1, he], by rw [hf.2.1, hlv],
      by rw [hf.2.2.2.1, hnss], by rw [hf.2.2.2.2.2.1, hats]⟩

theorem char_closetagname_gt (p : Parser) (b : Str) (pfx : Option Str)
    (nm : Str) (ns : Option Str) (sc : Scope) (rest : List Scope)
    (ats : List (Str × Option Str × Str)) (lv : Nat)
    (hs : Shape p .InCloseTagName b (sc :: rest) ats lv)
    (hq : parse_qname b = (pfx, nm))
    (hres : resolveTagNS (sc :: rest) pfx = some ns) :
    ∃ q, p.step '>' = (q, .ok (some (.ElementEnd ⟨nm, ns, pfx⟩))) ∧
      Shape q .OutsideTag [] rest ats lv := by
  obtain ⟨hst, hbuf, he, hlv, hnss, hats⟩ := hs
  have hf := updatePos_fields p '>'
  refine ⟨{ p.updatePos '>' with
      buf := [],
      namespaces := rest,
      st := .OutsideTag }, ?_, ?_⟩
  · apply step_ok p '>' he
    simp only [Parser.parse_character, hf.1, hst]
    rw [Parser.in_close_tag_name, if_pos (Or.inr rfl)]
    rw [show (p.updatePos '>').buf = b from by rw [hf.2.2.2.2.1, hbuf]]
    simp only [hq]
    rw [show (p.updatePos '>').namespaces = sc :: rest from by
      rw [hf.2.2.2.1, hnss], hres]
    rfl
  · exact ⟨rfl, rfl, by rw [hf.2.2.1, he], by rw [hf.2.1, hlv], rfl,
      by rw [hf.2.2.2.2.2.1, hats]⟩

theorem char_intag_gt (p : Parser) (pfx : Option Str) (nm : Str)
    (ns : Option Str) (amap : AttrMap) (nss : List Scope) (b : Str)
    (ats : List (Str × Option Str × Str)) (lv : Nat)
    (hs : Shape p .InTag b nss ats lv) (hn : p.name = some (pfx, nm))
    (hres : resolveTagNS nss pfx = some ns)
    (hra : resolveAttrs nss ats [] = .ok amap) :
    ∃ q, p.step '>' = (q, .ok (some (.ElementStart ⟨nm, ns, pfx, amap⟩))) ∧
      Shape q .OutsideTag b nss [] lv ∧ q.name = none := by
  obtain ⟨hst, hbuf, he, hlv, hnss, hats⟩ := hs
  have hf := updatePos_fields p '>'
  refine ⟨{ p.updatePos '>' with
      attributes := [],
      name := none,
      st := .OutsideTag }, ?_, ?_, rfl⟩
  · apply step_ok p '>' he
    simp only [Parser.parse_character, hf.1, hst]
    rw [Parser.in_tag, if_pos (Or.inr rfl)]
    rw [show (p.updatePos '>').name = some (pfx, nm) from by
      rw [hf.2.2.2.2.2.2.1, hn]]
    split
    · rename_i heq
      exact Option.noConfusion heq
    · rename_i pfx0 nm0 heq
      injection heq with h4
      injection h4 with h5 h6
      subst h5
      subst h6
      dsimp only
      rw [show (p.updatePos '>').namespaces = nss from by
        rw [hf.2.2.2.1, hnss], hres]
      split
      · rename_i heq2
        exact Option.noConfusion heq2
      · rename_i ns0 heq2
        injection heq2 with h7
        subst h7
        rw [show (p.updatePos '>').attributes = ats from by
          rw [hf.2.2.2.2.2.1, hats], hra]
        split
        · rename_i m0 heq3
          exact Except.noConfusion heq3
        · rename_i am0 heq3
          injection heq3 with h8
          subst h8
          rfl
  · exact ⟨rfl, by rw [hf.2.2.2.2.1, hbuf],
      by rw [hf.2.2.1, he], by rw [hf.2.1, hlv],
      by rw [hf.2.2.2.1, hnss], rfl⟩

theorem char_intag_slash (p : Parser) (pfx : Option Str) (nm : Str)
    (ns : Option Str) (amap : AttrMap) (nss : List Scope) (b : Str)
    (ats : List (Str × Option Str × Str)) (lv : Nat)
    (hs : Shape p .InTag b nss ats lv) (hn : p.name = some (pfx, nm))
    (hres : resolveTagNS nss pfx = some ns)
    (hra : resolveAttrs nss ats [] = .ok amap) :
    ∃ q, p.step '/' = (q, .ok (some (.ElementStart ⟨nm, ns, pfx, amap⟩))) ∧
      Shape q .ExpectClose b nss [] lv ∧ q.name = some (pfx, nm) := by
  obtain ⟨hst, hbuf, he, hlv, hnss, hats⟩ := hs
  have hf := updatePos_fields p '/'
  refine ⟨{ p.updatePos '/' with
      attributes := [],
      name := some (pfx, nm),
      st := .ExpectClose }, ?_, ?_, rfl⟩
  · apply step_ok p '/' he
    simp only [Parser.parse_character, hf.1, hst]
    rw [Parser.in_tag, if_pos (Or.inl rfl)]
    rw [show (p.updatePos '/').name = some (pfx, nm) from by
      rw [hf.2.2.2.2.2.2.1, hn]]
    split
    · rename_i heq
      exact Option.noConfusion heq
    · rename_i pfx0 nm0 heq
      injection heq with h4
      injection h4 with h5 h6
      subst h5
      subst h6
      dsimp only
      rw [show (p.updatePos '/').namespaces = nss from by
        rw [hf.2.2.2.1, hnss], hres]
      split
      · rename_i heq2
        exact Option.noConfusion heq2
      · rename_i ns0 heq2
        injection heq2 with h7
        subst h7
        rw [show (p.updatePos '/').attributes = ats from by
          rw [hf.2.2.2.2.2.1, hats], hra]
        split
        · rename_i m0 heq3
          exact Except.noConfusion heq3
        · rename_i am0 heq3
          injection heq3 with h8
          subst h8
          rfl
  · exact ⟨rfl, by rw [hf.2.2.2.2.1, hbuf],
      by rw [hf.2.2.1, he], by rw [hf.2.1, hlv],
      by rw [hf.2.2.2.1, hnss], rfl⟩

/-! ### Multi-character buffering runs -/

theorem run_text_buffer (s : Str) : ∀ (p : Parser) (b : Str)
    (nss : List Scope) (ats : List (Str × Option Str × Str)) (lv : Nat),
    Shape p .OutsideTag b nss ats lv → (∀ c ∈ s, c ≠ '<') →
    ∃ q, StepsTo p s [] q ∧ Shape q .OutsideTag (b ++ s) nss ats lv := by
  induction s with
  | nil =>
    intro p b nss ats lv hs _
    exact ⟨p, StepsTo_nil p, by rw [List.append_nil]; exact hs⟩
  | cons c cs ih =>
    intro p b nss ats lv hs hall
    obtain ⟨q1, hstep, hs1⟩ := char_outside_buffer p c b nss ats lv hs
      (hall c (List.mem_cons_self c cs))
    obtain ⟨q2, hrun, hs2⟩ := ih q1 (b ++ [c]) nss ats lv hs1
      (fun x hx => hall x (List.mem_cons_of_mem c hx))
    refine ⟨q2, StepsTo_trans (StepsTo_char_none p q1 c hstep) hrun, ?_⟩
    rw [show b ++ (c :: cs) = (b ++ [c]) ++ cs by simp]
    exact hs2

theorem run_tagname_buffer (s : Str) : ∀ (p : Parser) (b : Str)
    (nss : List Scope) (ats : List (Str × Option Str × Str)) (lv : Nat),
    Shape p .InTagName b nss ats lv →
    (∀ c ∈ s, c ≠ '/' ∧ c ≠ '>' ∧ isWS c = false) →
    ∃ q, StepsTo p s [] q ∧ Shape q .InTagName (b ++ s) nss ats lv := by
  induction s with
  | nil =>
    intro p b nss ats lv hs _
    exact ⟨p, StepsTo_nil p, by rw [List.append_nil]; exact hs⟩
  | cons c cs ih =>
    intro p b nss ats lv hs hall
    have hc := hall c (List.mem_cons_self c cs)
    obtain ⟨q1, hstep, hs1⟩ := char_tagname_buffer p c b nss ats lv hs
      hc.1 hc.2.1 hc.2.2
    obtain ⟨q2, hrun, hs2⟩ := ih q1 (b ++ [c]) nss ats lv hs1
      (fun x hx => hall x (List.mem_cons_of_mem c hx))
    refine ⟨q2, StepsTo_trans (StepsTo_char_none p q1 c hstep) hrun, ?_⟩
    rw [show b ++ (c :: cs) = (b ++ [c]) ++ cs by simp]
    exact hs2

theorem run_attrname_buffer (s : Str) : ∀ (p : Parser) (b : Str)
    (nss : List Scope) (ats : List (Str × Option Str × Str)),
    Shape p .InAttrName b nss ats 0 →
    (∀ c ∈ s, c ≠ '=' ∧ isWS c = false) →
    ∃ q, StepsTo p s [] q ∧ Shape q .InAttrName (b ++ s) nss ats 0 ∧
      q.name = p.name := by
  induction s with
  | nil =>
    intro p b nss ats hs _
    exact ⟨p, StepsTo_nil p, by rw [List.append_nil]; exact hs, rfl⟩
  | cons c cs ih =>
    intro p b nss ats hs hall
    have hc := hall c (List.mem_cons_self c cs)
    obtain ⟨q1, hstep, hs1, hnm1⟩ := char_attrname_buffer p c b nss ats hs
      hc.1 hc.2
    obtain ⟨q2, hrun, hs2, hnm2⟩ := ih q1 (b ++ [c]) nss ats hs1
      (fun x hx => hall x (List.mem_cons_of_mem c hx))
    refine ⟨q2, StepsTo_trans (StepsTo_char_none p q1 c hstep) hrun, ?_,
      by rw [hnm2, hnm1]⟩
    rw [show b ++ (c :: cs) = (b ++ [c]) ++ cs by simp]
    exact hs2

theorem run_attrvalue_buffer (s : Str) : ∀ (p : Parser) (b : Str)
    (nss : List Scope) (ats : List (Str × Option Str × Str)) (lv : Nat),
    Shape p .InAttrValue b nss ats lv → p.delim = some '\'' →
    (∀ c ∈ s, c ≠ '\'') →
    ∃ q, StepsTo p s [] q ∧ Shape q .InAttrValue (b ++ s) nss ats lv ∧
      q.name = p.name ∧ q.attr = p.attr ∧ q.delim = p.delim := by
  induction s with
  | nil =>
    intro p b nss ats lv hs _ _
    exact ⟨p, StepsTo_nil p, by rw [List.append_nil]; exact hs, rfl, rfl, rfl⟩
  | cons c cs ih =>
    intro p b nss ats lv hs hd hall
    obtain ⟨q1, hstep, hs1, hnm1, hat1, hdl1⟩ :=
      char_attrvalue_buffer p c b nss ats lv hs hd
        (hall c (List.mem_cons_self c cs))
    obtain ⟨q2, hrun, hs2, hnm2, hat2, hdl2⟩ := ih q1 (b ++ [c]) nss ats lv
      hs1 (by rw [hdl1, hd]) (fun x hx => hall x (List.mem_cons_of_mem c hx))
    refine ⟨q2, StepsTo_trans (StepsTo_char_none p q1 c hstep) hrun, ?_,
      by rw [hnm2, hnm1], by rw [hat2, hat1], by rw [hdl2, hdl1]⟩
    rw [show b ++ (c :: cs) = (b ++ [c]) ++ cs by simp]
    exact hs2

theorem run_pi_buffer (s : Str) : ∀ (p : Parser) (b : Str)
    (nss : List Scope) (ats : List (Str × Option Str × Str)) (lv : Nat),
    Shape p .InProcessingInstructions b nss ats lv →
    (∀ c ∈ s, c ≠ '?' ∧ c ≠ '>') →
    ∃ q, StepsTo p s [] q ∧
      Shape q .InProcessingInstructions (b ++ s) nss ats lv := by
  induction s with
  | nil =>
    intro p b nss ats lv hs _
    exact ⟨p, StepsTo_nil p, by rw [List.append_nil]; exact hs⟩
  | cons c cs ih =>
    intro p b nss ats lv hs hall
    have hc := hall c (List.mem_cons_self c cs)
    obtain ⟨q1, hstep, hs1⟩ := char_pi_buffer p c b nss ats lv hs hc.1 hc.2
    obtain ⟨q2, hrun, hs2⟩ := ih q1 (b ++ [c]) nss ats lv hs1
      (fun x hx => hall x (List.mem_cons_of_mem c hx))
    refine ⟨q2, StepsTo_trans (StepsTo_char_none p q1 c hstep) hrun, ?_⟩
    rw [show b ++ (c :: cs) = (b ++ [c]) ++ cs by simp]
    exact hs2

theorem run_comment_buffer (s : Str) : ∀ (p : Parser) (b : Str)
    (nss : List Scope) (ats : List (Str × Option Str × Str)),
    Shape p .InComment1 b nss ats 0 → (∀ c ∈ s, c ≠ '-') →
    ∃ q, StepsTo p s [] q ∧ Shape q .InComment1 (b ++ s) nss ats 0 := by
  induction s with
  | nil =>
    intro p b nss ats hs _
    exact ⟨p, StepsTo_nil p, by rw [List.append_nil]; exact hs⟩
  | cons c cs ih =>
    intro p b nss ats hs hall
    obtain ⟨q1, hstep, hs1⟩ := char_comment_buffer p c b nss ats 0 hs
      (hall c (List.mem_cons_self c cs))
    obtain ⟨q2, hrun, hs2⟩ := ih q1 (b ++ [c]) nss ats hs1
      (fun x hx => hall x (List.mem_cons_of_mem c hx))
    refine ⟨q2, StepsTo_trans (StepsTo_char_none p q1 c hstep) hrun, ?_⟩
    rw [show b ++ (c :: cs) = (b ++ [c]) ++ cs by simp]
    exact hs2

theorem run_cdata_buffer (s : Str) : ∀ (p : Parser) (b : Str)
    (nss : List Scope) (ats : List (Str × Option Str × Str)),
    Shape p .InCDATA b nss ats 0 → (∀ c ∈ s, c ≠ ']') →
    ∃ q, StepsTo p s [] q ∧ Shape q .InCDATA (b ++ s) nss ats 0 := by
  induction s with
  | nil =>
    intro p b nss ats hs _
    exact ⟨p, StepsTo_nil p, by rw [List.append_nil]; exact hs⟩
  | cons c cs ih =>
    intro p b nss ats hs hall
    obtain ⟨q1, hstep, hs1⟩ := char_cdata_buffer p c b nss ats 0 hs
      (hall c (List.mem_cons_self c cs)) (by omega)
    obtain ⟨q2, hrun, hs2⟩ := ih q1 (b ++ [c]) nss ats hs1
      (fun x hx => hall x (List.mem_cons_of_mem c hx))
    refine ⟨q2, StepsTo_trans (StepsTo_char_none p q1 c hstep) hrun, ?_⟩
    rw [show b ++ (c :: cs) = (b ++ [c]) ++ cs by simp]
    exact hs2

theorem run_cdata_pattern (p : Parser) (nss : List Scope)
    (ats : List (Str × Option Str × Str))
    (hs : Shape p .InCDATAOpening [] nss ats 0) :
    ∃ q, StepsTo p cdataPattern [] q ∧ Shape q .InCDATA [] nss ats 0 := by
  obtain ⟨q1, h1, hs1⟩ := char_cdata_open_step p nss ats 0 (by decide) hs
  obtain ⟨q2, h2, hs2⟩ := char_cdata_open_step q1 nss ats 1 (by decide) hs1
  obtain ⟨q3, h3, hs3⟩ := char_cdata_open_step q2 nss ats 2 (by decide) hs2
  obtain ⟨q4, h4, hs4⟩ := char_cdata_open_step q3 nss ats 3 (by decide) hs3
  obtain ⟨q5, h5, hs5⟩ := char_cdata_open_step q4 nss ats 4 (by decide) hs4
  obtain ⟨q6, h6, hs6⟩ := char_cdata_open_fin q5 nss ats hs5
  refine ⟨q6, ?_, hs6⟩
  have c1 := StepsTo_char_none p q1 _ h1
  have c2 := StepsTo_char_none q1 q2 _ h2
  have c3 := StepsTo_char_none q2 q3 _ h3
  have c4 := StepsTo_char_none q3 q4 _ h4
  have c5 := StepsTo_char_none q4 q5 _ h5
  have c6 := StepsTo_char_none q5 q6 _ h6
  exact StepsTo_trans c1 (StepsTo_trans c2 (StepsTo_trans c3
    (StepsTo_trans c4 (StepsTo_trans c5 c6))))

theorem StepsTo_congr {p q : Parser} {seg1 seg2 : Str}
    {evs1 evs2 : List Event} (h : StepsTo p seg1 evs1 q)
    (hseg : seg1 = seg2) (hevs : evs1 = evs2) : StepsTo p seg2 evs2 q := by
  rw [← hseg, ← hevs]
  exact h

theorem run_closetagname_buffer (s : Str) : ∀ (p : Parser) (b : Str)
    (nss : List Scope) (ats : List (Str × Option Str × Str)) (lv : Nat),
    Shape p .InCloseTagName b nss ats lv →
    (∀ c ∈ s, c ≠ '>' ∧ isWS c = false) →
    ∃ q, StepsTo p s [] q ∧ Shape q .InCloseTagName (b ++ s) nss ats lv := by
  induction s with
  | nil =>
    intro p b nss ats lv hs _
    exact ⟨p, StepsTo_nil p, by rw [List.append_nil]; exact hs⟩
  | cons c cs ih =>
    intro p b nss ats lv hs hall
    have hc := hall c (List.mem_cons_self c cs)
    obtain ⟨q1, hstep, hs1⟩ := char_closetagname_buffer p c b nss ats lv hs
      hc.1 hc.2
    obtain ⟨q2, hrun, hs2⟩ := ih q1 (b ++ [c]) nss ats lv hs1
      (fun x hx => hall x (List.mem_cons_of_mem c hx))
    refine ⟨q2, StepsTo_trans (StepsTo_char_none p q1 c hstep) hrun, ?_⟩
    rw [show b ++ (c :: cs) = (b ++ [c]) ++ cs by simp]
    exact hs2

/-! ### Node segments -/

theorem escapeChar_ne_nil (c : Char) : escapeChar c ≠ [] := by
  rw [escapeChar]
  split_ifs <;> simp

theorem escape_ne_nil (s : Str) (h : s ≠ []) : escape s ≠ [] := by
  cases s with
  | nil => exact absurd rfl h
  | cons c cs =>
    rw [escape]
    intro h0
    exact escapeChar_ne_nil c (List.append_eq_nil.1 h0).1

theorem seg_open (p : Parser) (pend : Option Str) (nss : List Scope)
    (ats : List (Str × Option Str × Str)) (lv : Nat)
    (hs : Shape p .OutsideTag (pendBuf pend) nss ats lv)
    (hne : pendNE pend) :
    ∃ q, StepsTo p ['<'] (flushEv pend) q ∧
      Shape q .TagOpened [] nss ats lv := by
  cases pend with
  | none =>
    obtain ⟨q, hstep, hq⟩ := char_open_clean p nss ats lv hs
    exact ⟨q, StepsTo_char_none p q '<' hstep, hq⟩
  | some sflush =>
    obtain ⟨q, hstep, hq⟩ := char_open_flush p (escape sflush) sflush nss ats
      lv hs (escape_ne_nil sflush hne) (unescape_owned_escape sflush)
    exact ⟨q, StepsTo_char_some p q '<' _ hstep, hq⟩

theorem seg_pi (d : Str) (pend : Option Str) (p : Parser) (nss : List Scope)
    (ats : List (Str × Option Str × Str))
    (hd : ∀ c ∈ d, c ≠ '?' ∧ c ≠ '>')
    (hs : Shape p .OutsideTag (pendBuf pend) nss ats 0) (hne : pendNE pend) :
    ∃ q, StepsTo p ('<' :: '?' :: d ++ ['?', '>'])
        (flushEv pend ++ [.PI d]) q ∧
      Shape q .OutsideTag [] nss ats 0 := by
  obtain ⟨q1, h1, hs1⟩ := seg_open p pend nss ats 0 hs hne
  obtain ⟨q2, h2, hs2⟩ := char_tag_opened_pi q1 nss ats 0 hs1
  obtain ⟨q3, h3, hs3⟩ := run_pi_buffer d q2 [] nss ats 0 hs2 hd
  rw [List.nil_append] at hs3
  obtain ⟨q4, h4, hs4⟩ := char_pi_mark q3 d nss ats 0 hs3
  obtain ⟨q5, h5, hs5⟩ := char_pi_emit q4 (d ++ ['?']) nss ats hs4
  rw [List.dropLast_concat] at h5
  refine ⟨q5, ?_, hs5⟩
  exact StepsTo_congr
    (StepsTo_trans h1 (StepsTo_trans (StepsTo_char_none _ _ _ h2)
      (StepsTo_trans h3 (StepsTo_trans (StepsTo_char_none _ _ _ h4)
        (StepsTo_char_some _ _ _ _ h5)))))
    (by simp) (by simp)

theorem seg_comment (d : Str) (pend : Option Str) (p : Parser)
    (nss : List Scope) (ats : List (Str × Option Str × Str))
    (hd : ∀ c ∈ d, c ≠ '-')
    (hs : Shape p .OutsideTag (pendBuf pend) nss ats 0) (hne : pendNE pend) :
    ∃ q, StepsTo p ('<' :: '!' :: '-' :: '-' :: d ++ ['-', '-', '>'])
        (flushEv pend ++ [.Comment d]) q ∧
      Shape q .OutsideTag [] nss ats 0 := by
  obtain ⟨q1, h1, hs1⟩ := seg_open p pend nss ats 0 hs hne
  obtain ⟨q2, h2, hs2⟩ := char_tag_opened_excl q1 nss ats 0 hs1
  obtain ⟨q3, h3, hs3⟩ := char_excl_comment q2 nss ats 0 hs2
  obtain ⟨q4, h4, hs4⟩ := char_comment_opening q3 nss ats 0 hs3
  obtain ⟨q5, h5, hs5⟩ := run_comment_buffer d q4 [] nss ats hs4 hd
  rw [List.nil_append] at hs5
  obtain ⟨q6, h6, hs6⟩ := char_comment_dash1 q5 d nss ats hs5
  obtain ⟨q7, h7, hs7⟩ := char_comment_dash2 q6 (d ++ ['-']) nss ats hs6
  obtain ⟨q8, h8, hs8⟩ := char_comment_emit q7 ((d ++ ['-']) ++ ['-']) nss
    ats 0 hs7
  rw [List.dropLast_concat, List.dropLast_concat] at h8
  refine ⟨q8, ?_, hs8⟩
  exact StepsTo_congr
    (StepsTo_trans h1 (StepsTo_trans (StepsTo_char_none _ _ _ h2)
      (StepsTo_trans (StepsTo_char_none _ _ _ h3)
        (StepsTo_trans (StepsTo_char_none _ _ _ h4)
          (StepsTo_trans h5 (StepsTo_trans (StepsTo_char_none _ _ _ h6)
            (StepsTo_trans (StepsTo_char_none _ _ _ h7)
              (StepsTo_char_some _ _ _ _ h8))))))))
    (by simp) (by simp)

theorem seg_cdata (d : Str) (pend : Option Str) (p : Parser)
    (nss : List Scope) (ats : List (Str × Option Str × Str))
    (hd : ∀ c ∈ d, c ≠ ']')
    (hs : Shape p .OutsideTag (pendBuf pend) nss ats 0) (hne : pendNE pend) :
    ∃ q, StepsTo p ('<' :: '!' :: '[' :: cdataPattern ++ d ++ [']', ']', '>'])
        (flushEv pend ++ [.CDATA d]) q ∧
      Shape q .OutsideTag [] nss ats 0 := by
  obtain ⟨q1, h1, hs1⟩ := seg_open p pend nss ats 0 hs hne
  obtain ⟨q2, h2, hs2⟩ := char_tag_opened_excl q1 nss ats 0 hs1
  obtain ⟨q3, h3, hs3⟩ := char_excl_cdata q2 nss ats 0 hs2
  obtain ⟨q4, h4, hs4⟩ := run_cdata_pattern q3 nss ats hs3
  obtain ⟨q5, h5, hs5⟩ := run_cdata_buffer d q4 [] nss ats hs4 hd
  rw [List.nil_append] at hs5
  obtain ⟨q6, h6, hs6⟩ := char_cdata_bracket q5 d nss ats 0 hs5
  obtain ⟨q7, h7, hs7⟩ := char_cdata_bracket q6 (d ++ [']']) nss ats 1 hs6
  obtain ⟨q8, h8, hs8⟩ := char_cdata_emit q7 ((d ++ [']']) ++ [']']) nss ats
    2 (by omega) hs7
  rw [List.dropLast_concat, List.dropLast_concat] at h8
  refine ⟨q8, ?_, hs8⟩
  exact StepsTo_congr
    (StepsTo_trans h1 (StepsTo_trans (StepsTo_char_none _ _ _ h2)
      (StepsTo_trans (StepsTo_char_none _ _ _ h3)
        (StepsTo_trans h4 (StepsTo_trans h5
          (StepsTo_trans (StepsTo_char_none _ _ _ h6)
            (StepsTo_trans (StepsTo_char_none _ _ _ h7)
              (StepsTo_char_some _ _ _ _ h8))))))))
    (by simp) (by simp)

theorem seg_close (name : Str) (pend : Option Str) (ns : Option Str)
    (p : Parser) (sc : Scope) (rest : List Scope)
    (ats : List (Str × Option Str × Str))
    (hname : safeName name = true)
    (hres : resolveTagNS (sc :: rest) none = some ns)
    (hs : Shape p .OutsideTag (pendBuf pend) (sc :: rest) ats 0)
    (hne : pendNE pend) :
    ∃ q, StepsTo p ('<' :: '/' :: name ++ ['>'])
        (flushEv pend ++ [.ElementEnd ⟨name, ns, none⟩]) q ∧
      Shape q .OutsideTag [] rest ats 0 := by
  have hsafe : ∀ c ∈ name, safeChar c = true := by
    rw [safeName, Bool.and_eq_true] at hname
    exact fun c hc => by
      have := hname.2
      rw [List.all_eq_true] at this
      exact this c hc
  obtain ⟨q1, h1, hs1⟩ := seg_open p pend (sc :: rest) ats 0 hs hne
  obtain ⟨q2, h2, hs2⟩ := char_tag_opened_close q1 (sc :: rest) ats 0 hs1
  obtain ⟨q3, h3, hs3⟩ := by
    refine run_closetagname_buffer name q2 [] (sc :: rest) ats 0 hs2 ?_
    intro c hc
    have hsp := safeChar_spec c (hsafe c hc)
    exact ⟨hsp.2.1, hsp.2.2.2.2.2.2.2.2.2.2⟩
  rw [List.nil_append] at hs3
  obtain ⟨q4, h4, hs4⟩ := char_closetagname_gt q3 name none name ns sc rest
    ats 0 hs3
    (parse_qname_no_colon name
      (fun c hc => (safeChar_spec c (hsafe c hc)).2.2.2.2.1))
    hres
  refine ⟨q4, ?_, hs4⟩
  exact StepsTo_congr
    (StepsTo_trans h1 (StepsTo_trans (StepsTo_char_none _ _ _ h2)
      (StepsTo_trans h3 (StepsTo_char_some _ _ _ _ h4))))
    (by simp) (by simp)

/-! ### Attribute segments -/

theorem safeName_spec (n : Str) (h : safeName n = true) :
    n ≠ [] ∧ ∀ c ∈ n, safeChar c = true := by
  rw [safeName, Bool.and_eq_true] at h
  refine ⟨by simpa using h.1, ?_⟩
  have := h.2
  rw [List.all_eq_true] at this
  exact fun c hc => this c hc

theorem safeName_qname (n : Str) (h : safeName n = true) :
    parse_qname n = (none, n) :=
  parse_qname_no_colon n
    (fun c hc => (safeChar_spec c ((safeName_spec n h).2 c hc)).2.2.2.2.1)

theorem fmt_attrs_eq (all : Scope) (attrs : AttrMap)
    (h : ∀ x ∈ attrs, x.1.2 = none) :
    fmt_attrs all attrs = some (attrsText attrs) := by
  induction attrs with
  | nil => rfl
  | cons a rest ih =>
    obtain ⟨⟨nm, ns0⟩, v⟩ := a
    have hns : ns0 = none := h _ (List.mem_cons_self _ _)
    subst hns
    rw [fmt_attrs]
    rw [ih (fun x hx => h x (List.mem_cons_of_mem _ hx))]
    rfl

theorem seg_attr_body (nm v : Str) (p : Parser) (sc : Scope)
    (rest : List Scope) (ats : List (Str × Option Str × Str))
    (hname : safeName nm = true)
    (hs : Shape p .InTag [] (sc :: rest) ats 0) :
    ∃ q, StepsTo p (nm ++ '=' :: '\'' :: escape v ++ ['\'']) [] q ∧
      Shape q .InTag []
        ((if nm = xmlnsPrefixStr then scopeInsert sc [] v else sc) :: rest)
        (ats ++ [(nm, none, v)]) 0 ∧
      q.name = p.name := by
  obtain ⟨hne, hsafe⟩ := safeName_spec nm hname
  obtain ⟨c0, tail, rfl⟩ : ∃ c0 tail, nm = c0 :: tail := by
    cases nm with
    | nil => exact absurd rfl hne
    | cons c0 tail => exact ⟨c0, tail, rfl⟩
  have hc0 := safeChar_spec c0 (hsafe c0 (List.mem_cons_self _ _))
  obtain ⟨q1, h1, hs1, hn1⟩ := char_intag_attrstart p c0 (sc :: rest) ats 0
    hs hc0.2.2.1 hc0.2.1 hc0.2.2.2.2.2.2.2.2.2.2
  obtain ⟨q2, h2, hs2, hn2⟩ := run_attrname_buffer tail q1 [c0] (sc :: rest)
    ats hs1 (fun c hc =>
      have hcc := safeChar_spec c (hsafe c (List.mem_cons_of_mem _ hc))
      ⟨hcc.2.2.2.1, hcc.2.2.2.2.2.2.2.2.2.2⟩)
  obtain ⟨q3, h3, hs3, hn3, ha3⟩ := char_attrname_eq q2 ([c0] ++ tail)
    (sc :: rest) ats 0 hs2
  obtain ⟨q4, h4, hs4, hn4, ha4, hd4⟩ := char_delim_quote q3 (sc :: rest)
    ats 0 hs3
  obtain ⟨q5, h5, hs5, hn5, ha5, hd5⟩ := run_attrvalue_buffer (escape v) q4
    [] (sc :: rest) ats 0 hs4 hd4
    (fun c hc h0 => (escape_not_mem v '\'' escapeChar_not_quote) (h0 ▸ hc))
  rw [List.nil_append] at hs5
  have hattr5 : q5.attr = some (none, c0 :: tail) := by
    rw [ha5, ha4, ha3]
    rw [show ([c0] ++ tail : Str) = c0 :: tail from rfl]
    rw [safeName_qname _ hname]
  have hdel5 : q5.delim = some '\'' := by rw [hd5, hd4]
  obtain ⟨q6, h6, hs6, hn6⟩ := char_attrvalue_close q5 (escape v) (c0 :: tail)
    v sc rest ats 0 hs5 hdel5 hattr5 (unescape_owned_escape v)
  refine ⟨q6, ?_, hs6, by rw [hn6, hn5, hn4, hn3, hn2, hn1]⟩
  exact StepsTo_congr
    (StepsTo_trans (StepsTo_char_none _ _ _ h1) (StepsTo_trans h2
      (StepsTo_trans (StepsTo_char_none _ _ _ h3)
        (StepsTo_trans (StepsTo_char_none _ _ _ h4)
          (StepsTo_trans h5 (StepsTo_char_none _ _ _ h6))))))
    (by simp) (by simp)

theorem seg_attrs_tail (attrs : AttrMap) : ∀ (p : Parser) (sc : Scope)
    (rest : List Scope) (ats : List (Str × Option Str × Str)),
    (∀ x ∈ attrs, x.1.2 = none ∧ safeName x.1.1 = true) →
    Shape p .InTag [] (sc :: rest) ats 0 →
    ∃ q, StepsTo p (attrsText attrs) [] q ∧
      Shape q .InTag [] (scopeAfterAttrs sc attrs :: rest)
        (ats ++ rawAttrs attrs) 0 ∧ q.name = p.name := by
  induction attrs with
  | nil =>
    intro p sc rest ats _ hs
    refine ⟨p, StepsTo_nil p, ?_, rfl⟩
    rw [show scopeAfterAttrs sc [] = sc from rfl,
      show rawAttrs [] = [] from rfl, List.append_nil]
    exact hs
  | cons a arest ih =>
    intro p sc rest ats hall hs
    obtain ⟨⟨nm, ns0⟩, v⟩ := a
    have ha := hall _ (List.mem_cons_self _ _)
    obtain ⟨q1, h1, hs1, hn1⟩ := char_intag_ws p ' ' [] (sc :: rest) ats 0 hs
      (by decide) (by decide) (by decide)
    obtain ⟨q2, h2, hs2, hn2⟩ := seg_attr_body nm v q1 sc rest ats ha.2 hs1
    obtain ⟨q3, h3, hs3, hn3⟩ := ih q2
      (if nm = xmlnsPrefixStr then scopeInsert sc [] v else sc) rest
      (ats ++ [(nm, none, v)])
      (fun x hx => hall x (List.mem_cons_of_mem _ hx)) hs2
    refine ⟨q3, ?_, ?_, by rw [hn3, hn2, hn1]⟩
    · refine StepsTo_congr
        (StepsTo_trans (StepsTo_char_none _ _ _ h1)
          (StepsTo_trans h2 h3)) ?_ (by simp)
      rw [attrsText, attrText]
      simp
    · refine ⟨hs3.1, hs3.2.1, hs3.2.2.1, hs3.2.2.2.1, ?_, ?_⟩
      · rw [hs3.2.2.2.2.1]
        rfl
      · rw [hs3.2.2.2.2.2]
        simp [rawAttrs]

/-! ### Scope and attribute-map resolution facts -/

theorem scopeAfterAttrs_no_xmlns (attrs : AttrMap) : ∀ (sc : Scope),
    (∀ x ∈ attrs, x.1.1 ≠ xmlnsPrefixStr) →
    scopeAfterAttrs sc attrs = sc := by
  induction attrs with
  | nil => intro sc _; rfl
  | cons a rest ih =>
    intro sc h
    obtain ⟨⟨nm, ns0⟩, v⟩ := a
    rw [scopeAfterAttrs,
      if_neg (h ((nm, ns0), v) (List.mem_cons_self _ _))]
    exact ih sc (fun x hx => h x (List.mem_cons_of_mem _ hx))

theorem scopeAfterAttrs_found (v : Str) : ∀ (attrs : AttrMap) (sc : Scope),
    (∀ x ∈ attrs, x.1.2 = none) →
    (attrs.map (fun x => x.1.1)).Nodup →
    attrGet attrs (xmlnsPrefixStr, none) = some v →
    scopeGet (scopeAfterAttrs sc attrs) [] = some v := by
  intro attrs
  induction attrs with
  | nil => intro sc _ _ hget; exact Option.noConfusion hget
  | cons a rest ih =>
    intro sc hall hnodup hget
    obtain ⟨⟨nm, ns0⟩, v'⟩ := a
    have hns : ns0 = none := hall _ (List.mem_cons_self _ _)
    subst hns
    by_cases hx : nm = xmlnsPrefixStr
    · subst hx
      rw [attrGet, if_pos rfl] at hget
      injection hget with hv
      rw [scopeAfterAttrs, if_pos rfl]
      have hrest : ∀ x ∈ rest, x.1.1 ≠ xmlnsPrefixStr := by
        rw [List.map_cons, List.nodup_cons] at hnodup
        intro x hxm hxeq
        exact hnodup.1 (hxeq ▸ List.mem_map_of_mem (fun y => y.1.1) hxm)
      rw [scopeAfterAttrs_no_xmlns rest (scopeInsert sc [] v') hrest]
      simp [scopeInsert, scopeGet, hv]
    · rw [attrGet, if_neg (by simp [hx])] at hget
      rw [scopeAfterAttrs, if_neg hx]
      refine ih sc (fun x hxm => hall x (List.mem_cons_of_mem _ hxm)) ?_ hget
      rw [List.map_cons, List.nodup_cons] at hnodup
      exact hnodup.2

theorem elem_scope_resolves (attrs : AttrMap) (nss : List Scope)
    (pdns dns : Option Str)
    (hres : resolveTagNS nss none = some pdns)
    (hall : ∀ x ∈ attrs, x.1.2 = none)
    (hnodup : (attrs.map (fun x => x.1.1)).Nodup)
    (hwx : wfXmlns pdns attrs dns = true) :
    resolveTagNS (scopeAfterAttrs [] attrs :: nss) none = some dns := by
  have hlk : namespace_lookup nss [] = pdns := by
    rw [resolveTagNS_default] at hres
    injection hres
  rw [wfXmlns] at hwx
  cases hget : attrGet attrs (xmlnsPrefixStr, none) with
  | none =>
    rw [hget] at hwx
    have hdns : dns = pdns := by simpa using hwx
    subst hdns
    have hno : ∀ x ∈ attrs, x.1.1 ≠ xmlnsPrefixStr := by
      intro x hx hxeq
      have hxkey : x.1 = (xmlnsPrefixStr, none) := by
        have h2 := hall x hx
        cases hk : x.1 with
        | mk a b =>
          rw [hk] at hxeq h2
          simp at hxeq h2
          rw [hxeq, h2]
      exact ((attrGet_eq_none_iff attrs _).1 hget)
        (hxkey ▸ List.mem_map_of_mem Prod.fst hx)
    rw [scopeAfterAttrs_no_xmlns attrs [] hno]
    rw [resolveTagNS_default, namespace_lookup]
    rw [show scopeGet [] [] = none from rfl, hlk]
  | some v =>
    rw [hget] at hwx
    have hdns : dns = if v = [] then none else some v := by simpa using hwx
    subst hdns
    have hfound := scopeAfterAttrs_found v attrs [] hall hnodup hget
    rw [resolveTagNS_default, namespace_lookup, hfound]

theorem resolveAttrs_raw (nss : List Scope) : ∀ (attrs acc : AttrMap),
    (∀ x ∈ attrs, x.1.2 = none) →
    ((acc ++ attrs).map (fun x => x.1)).Nodup →
    resolveAttrs nss (rawAttrs attrs) acc = .ok (acc ++ attrs) := by
  intro attrs
  induction attrs with
  | nil =>
    intro acc _ _
    rw [show rawAttrs [] = [] from rfl, resolveAttrs, List.append_nil]
  | cons x rest ih =>
    intro acc hall hnodup
    obtain ⟨⟨nm, ns0⟩, v⟩ := x
    have hns : ns0 = none := hall _ (List.mem_cons_self _ _)
    subst hns
    rw [show rawAttrs (((nm, none), v) :: rest) =
      (nm, none, v) :: rawAttrs rest from rfl]
    rw [resolveAttrs]
    rw [show resolveAttrNS nss none = some none from rfl]
    have hkey : attrGet acc (nm, none) = none := by
      rw [attrGet_eq_none_iff]
      rw [List.map_append, List.nodup_append] at hnodup
      intro hmem
      exact hnodup.2.2 hmem
        (List.mem_map_of_mem Prod.fst (List.mem_cons_self _ _))
    split
    · rename_i heq
      exact Option.noConfusion heq
    · rename_i ns1 heq
      injection heq with h2
      subst h2
      rw [hkey]
      rw [if_neg (by simp)]
      rw [ih (acc ++ [((nm, none), v)])
        (fun y hy => hall y (List.mem_cons_of_mem _ hy))
        (by rw [show (acc ++ [((nm, none), v)]) ++ rest =
          acc ++ ((nm, none), v) :: rest by simp]; exact hnodup)]
      rw [show (acc ++ [((nm, none), v)]) ++ rest =
        acc ++ ((nm, none), v) :: rest by simp]

/-! ### Rendering a well-formed element -/

theorem any_xmlns_attrGet (attrs : AttrMap)
    (hall : ∀ x ∈ attrs, x.1.2 = none)
    (hany : attrs.any (fun a => a.1.1 = xmlnsPrefixStr) = false) :
    attrGet attrs (xmlnsPrefixStr, none) = none := by
  rw [attrGet_eq_none_iff]
  intro hmem
  obtain ⟨x, hx, hkey⟩ := List.mem_map.1 hmem
  rw [List.any_eq_false] at hany
  refine hany x hx ?_
  have : x.1.1 = xmlnsPrefixStr := by rw [hkey]
  simpa using this

theorem keys_nodup (attrs : AttrMap)
    (hnames : (attrs.map (fun x => x.1.1)).Nodup) :
    (attrs.map (fun x => x.1)).Nodup := by
  have hmm : attrs.map (fun x => x.1.1) =
      (attrs.map (fun x => x.1)).map Prod.fst := by
    rw [List.map_map]
    rfl
  rw [hmm] at hnames
  exact hnames.of_map

theorem fmt_elem_wf_nil (parentE : Option Element) (aps : Scope) (name : Str)
    (attrs : AttrMap) (prefs : Scope) (dns : Option Str)
    (hall : ∀ x ∈ attrs, x.1.2 = none)
    (hdecl : attrs.any (fun a => a.1.1 = xmlnsPrefixStr) = false →
      parentDefault parentE = dns) :
    fmt_elem parentE aps (.mk name dns attrs [] prefs dns) =
      some ('<' :: name ++ (attrsText attrs ++ "/>".toList)) := by
  rw [fmt_elem.eq_def]
  dsimp only
  rw [if_neg (fun h => h rfl)]
  rw [fmt_attrs_eq (prefs ++ aps) attrs hall]
  dsimp only
  rw [if_pos (show ([] : List Xml).isEmpty = true from rfl)]
  by_cases hany : attrs.any (fun a => a.1.1 = xmlnsPrefixStr) = true
  · rw [if_pos hany]
    simp
  · have hany' : attrs.any (fun a => a.1.1 = xmlnsPrefixStr) = false := by
      cases h0 : attrs.any (fun a => a.1.1 = xmlnsPrefixStr)
      · rfl
      · exact absurd h0 hany
    rw [if_neg hany]
    have hpd := hdecl hany'
    cases parentE with
    | none =>
      rw [parentDefault] at hpd
      rw [← hpd]
      simp
    | some par =>
      rw [parentDefault] at hpd
      simp [hpd]

theorem fmt_elem_wf_cons (parentE : Option Element) (aps : Scope)
    (name : Str) (attrs : AttrMap) (c0 : Xml) (crest : List Xml)
    (prefs : Scope) (dns : Option Str) (body : Str)
    (hall : ∀ x ∈ attrs, x.1.2 = none)
    (hdecl : attrs.any (fun a => a.1.1 = xmlnsPrefixStr) = false →
      parentDefault parentE = dns)
    (hbody : fmt_children (.mk name dns attrs (c0 :: crest) prefs dns)
      (prefs ++ aps) (c0 :: crest) = some body) :
    fmt_elem parentE aps (.mk name dns attrs (c0 :: crest) prefs dns) =
      some ('<' :: name ++ (attrsText attrs ++
        ('>' :: body ++ ("</".toList ++ name ++ ['>'])))) := by
  rw [fmt_elem.eq_def]
  dsimp only
  rw [if_neg (fun h => h rfl)]
  rw [fmt_attrs_eq (prefs ++ aps) attrs hall]
  dsimp only
  rw [if_neg (by simp : ¬((c0 :: crest).isEmpty = true))]
  rw [hbody]
  dsimp only
  rw [if_neg (fun h => h rfl)]
  by_cases hany : attrs.any (fun a => a.1.1 = xmlnsPrefixStr) = true
  · rw [if_pos hany]
    simp
  · have hany' : attrs.any (fun a => a.1.1 = xmlnsPrefixStr) = false := by
      cases h0 : attrs.any (fun a => a.1.1 = xmlnsPrefixStr)
      · rfl
      · exact absurd h0 hany
    rw [if_neg hany]
    have hpd := hdecl hany'
    cases parentE with
    | none =>
      rw [parentDefault] at hpd
      rw [← hpd]
      simp
    | some par =>
      rw [parentDefault] at hpd
      simp [hpd]

/-! ### The full element run -/

theorem fmt_children_cons (parent : Element) (all : Scope) (x : Xml)
    (xs : List Xml) (a b : Str) (hx : fmt_xml parent all x = some a)
    (hxs : fmt_children parent all xs = some b) :
    fmt_children parent all (x :: xs) = some (a ++ b) := by
  rw [fmt_children, hx, hxs]

theorem wfChildren_cons (dns : Option Str) (x : Xml) (rest : List Xml)
    (h : wfChildren dns (x :: rest) = true) :
    wfNode dns x = true ∧ wfChildren dns rest = true ∧
      (∀ s0, x = .CharacterNode s0 →
        ∀ s1 r1, rest ≠ .CharacterNode s1 :: r1) := by
  cases rest with
  | nil =>
    rw [wfChildren] at h
    exact ⟨h, rfl, fun s0 _ s1 r1 hr => List.noConfusion hr⟩
  | cons y r =>
    rw [wfChildren, Bool.and_eq_true, Bool.and_eq_true] at h
    refine ⟨h.1.1, h.2, ?_⟩
    rintro s0 rfl s1 r1 hr
    injection hr with h1 h2
    subst h1
    exact Bool.noConfusion h.1.2

mutual

theorem run_elem (t : Element) (parentE : Option Element) (aps : Scope)
    (pdns : Option Str) (p : Parser) (nss : List Scope) (pend : Option Str)
    (hwf : wfElem pdns t = true) (hpar : parentDefault parentE = pdns)
    (hs : Shape p .OutsideTag (pendBuf pend) nss [] 0) (hne : pendNE pend)
    (hres : resolveTagNS nss none = some pdns) :
    ∃ txt q, fmt_elem parentE aps t = some txt ∧
      StepsTo p txt (flushEv pend ++ elemEvents t) q ∧
      Shape q .OutsideTag [] nss [] 0 := by
  obtain ⟨name, ns, attrs, children, prefs, dns⟩ := t
  rw [wfElem] at hwf
  simp only [Bool.and_eq_true, decide_eq_true_eq] at hwf
  obtain ⟨⟨⟨⟨⟨hname, hns⟩, hprefs⟩, hwa⟩, hwx⟩, hch⟩ := hwf
  subst ns
  have hallpairs : ∀ x ∈ attrs, x.1.2 = none ∧ safeName x.1.1 = true := by
    rw [wfAttrList, Bool.and_eq_true] at hwa
    have h1 := hwa.1
    rw [List.all_eq_true] at h1
    intro x hx
    have h2 := h1 x hx
    rw [Bool.and_eq_true] at h2
    exact ⟨by simpa using h2.1, h2.2⟩
  have hallns : ∀ x ∈ attrs, x.1.2 = none := fun x hx => (hallpairs x hx).1
  have hnames : (attrs.map (fun x => x.1.1)).Nodup := by
    rw [wfAttrList, Bool.and_eq_true] at hwa
    simpa using hwa.2
  have hdecl : attrs.any (fun a => a.1.1 = xmlnsPrefixStr) = false →
      parentDefault parentE = dns := by
    intro hany
    have hget := any_xmlns_attrGet attrs hallns hany
    rw [wfXmlns, hget] at hwx
    have hdp : dns = pdns := by simpa using hwx
    rw [hpar, hdp]
  have hscres : resolveTagNS (scopeAfterAttrs [] attrs :: nss) none =
      some dns := elem_scope_resolves attrs nss pdns dns hres hallns
    hnames hwx
  have hqname : parse_qname name = (none, name) := safeName_qname name hname
  obtain ⟨hnNE, hnsafe⟩ := safeName_spec name hname
  obtain ⟨c0, ntail, rfl⟩ : ∃ c0 t0, name = c0 :: t0 := by
    cases name with
    | nil => exact absurd rfl hnNE
    | cons c0 t0 => exact ⟨c0, t0, rfl⟩
  obtain ⟨q1, h1, hs1⟩ := seg_open p pend nss [] 0 hs hne
  have hc0 := safeChar_spec c0 (hnsafe c0 (List.mem_cons_self _ _))
  obtain ⟨q2, h2, hs2⟩ := char_tag_opened_name q1 c0 nss [] 0 hs1
    hc0.2.2.2.2.2.2.2.2.1 hc0.2.2.2.2.2.2.2.2.2.1 hc0.2.2.1
  obtain ⟨q3, h3, hs3⟩ := run_tagname_buffer ntail q2 [c0] nss [] 0 hs2
    (fun c hc =>
      have hcc := safeChar_spec c (hnsafe c (List.mem_cons_of_mem _ hc))
      ⟨hcc.2.2.1, hcc.2.1, hcc.2.2.2.2.2.2.2.2.2.2⟩)
  cases attrs with
  | nil =>
    have hdnseq : dns = pdns := by
      rw [wfXmlns] at hwx
      rw [show attrGet [] (xmlnsPrefixStr, none) = none from rfl] at hwx
      simpa using hwx
    have hresdns : resolveTagNS nss none = some dns := by
      rw [hdnseq]; exact hres
    cases children with
    | nil =>
      obtain ⟨q4, h4, hs4, hn4⟩ := char_tagname_slash q3 ([c0] ++ ntail)
        none (c0 :: ntail) dns nss [] 0 hs3 hqname hresdns
      obtain ⟨q5, h5, hs5, hn5⟩ := char_expectclose_gt q4 none (c0 :: ntail)
        dns [] nss [] [] 0 hs4 hn4 hresdns
      refine ⟨'<' :: (c0 :: ntail) ++ (attrsText [] ++ "/>".toList), q5,
        ?_, ?_, hs5⟩
      · exact fmt_elem_wf_nil parentE aps (c0 :: ntail) [] prefs dns
          (by intro x hx; cases hx) hdecl
      · refine StepsTo_congr
          (StepsTo_trans h1 (StepsTo_trans (StepsTo_char_none _ _ _ h2)
            (StepsTo_trans h3 (StepsTo_trans (StepsTo_char_some _ _ _ _ h4)
              (StepsTo_char_some _ _ _ _ h5))))) ?_ ?_
        · rw [show "/>".toList = ['/', '>'] from rfl,
            show attrsText [] = [] from rfl]
          simp
        · rw [elemEvents]
          simp [childEvents, flushEv]
    | cons ch0 chrest =>
      obtain ⟨q4, h4, hs4⟩ := char_tagname_gt q3 ([c0] ++ ntail) none
        (c0 :: ntail) dns nss [] 0 hs3 hqname hresdns
      obtain ⟨body, q5, hbody, h5, hs5, hne5⟩ := run_children (ch0 :: chrest)
        (.mk (c0 :: ntail) dns [] (ch0 :: chrest) prefs dns)
        (prefs ++ aps) dns q4 ([] :: nss) none hch
        (fun s0 hs0 => Option.noConfusion hs0) rfl hs4 trivial hresdns
      obtain ⟨q6, h6, hs6⟩ := seg_close (c0 :: ntail)
        (childEvents none (ch0 :: chrest)).2 dns q5 [] nss [] hname
        hresdns hs5 hne5
      refine ⟨'<' :: (c0 :: ntail) ++ (attrsText [] ++
        ('>' :: body ++ ("</".toList ++ (c0 :: ntail) ++ ['>']))), q6,
        ?_, ?_, hs6⟩
      · exact fmt_elem_wf_cons parentE aps (c0 :: ntail) [] ch0 chrest
          prefs dns body hallns hdecl hbody
      · refine StepsTo_congr
          (StepsTo_trans h1 (StepsTo_trans (StepsTo_char_none _ _ _ h2)
            (StepsTo_trans h3 (StepsTo_trans (StepsTo_char_some _ _ _ _ h4)
              (StepsTo_trans h5 h6))))) ?_ ?_
        · rw [show attrsText [] = [] from rfl,
            show "</".toList = ['<', '/'] from rfl]
          simp
        · rw [elemEvents]
          simp
  | cons a0 arest =>
    obtain ⟨⟨nm0, ns00⟩, v0⟩ := a0
    have hmem0 : ((nm0, ns00), v0) ∈ ((nm0, ns00), v0) :: arest :=
      List.mem_cons_self _ _
    have hns00 : ns00 = none := by simpa using hallns _ hmem0
    subst hns00
    have hmemtail : ∀ x ∈ arest, x ∈ ((nm0, none), v0) :: arest :=
      fun x hx => List.mem_cons_of_mem _ hx
    obtain ⟨q4, h4, hs4, hn4⟩ := char_tagname_ws q3 ' ' ([c0] ++ ntail) nss
      [] 0 hs3 (by decide) (by decide) (by decide)
    have hn4' : q4.name = some (none, c0 :: ntail) := by
      rw [hn4]
      rw [show parse_qname ([c0] ++ ntail) = parse_qname (c0 :: ntail)
        from rfl, hqname]
    obtain ⟨q5, h5, hs5, hn5⟩ := seg_attr_body nm0 v0 q4 [] nss []
      (by simpa using (hallpairs _ hmem0).2) hs4
    obtain ⟨q6, h6, hs6, hn6⟩ := seg_attrs_tail arest q5
      (if nm0 = xmlnsPrefixStr then scopeInsert [] [] v0 else []) nss
      ([] ++ [(nm0, none, v0)])
      (fun x hx => hallpairs x (hmemtail x hx)) hs5
    have hs6' : Shape q6 .InTag []
        (scopeAfterAttrs [] (((nm0, none), v0) :: arest) :: nss)
        (rawAttrs (((nm0, none), v0) :: arest)) 0 := by
      refine ⟨hs6.1, hs6.2.1, hs6.2.2.1, hs6.2.2.2.1, ?_, ?_⟩
      · rw [hs6.2.2.2.2.1]
        rfl
      · rw [hs6.2.2.2.2.2]
        simp [rawAttrs]
    have hn6' : q6.name = some (none, c0 :: ntail) := by
      rw [hn6, hn5, hn4']
    have hra : resolveAttrs
        (scopeAfterAttrs [] (((nm0, none), v0) :: arest) :: nss)
        (rawAttrs (((nm0, none), v0) :: arest)) [] =
        .ok (((nm0, none), v0) :: arest) := by
      have := resolveAttrs_raw
        (scopeAfterAttrs [] (((nm0, none), v0) :: arest) :: nss)
        (((nm0, none), v0) :: arest) [] hallns
        (by simpa using keys_nodup (((nm0, none), v0) :: arest) hnames)
      simpa using this
    cases children with
    | nil =>
      obtain ⟨q7, h7, hs7, hn7⟩ := char_intag_slash q6 none (c0 :: ntail)
        dns (((nm0, none), v0) :: arest)
        (scopeAfterAttrs [] (((nm0, none), v0) :: arest) :: nss) []
        (rawAttrs (((nm0, none), v0) :: arest)) 0 hs6' hn6' hscres hra
      obtain ⟨q8, h8, hs8, hn8⟩ := char_expectclose_gt q7 none (c0 :: ntail)
        dns (scopeAfterAttrs [] (((nm0, none), v0) :: arest)) nss [] [] 0
        hs7 hn7 hscres
      refine ⟨'<' :: (c0 :: ntail) ++
        (attrsText (((nm0, none), v0) :: arest) ++ "/>".toList), q8,
        ?_, ?_, hs8⟩
      · exact fmt_elem_wf_nil parentE aps (c0 :: ntail)
          (((nm0, none), v0) :: arest) prefs dns hallns hdecl
      · refine StepsTo_congr
          (StepsTo_trans h1 (StepsTo_trans (StepsTo_char_none _ _ _ h2)
            (StepsTo_trans h3 (StepsTo_trans (StepsTo_char_none _ _ _ h4)
              (StepsTo_trans h5 (StepsTo_trans h6
                (StepsTo_trans (StepsTo_char_some _ _ _ _ h7)
                  (StepsTo_char_some _ _ _ _ h8)))))))) ?_ ?_
        · rw [show "/>".toList = ['/', '>'] from rfl]
          rw [show attrsText (((nm0, none), v0) :: arest) =
            attrText ((nm0, none), v0) ++ attrsText arest from rfl, attrText]
          simp
        · rw [elemEvents]
          simp [childEvents, flushEv]
    | cons ch0 chrest =>
      obtain ⟨q7, h7, hs7, hn7⟩ := char_intag_gt q6 none (c0 :: ntail) dns
        (((nm0, none), v0) :: arest)
        (scopeAfterAttrs [] (((nm0, none), v0) :: arest) :: nss) []
        (rawAttrs (((nm0, none), v0) :: arest)) 0 hs6' hn6' hscres hra
      obtain ⟨body, q8, hbody, h8, hs8, hne8⟩ := run_children (ch0 :: chrest)
        (.mk (c0 :: ntail) dns (((nm0, none), v0) :: arest) (ch0 :: chrest)
          prefs dns)
        (prefs ++ aps) dns q7
        (scopeAfterAttrs [] (((nm0, none), v0) :: arest) :: nss) none hch
        (fun s0 hs0 => Option.noConfusion hs0) rfl hs7 trivial hscres
      obtain ⟨q9, h9, hs9⟩ := seg_close (c0 :: ntail)
        (childEvents none (ch0 :: chrest)).2 dns q8
        (scopeAfterAttrs [] (((nm0, none), v0) :: arest)) nss [] hname
        hscres hs8 hne8
      refine ⟨'<' :: (c0 :: ntail) ++
        (attrsText (((nm0, none), v0) :: arest) ++
        ('>' :: body ++ ("</".toList ++ (c0 :: ntail) ++ ['>']))), q9,
        ?_, ?_, hs9⟩
      · exact fmt_elem_wf_cons parentE aps (c0 :: ntail)
          (((nm0, none), v0) :: arest) ch0 chrest prefs dns body hallns
          hdecl hbody
      · refine StepsTo_congr
          (StepsTo_trans h1 (StepsTo_trans (StepsTo_char_none _ _ _ h2)
            (StepsTo_trans h3 (StepsTo_trans (StepsTo_char_none _ _ _ h4)
              (StepsTo_trans h5 (StepsTo_trans h6
                (StepsTo_trans (StepsTo_char_some _ _ _ _ h7)
                  (StepsTo_trans h8 h9)))))))) ?_ ?_
        · rw [show "</".toList = ['<', '/'] from rfl]
          rw [show attrsText (((nm0, none), v0) :: arest) =
            attrText ((nm0, none), v0) ++ attrsText arest from rfl, attrText]
          simp
        · rw [elemEvents]
          simp

theorem run_children (cs : List Xml) (parEl : Element) (all : Scope)
    (dns : Option Str) (p : Parser) (nss : List Scope) (pend : Option Str)
    (hwf : wfChildren dns cs = true)
    (hhead : ∀ s0, pend = some s0 → ∀ s1 r1, cs ≠ .CharacterNode s1 :: r1)
    (hpar : parEl.default_ns = dns)
    (hs : Shape p .OutsideTag (pendBuf pend) nss [] 0) (hne : pendNE pend)
    (hres : resolveTagNS nss none = some dns) :
    ∃ body q, fmt_children parEl all cs = some body ∧
      StepsTo p body (childEvents pend cs).1 q ∧
      Shape q .OutsideTag (pendBuf (childEvents pend cs).2) nss [] 0 ∧
      pendNE (childEvents pend cs).2 := by
  cases cs with
  | nil => exact ⟨[], p, rfl, StepsTo_nil p, hs, hne⟩
  | cons x rest =>
    obtain ⟨hwfx, hwfrest, hadj⟩ := wfChildren_cons dns x rest hwf
    cases x with
    | CharacterNode s0 =>
      have hpend : pend = none := by
        cases hp : pend with
        | none => rfl
        | some s' => exact absurd rfl (hhead s' hp s0 rest)
      subst hpend
      have hs0ne : s0 ≠ [] := by
        rw [wfNode] at hwfx
        simpa using hwfx
      obtain ⟨q1, h1, hs1⟩ := run_text_buffer (escape s0) p [] nss [] 0 hs
        (fun c hc hlt => escape_not_mem s0 '<'
          escapeChar_not_lt (hlt ▸ hc))
      rw [List.nil_append] at hs1
      obtain ⟨body, q2, hbody, h2, hs2, hne2⟩ := run_children rest parEl all
        dns q1 nss (some s0) hwfrest
        (fun s1 hs1' s2 r2 hr => hadj s0 rfl s2 r2 hr) hpar hs1 hs0ne hres
      refine ⟨escape s0 ++ body, q2,
        fmt_children_cons parEl all _ rest _ body rfl hbody, ?_, hs2, hne2⟩
      exact StepsTo_trans h1 h2
    | ElementNode e =>
      obtain ⟨txt, q1, hfe, h1, hs1⟩ := run_elem e (some parEl) all dns p
        nss pend (by rw [wfNode] at hwfx; exact hwfx)
        (by rw [parentDefault]; exact hpar) hs hne hres
      obtain ⟨body, q2, hbody, h2, hs2, hne2⟩ := run_children rest parEl all
        dns q1 nss none hwfrest (fun s0 hs0 => Option.noConfusion hs0) hpar
        hs1 trivial hres
      refine ⟨txt ++ body, q2,
        fmt_children_cons parEl all _ rest txt body hfe hbody, ?_, hs2, hne2⟩
      exact StepsTo_trans h1 h2
    | CDATANode d =>
      have hd : ∀ c ∈ d, c ≠ ']' := by
        rw [wfNode] at hwfx
        intro c hc hcb
        simp only [Bool.not_eq_true'] at hwfx
        rw [List.contains_eq_any_beq] at hwfx
        rw [List.any_eq_false] at hwfx
        exact hwfx c hc (by simp [hcb])
      obtain ⟨q1, h1, hs1⟩ := seg_cdata d pend p nss [] hd hs hne
      obtain ⟨body, q2, hbody, h2, hs2, hne2⟩ := run_children rest parEl all
        dns q1 nss none hwfrest (fun s0 hs0 => Option.noConfusion hs0) hpar
        hs1 trivial hres
      refine ⟨"<![CDATA[".toList ++ d ++ "]]>".toList ++ body, q2, ?_, ?_,
        hs2, hne2⟩
      · exact fmt_children_cons parEl all _ rest _ body rfl hbody
      · refine StepsTo_congr (StepsTo_trans h1 h2) ?_ rfl
        rw [show "<![CDATA[".toList =
          '<' :: '!' :: '[' :: cdataPattern from rfl,
          show "]]>".toList = [']', ']', '>'] from rfl]
    | CommentNode d =>
      have hd : ∀ c ∈ d, c ≠ '-' := by
        rw [wfNode] at hwfx
        intro c hc hcb
        simp only [Bool.not_eq_true'] at hwfx
        rw [List.contains_eq_any_beq] at hwfx
        rw [List.any_eq_false] at hwfx
        exact hwfx c hc (by simp [hcb])
      obtain ⟨q1, h1, hs1⟩ := seg_comment d pend p nss [] hd hs hne
      obtain ⟨body, q2, hbody, h2, hs2, hne2⟩ := run_children rest parEl all
        dns q1 nss none hwfrest (fun s0 hs0 => Option.noConfusion hs0) hpar
        hs1 trivial hres
      refine ⟨"<!--".toList ++ d ++ "-->".toList ++ body, q2, ?_, ?_,
        hs2, hne2⟩
      · exact fmt_children_cons parEl all _ rest _ body rfl hbody
      · refine StepsTo_congr (StepsTo_trans h1 h2) ?_ rfl
        rw [show "<!--".toList = ['<', '!', '-', '-'] from rfl,
          show "-->".toList = ['-', '-', '>'] from rfl]
        simp
    | PINode d =>
      have hd : ∀ c ∈ d, c ≠ '?' ∧ c ≠ '>' := by
        rw [wfNode] at hwfx
        rw [Bool.and_eq_true] at hwfx
        intro c hc
        constructor
        · intro hcb
          have h0 := hwfx.1
          simp only [Bool.not_eq_true'] at h0
          rw [List.contains_eq_any_beq, List.any_eq_false] at h0
          exact h0 c hc (by simp [hcb])
        · intro hcb
          have h0 := hwfx.2
          simp only [Bool.not_eq_true'] at h0
          rw [List.contains_eq_any_beq, List.any_eq_false] at h0
          exact h0 c hc (by simp [hcb])
      obtain ⟨q1, h1, hs1⟩ := seg_pi d pend p nss [] hd hs hne
      obtain ⟨body, q2, hbody, h2, hs2, hne2⟩ := run_children rest parEl all
        dns q1 nss none hwfrest (fun s0 hs0 => Option.noConfusion hs0) hpar
        hs1 trivial hres
      refine ⟨"<?".toList ++ d ++ "?>".toList ++ body, q2, ?_, ?_,
        hs2, hne2⟩
      · exact fmt_children_cons parEl all _ rest _ body rfl hbody
      · refine StepsTo_congr (StepsTo_trans h1 h2) ?_ rfl
        rw [show "<?".toList = ['<', '?'] from rfl,
          show "?>".toList = ['?', '>'] from rfl]
        simp

end

/-! ### The builder on a well-formed element's events -/

theorem startScan_no_xmlns (attrs : AttrMap) (dns : List (Option Str))
    (prefs : Scope) (hall : ∀ x ∈ attrs, x.1.2 = none)
    (hno : ∀ x ∈ attrs, x.1.1 ≠ xmlnsPrefixStr) :
    startScan dns prefs attrs = (dns, prefs) := by
  induction attrs with
  | nil => rfl
  | cons a rest ih =>
    obtain ⟨⟨nm, ns0⟩, v⟩ := a
    have h1 : ns0 = none := by simpa using hall _ (List.mem_cons_self _ _)
    have h2 : nm ≠ xmlnsPrefixStr := by
      simpa using hno _ (List.mem_cons_self _ _)
    subst h1
    rw [startScan]
    rw [if_neg (fun h => h2 h.2)]
    rw [if_neg (by simp)]
    exact ih (fun x hx => hall x (List.mem_cons_of_mem _ hx))
      (fun x hx => hno x (List.mem_cons_of_mem _ hx))

theorem startScan_wf (attrs : AttrMap) (dns : List (Option Str))
    (prefs : Scope) (hall : ∀ x ∈ attrs, x.1.2 = none)
    (hnames : (attrs.map (fun x => x.1.1)).Nodup) :
    startScan dns prefs attrs =
      (match attrGet attrs (xmlnsPrefixStr, none) with
        | some v => (if v = [] then none else some v) :: dns.tail
        | none => dns, prefs) := by
  induction attrs generalizing dns with
  | nil => rfl
  | cons a rest ih =>
    obtain ⟨⟨nm, ns0⟩, v⟩ := a
    have h1 : ns0 = none := by simpa using hall _ (List.mem_cons_self _ _)
    subst h1
    simp only [List.map_cons, List.nodup_cons] at hnames
    rw [startScan, attrGet]
    by_cases h2 : nm = xmlnsPrefixStr
    · subst h2
      rw [if_pos ⟨rfl, rfl⟩, if_pos rfl]
      exact startScan_no_xmlns rest _ prefs
        (fun x hx => hall x (List.mem_cons_of_mem _ hx))
        (fun x hx he => hnames.1 (he ▸ List.mem_map_of_mem _ hx))
    · rw [if_neg (fun hh => h2 hh.2), if_neg (by simp),
        if_neg (by simp [h2])]
      exact ih dns (fun x hx => hall x (List.mem_cons_of_mem _ hx))
        hnames.2

theorem handle_event_start_full (b : ElementBuilder) (n : Str)
    (pdns dns : Option Str) (attrs : AttrMap)
    (hall : ∀ x ∈ attrs, x.1.2 = none)
    (hnames : (attrs.map (fun x => x.1.1)).Nodup)
    (hwx : wfXmlns pdns attrs dns = true)
    (hd : b.default_ns.headD none = pdns) :
    ∃ nd, b.handle_event (.ok (.ElementStart ⟨n, dns, none, attrs⟩)) =
        ({ b with
            stack := Element.mk n dns attrs [] b.prefixes dns :: b.stack,
            default_ns := nd }, none) ∧
      nd.headD none = dns ∧ nd.tail = b.default_ns := by
  have hstep : b.handle_event (.ok (.ElementStart ⟨n, dns, none, attrs⟩)) =
      ({ b with
          stack := Element.mk n dns attrs []
            (startScan (dnsDup b.default_ns) b.prefixes attrs).2
            ((startScan (dnsDup b.default_ns) b.prefixes attrs).1.headD
              none) :: b.stack,
          default_ns := (startScan (dnsDup b.default_ns) b.prefixes
            attrs).1 }, none) := by
    cases hdb : b.default_ns <;>
      simp only [ElementBuilder.handle_event, hdb, dnsDup] <;> rfl
  rw [startScan_wf attrs (dnsDup b.default_ns) b.prefixes hall hnames]
    at hstep
  rw [wfXmlns] at hwx
  cases hg : attrGet attrs (xmlnsPrefixStr, none) with
  | none =>
    rw [hg] at hwx
    have hdp : dns = pdns := by simpa using hwx
    simp only [hg] at hstep
    refine ⟨dnsDup b.default_ns, ?_, ?_, dnsDup_tail _⟩
    · rw [dnsDup_headD, hd, ← hdp] at hstep
      exact hstep
    · rw [dnsDup_headD, hd, hdp]
  | some v =>
    rw [hg] at hwx
    have hdv : dns = if v = [] then none else some v := by simpa using hwx
    simp only [hg] at hstep
    rw [dnsDup_tail] at hstep
    rw [show (((if v = [] then none else some v) :: b.default_ns).headD
      none) = (if v = [] then none else some v) from rfl] at hstep
    rw [← hdv] at hstep
    exact ⟨dns :: b.default_ns, hstep, rfl, rfl⟩

theorem runEvents_push_child (b : ElementBuilder) (ev : Event) (x : Xml)
    (es : List (Except ParserError Event)) (top : Element)
    (rest : List Element) (hb : b.stack = top :: rest)
    (hx : b.handle_event (.ok ev) = (b.pushTopChild x, none)) :
    b.runEvents (.ok ev :: es) =
      ({ b with stack := top.pushChild x :: rest }).runEvents es := by
  rw [runEvents_step _ _ _ _ hx]
  rw [show b.pushTopChild x = { b with stack := top.pushChild x :: rest }
    from by rw [ElementBuilder.pushTopChild, hb]]

theorem runEvents_flush (b : ElementBuilder) (pend : Option Str) (tn : Str)
    (tns : Option Str) (ta : AttrMap) (tc : List Xml) (tp : Scope)
    (td : Option Str) (rest : List Element)
    (es : List (Except ParserError Event))
    (hb : b.stack = Element.mk tn tns ta tc tp td :: rest) :
    b.runEvents ((flushEv pend).map Except.ok ++ es) =
      ({ b with stack := Element.mk tn tns ta (tc ++ flushXml pend) tp td ::
          rest }).runEvents es := by
  cases pend with
  | none =>
    conv_rhs => rw [show tc ++ flushXml none = tc from by simp [flushXml],
      ← hb]
    rfl
  | some s =>
    refine (runEvents_push_child b (.Characters s) (.CharacterNode s) es _ _
      hb rfl).trans ?_
    rfl

mutual

theorem runEvents_elem_push (t : Element) (pdns : Option Str)
    (b : ElementBuilder) (top : Element) (rest : List Element)
    (es : List (Except ParserError Event))
    (hwf : wfElem pdns t = true) (hb : b.stack = top :: rest)
    (hpref : b.prefixes = seedPrefixes)
    (hd : b.default_ns.headD none = pdns) :
    b.runEvents ((elemEvents t).map Except.ok ++ es) =
      ({ b with stack := top.pushChild (.ElementNode t) :: rest
        }).runEvents es := by
  obtain ⟨name, ns, attrs, children, prefs, dns⟩ := t
  rw [wfElem] at hwf
  simp only [Bool.and_eq_true, decide_eq_true_eq] at hwf
  obtain ⟨⟨⟨⟨⟨hname, hns⟩, hprefs⟩, hwa⟩, hwx⟩, hch⟩ := hwf
  subst ns
  subst prefs
  have hall : ∀ x ∈ attrs, x.1.2 = none := by
    rw [wfAttrList, Bool.and_eq_true] at hwa
    have h1 := hwa.1
    rw [List.all_eq_true] at h1
    intro x hx
    have h2 := h1 x hx
    rw [Bool.and_eq_true] at h2
    simpa using h2.1
  have hnames : (attrs.map (fun x => x.1.1)).Nodup := by
    rw [wfAttrList, Bool.and_eq_true] at hwa
    simpa using hwa.2
  obtain ⟨nd, hstart, hndh, hndt⟩ := handle_event_start_full b name pdns dns
    attrs hall hnames hwx hd
  rw [elemEvents, List.map_cons, List.cons_append]
  refine (runEvents_step _ _ _ _ hstart).trans ?_
  have hE : (((childEvents none children).1 ++
        flushEv (childEvents none children).2 ++
        [Event.ElementEnd ⟨name, dns, none⟩]).map Except.ok) ++ es =
      (((childEvents none children).1 ++
        flushEv (childEvents none children).2).map Except.ok) ++
        (Except.ok (Event.ElementEnd ⟨name, dns, none⟩) :: es) := by
    simp only [List.map_append, List.map_cons, List.map_nil,
      List.append_assoc, List.singleton_append, List.nil_append]
  rw [hE]
  refine (runEvents_children children dns none
    { b with
      stack := Element.mk name dns attrs [] b.prefixes dns :: b.stack,
      default_ns := nd }
    name dns attrs [] b.prefixes dns (top :: rest) _ hch
    (fun s0 h => Option.noConfusion h) (by simp only [hb]) hpref
    hndh).trans ?_
  refine ((runEvents_end_push
    { b with
      stack := Element.mk name dns attrs ([] ++ (flushXml none ++ children))
        b.prefixes dns :: top :: rest,
      default_ns := nd }
    ⟨name, dns, none⟩
    (Element.mk name dns attrs ([] ++ (flushXml none ++ children))
      b.prefixes dns) top rest es (by rfl) rfl rfl).trans ?_)
  simp only [hndt, hpref, flushXml, List.nil_append]

theorem runEvents_children (cs : List Xml) (dns : Option Str)
    (pend : Option Str) (b : ElementBuilder) (tn : Str) (tns : Option Str)
    (ta : AttrMap) (tc : List Xml) (tp : Scope) (td : Option Str)
    (rest : List Element) (es : List (Except ParserError Event))
    (hwf : wfChildren dns cs = true)
    (hhead : ∀ s0, pend = some s0 → ∀ s1 r1, cs ≠ .CharacterNode s1 :: r1)
    (hb : b.stack = Element.mk tn tns ta tc tp td :: rest)
    (hpref : b.prefixes = seedPrefixes)
    (hd : b.default_ns.headD none = dns) :
    b.runEvents (((childEvents pend cs).1 ++
        flushEv (childEvents pend cs).2).map Except.ok ++ es) =
      ({ b with
          stack := Element.mk tn tns ta (tc ++ (flushXml pend ++ cs)) tp td
            :: rest }).runEvents es := by
  cases cs with
  | nil =>
    refine (runEvents_flush b pend tn tns ta tc tp td rest es hb).trans ?_
    rw [show tc ++ (flushXml pend ++ ([] : List Xml)) = tc ++ flushXml pend
      from by rw [List.append_nil]]
  | cons x rest' =>
    obtain ⟨hwfx, hwfrest, hadj⟩ := wfChildren_cons dns x rest' hwf
    cases x with
    | CharacterNode s =>
      have hpend : pend = none := by
        cases hp : pend with
        | none => rfl
        | some s' => exact absurd rfl (hhead s' hp s rest')
      subst hpend
      refine (runEvents_children rest' dns (some s) b tn tns ta tc tp td
        rest es hwfrest (fun s1 h1 s2 r2 hr => hadj s rfl s2 r2 hr) hb
        hpref hd).trans ?_
      rfl
    | ElementNode e =>
      have hE : (((childEvents pend (.ElementNode e :: rest')).1 ++
            flushEv (childEvents pend (.ElementNode e :: rest')).2).map
            Except.ok) ++ es =
          ((flushEv pend).map Except.ok) ++
            ((elemEvents e).map Except.ok ++
              ((((childEvents none rest').1 ++
                flushEv (childEvents none rest').2).map Except.ok) ++
                es)) := by
        rw [show childEvents pend (.ElementNode e :: rest') =
          ((flushEv pend ++ elemEvents e) ++ (childEvents none rest').1,
            (childEvents none rest').2) from rfl]
        simp only [List.map_append, List.append_assoc]
      rw [hE]
      refine (runEvents_flush b pend tn tns ta tc tp td rest _ hb).trans ?_
      refine (runEvents_elem_push e dns
        { b with
          stack := Element.mk tn tns ta (tc ++ flushXml pend) tp td
            :: rest }
        (.mk tn tns ta (tc ++ flushXml pend) tp td) rest _
        (by rw [wfNode] at hwfx; exact hwfx) (by rfl) hpref hd).trans ?_
      refine (runEvents_children rest' dns none
        { b with
          stack := Element.mk tn tns ta ((tc ++ flushXml pend) ++
            [Xml.ElementNode e]) tp td :: rest }
        tn tns ta ((tc ++ flushXml pend) ++ [.ElementNode e]) tp td rest es
        hwfrest (fun s0 h => Option.noConfusion h) (by rfl) hpref
        hd).trans ?_
      rw [show ((tc ++ flushXml pend) ++ [Xml.ElementNode e]) ++
        (flushXml none ++ rest') =
        tc ++ (flushXml pend ++ (Xml.ElementNode e :: rest')) from by
        simp [flushXml]]
    | CDATANode d =>
      have hE : (((childEvents pend (.CDATANode d :: rest')).1 ++
            flushEv (childEvents pend (.CDATANode d :: rest')).2).map
            Except.ok) ++ es =
          ((flushEv pend).map Except.ok) ++
            (Except.ok (Event.CDATA d) ::
              ((((childEvents none rest').1 ++
                flushEv (childEvents none rest').2).map Except.ok) ++
                es)) := by
        rw [show childEvents pend (.CDATANode d :: rest') =
          ((flushEv pend ++ [.CDATA d]) ++ (childEvents none rest').1,
            (childEvents none rest').2) from rfl]
        simp only [List.map_append, List.map_cons, List.map_nil,
          List.append_assoc, List.singleton_append, List.cons_append,
          List.nil_append]
      rw [hE]
      refine (runEvents_flush b pend tn tns ta tc tp td rest _ hb).trans ?_
      refine (runEvents_push_child
        { b with
          stack := Element.mk tn tns ta (tc ++ flushXml pend) tp td
            :: rest }
        (.CDATA d) (.CDATANode d) _
        (.mk tn tns ta (tc ++ flushXml pend) tp td) rest (by rfl)
        rfl).trans ?_
      refine (runEvents_children rest' dns none
        { b with
          stack := Element.mk tn tns ta ((tc ++ flushXml pend) ++
            [Xml.CDATANode d]) tp td :: rest }
        tn tns ta ((tc ++ flushXml pend) ++ [.CDATANode d]) tp td rest es
        hwfrest (fun s0 h => Option.noConfusion h) (by rfl) hpref
        hd).trans ?_
      rw [show ((tc ++ flushXml pend) ++ [Xml.CDATANode d]) ++
        (flushXml none ++ rest') =
        tc ++ (flushXml pend ++ (Xml.CDATANode d :: rest')) from by
        simp [flushXml]]
    | CommentNode d =>
      have hE : (((childEvents pend (.CommentNode d :: rest')).1 ++
            flushEv (childEvents pend (.CommentNode d :: rest')).2).map
            Except.ok) ++ es =
          ((flushEv pend).map Except.ok) ++
            (Except.ok (Event.Comment d) ::
              ((((childEvents none rest').1 ++
                flushEv (childEvents none rest').2).map Except.ok) ++
                es)) := by
        rw [show childEvents pend (.CommentNode d :: rest') =
          ((flushEv pend ++ [.Comment d]) ++ (childEvents none rest').1,
            (childEvents none rest').2) from rfl]
        simp only [List.map_append, List.map_cons, List.map_nil,
          List.append_assoc, List.singleton_append, List.cons_append,
          List.nil_append]
      rw [hE]
      refine (runEvents_flush b pend tn tns ta tc tp td rest _ hb).trans ?_
      refine (runEvents_push_child
        { b with
          stack := Element.mk tn tns ta (tc ++ flushXml pend) tp td
            :: rest }
        (.Comment d) (.CommentNode d) _
        (.mk tn tns ta (tc ++ flushXml pend) tp td) rest (by rfl)
        rfl).trans ?_
      refine (runEvents_children rest' dns none
        { b with
          stack := Element.mk tn tns ta ((tc ++ flushXml pend) ++
            [Xml.CommentNode d]) tp td :: rest }
        tn tns ta ((tc ++ flushXml pend) ++ [.CommentNode d]) tp td rest es
        hwfrest (fun s0 h => Option.noConfusion h) (by rfl) hpref
        hd).trans ?_
      rw [show ((tc ++ flushXml pend) ++ [Xml.CommentNode d]) ++
        (flushXml none ++ rest') =
        tc ++ (flushXml pend ++ (Xml.CommentNode d :: rest')) from by
        simp [flushXml]]
    | PINode d =>
      have hE : (((childEvents pend (.PINode d :: rest')).1 ++
            flushEv (childEvents pend (.PINode d :: rest')).2).map
            Except.ok) ++ es =
          ((flushEv pend).map Except.ok) ++
            (Except.ok (Event.PI d) ::
              ((((childEvents none rest').1 ++
                flushEv (childEvents none rest').2).map Except.ok) ++
                es)) := by
        rw [show childEvents pend (.PINode d :: rest') =
          ((flushEv pend ++ [.PI d]) ++ (childEvents none rest').1,
            (childEvents none rest').2) from rfl]
        simp only [List.map_append, List.map_cons, List.map_nil,
          List.append_assoc, List.singleton_append, List.cons_append,
          List.nil_append]
      rw [hE]
      refine (runEvents_flush b pend tn tns ta tc tp td rest _ hb).trans ?_
      refine (runEvents_push_child
        { b with
          stack := Element.mk tn tns ta (tc ++ flushXml pend) tp td
            :: rest }
        (.PI d) (.PINode d) _
        (.mk tn tns ta (tc ++ flushXml pend) tp td) rest (by rfl)
        rfl).trans ?_
      refine (runEvents_children rest' dns none
        { b with
          stack := Element.mk tn tns ta ((tc ++ flushXml pend) ++
            [Xml.PINode d]) tp td :: rest }
        tn tns ta ((tc ++ flushXml pend) ++ [.PINode d]) tp td rest es
        hwfrest (fun s0 h => Option.noConfusion h) (by rfl) hpref
        hd).trans ?_
      rw [show ((tc ++ flushXml pend) ++ [Xml.PINode d]) ++
        (flushXml none ++ rest') =
        tc ++ (flushXml pend ++ (Xml.PINode d :: rest')) from by
        simp [flushXml]]

end

theorem runEvents_elem_root (t : Element) (b : ElementBuilder)
    (es : List (Except ParserError Event))
    (hwf : wfElem none t = true) (hb : b.stack = [])
    (hpref : b.prefixes = seedPrefixes)
    (hd : b.default_ns.headD none = none) :
    b.runEvents ((elemEvents t).map Except.ok ++ es) =
      (.ok t :: (b.runEvents es).1, (b.runEvents es).2) := by
  obtain ⟨name, ns, attrs, children, prefs, dns⟩ := t
  rw [wfElem] at hwf
  simp only [Bool.and_eq_true, decide_eq_true_eq] at hwf
  obtain ⟨⟨⟨⟨⟨hname, hns⟩, hprefs⟩, hwa⟩, hwx⟩, hch⟩ := hwf
  subst ns
  subst prefs
  have hall : ∀ x ∈ attrs, x.1.2 = none := by
    rw [wfAttrList, Bool.and_eq_true] at hwa
    have h1 := hwa.1
    rw [List.all_eq_true] at h1
    intro x hx
    have h2 := h1 x hx
    rw [Bool.and_eq_true] at h2
    simpa using h2.1
  have hnames : (attrs.map (fun x => x.1.1)).Nodup := by
    rw [wfAttrList, Bool.and_eq_true] at hwa
    simpa using hwa.2
  obtain ⟨nd, hstart, hndh, hndt⟩ := handle_event_start_full b name none dns
    attrs hall hnames hwx hd
  rw [elemEvents, List.map_cons, List.cons_append]
  refine (runEvents_step _ _ _ _ hstart).trans ?_
  have hE : (((childEvents none children).1 ++
        flushEv (childEvents none children).2 ++
        [Event.ElementEnd ⟨name, dns, none⟩]).map Except.ok) ++ es =
      (((childEvents none children).1 ++
        flushEv (childEvents none children).2).map Except.ok) ++
        (Except.ok (Event.ElementEnd ⟨name, dns, none⟩) :: es) := by
    simp only [List.map_append, List.map_cons, List.map_nil,
      List.append_assoc, List.singleton_append, List.nil_append]
  rw [hE]
  refine (runEvents_children children dns none
    { b with
      stack := Element.mk name dns attrs [] b.prefixes dns :: b.stack,
      default_ns := nd }
    name dns attrs [] b.prefixes dns [] _ hch
    (fun s0 h => Option.noConfusion h) (by simp only [hb]) hpref
    hndh).trans ?_
  refine ((runEvents_end_root
    { b with
      stack := [Element.mk name dns attrs
        ([] ++ (flushXml none ++ children)) b.prefixes dns],
      default_ns := nd }
    ⟨name, dns, none⟩
    (Element.mk name dns attrs ([] ++ (flushXml none ++ children))
      b.prefixes dns) es rfl rfl rfl).trans ?_)
  simp only [hndt, hpref, flushXml, List.nil_append]
  have hbeq : ({ stack := [], default_ns := b.default_ns, prefixes := seedPrefixes } : ElementBuilder) = b := by
    rw [← hb, ← hpref]
  rw [hbeq]

/-! ### C3: the render/parse/build round trip -/

theorem parse_render (t : Element) (hwf : wfElem none t = true) :
    ∃ txt, render t = some txt ∧
      parseEvents txt = (elemEvents t).map Except.ok := by
  obtain ⟨txt, q, hfmt, hsteps, hshape⟩ := run_elem t none [] none
    Parser.new [initialScope] none hwf rfl
    ⟨rfl, rfl, rfl, rfl, rfl, rfl⟩ trivial rfl
  refine ⟨txt, hfmt, ?_⟩
  have h0 := (hsteps []).1
  rw [List.append_nil] at h0
  rw [parseEvents, h0]
  simp [flushEv, Parser.run]

/-- **C3.** For every well-formed element tree (`wfElem`: safe names, the
stored namespace and prefix table consistent, unprefixed attributes with
distinct names, a default-namespace change recorded as an explicit
`xmlns` attribute, text children non-empty and non-adjacent, and data
free of its delimiters): the `Display` rendering of the tree feeds back
through a fresh `Parser` and `ElementBuilder` to yield exactly one
completed element structurally equal to the original — same name, same
resolved namespace, same attribute map, same children in order. -/
theorem claim_C3_render_roundtrip (t : Element)
    (hwf : wfElem none t = true) :
    ∃ txt, render t = some txt ∧
      (ElementBuilder.new.runEvents (parseEvents txt)).1 =
        [Except.ok t] := by
  obtain ⟨txt, hfmt, hpe⟩ := parse_render t hwf
  refine ⟨txt, hfmt, ?_⟩
  rw [hpe]
  have h := runEvents_elem_root t ElementBuilder.new [] hwf rfl rfl rfl
  rw [List.append_nil] at h
  rw [h]
  rfl

/-- Concrete round trip: a namespaced document with an `xmlns`
declaration, a second attribute, text, a child element, CDATA, a comment
and a processing instruction. -/
theorem claim_C3_witness :
    wfElem none (Element.mk "doc".toList (some "urn:x".toList)
      [(("xmlns".toList, none), "urn:x".toList),
        (("id".toList, none), "7".toList)]
      [Xml.CharacterNode "hi".toList,
        Xml.ElementNode (Element.mk "kid".toList (some "urn:x".toList) [] []
          seedPrefixes (some "urn:x".toList)),
        Xml.CDATANode "raw".toList,
        Xml.CommentNode "note".toList,
        Xml.PINode "app".toList]
      seedPrefixes (some "urn:x".toList)) = true ∧
      (∃ txt, render (Element.mk "doc".toList (some "urn:x".toList)
      [(("xmlns".toList, none), "urn:x".toList),
        (("id".toList, none), "7".toList)]
      [Xml.CharacterNode "hi".toList,
        Xml.ElementNode (Element.mk "kid".toList (some "urn:x".toList) [] []
          seedPrefixes (some "urn:x".toList)),
        Xml.CDATANode "raw".toList,
        Xml.CommentNode "note".toList,
        Xml.PINode "app".toList]
      seedPrefixes (some "urn:x".toList)) = some txt ∧
        (ElementBuilder.new.runEvents (parseEvents txt)).1 =
          [Except.ok (Element.mk "doc".toList (some "urn:x".toList)
      [(("xmlns".toList, none), "urn:x".toList),
        (("id".toList, none), "7".toList)]
      [Xml.CharacterNode "hi".toList,
        Xml.ElementNode (Element.mk "kid".toList (some "urn:x".toList) [] []
          seedPrefixes (some "urn:x".toList)),
        Xml.CDATANode "raw".toList,
        Xml.CommentNode "note".toList,
        Xml.PINode "app".toList]
      seedPrefixes (some "urn:x".toList))]) :=
  ⟨by decide, claim_C3_render_roundtrip (Element.mk "doc".toList (some "urn:x".toList)
      [(("xmlns".toList, none), "urn:x".toList),
        (("id".toList, none), "7".toList)]
      [Xml.CharacterNode "hi".toList,
        Xml.ElementNode (Element.mk "kid".toList (some "urn:x".toList) [] []
          seedPrefixes (some "urn:x".toList)),
        Xml.CDATANode "raw".toList,
        Xml.CommentNode "note".toList,
        Xml.PINode "app".toList]
      seedPrefixes (some "urn:x".toList)) (by decide)⟩

end RustyXML
